import Mathlib

/-!
# Bencode codec (impos/bencode): shallow embedding and verified properties

The Go sources `encoder.go`, `decoder.go` and `helpers.go` are embedded as Lean
functions.  A Go `string` / `[]byte` is a list of bytes, a
`map[string]interface{}` is an association list whose list order stands for the
(unspecified) iteration order of the map, and every Go function that returns a
`(value, error)` pair returns both components here as well.  The decoder is
embedded twice: on the byte sequence that its buffered reader delivers, and on
the buffered reader itself (`Reader`, `Buffered.Decode`), where the buffer and
what is left in the caller's reader are told apart; `buffered_Decode_agrees`
shows that both return the same.
-/

namespace Bencode

/-! ## Data model -/

/-- The contents of a Go `string`, of a `[]byte`, or of the input stream: the
bytes as natural numbers.  Go bytes are below 256; nothing below depends on
that bound. -/
abbrev Bytes := List Nat

/-- The signed Go integer types listed in `writeValue`. -/
inductive IntKind where
  | int
  | int8
  | int16
  | int32
  | int64
  deriving DecidableEq, Repr

/-- The unsigned Go integer types of width at most 64 bits. -/
inductive UintKind where
  | uint
  | uint8
  | uint16
  | uint32
  | uint64
  deriving DecidableEq, Repr

/-- A dynamic Go value (`interface{}`) as the codec sees it.  `other` stands for
a value of any Go type that is none of the others (for instance `float64`,
`bool`, the nil interface); it carries the name that the verb `%T` prints. -/
inductive Value where
  | str (s : Bytes)
  | bytes (b : Bytes)
  | int (k : IntKind) (v : Int)
  | uint (k : UintKind) (v : Nat)
  | list (l : List Value)
  | dict (d : List (Bytes × Value))
  | other (typeName : String)

/-- A Go `map[string]interface{}`: the entries in iteration order. -/
abbrev Dict := List (Bytes × Value)

/-- Go `error` values produced by the codec.  `wrap msg e` is
`fmt.Errorf(msg + ": %w", e)`. -/
inductive Error where
  | eof
  | unexpectedEOF
  | invalidNum
  | outOfRange
  | notValidFile
  | unsupported (typeName : String)
  | wrongType (typeName : String)
  | wrap (msg : String) (inner : Error)
  deriving DecidableEq, Repr

/-- The outcome of a decoder routine.  `ok v rest`: value `v`, nil error, and
`rest` is the input that the decoder has not taken from its buffered reader
`d.data` (part of it may already have left the caller's reader and sit in the
buffer, see `Reader` and `Buffered.Decode`).  `err v e`: the value returned next
to the non-nil error `e`.  `panic`: a run-time panic.  `fuelOut`: the recursion
budget of the embedding is used up (never the case in `Decode`, see
`Decode_ne_fuelOut`). -/
inductive Res (α : Type) where
  | ok (v : α) (rest : Bytes)
  | err (v : α) (e : Error)
  | panic
  | fuelOut

/-- The type bytes of `encoder.go`. -/
abbrev typeDictionary : Nat := 100

/-- The byte `l`. -/
abbrev typeList : Nat := 108

/-- The byte `i`. -/
abbrev typeInteger : Nat := 105

/-- The byte `e`. -/
abbrev endOfValue : Nat := 101

/-- The bytes of an ASCII string literal. -/
def ascii (s : String) : Bytes := s.toList.map Char.toNat

/-- Width in bits of a signed integer type (`int` on a 64-bit platform). -/
def IntKind.bits : IntKind → Nat
  | .int => 64
  | .int8 => 8
  | .int16 => 16
  | .int32 => 32
  | .int64 => 64

/-- Width in bits of an unsigned integer type (`uint` on a 64-bit platform). -/
def UintKind.bits : UintKind → Nat
  | .uint => 64
  | .uint8 => 8
  | .uint16 => 16
  | .uint32 => 32
  | .uint64 => 64

/-- The name that `%T` prints for an unsigned integer type. -/
def UintKind.typeName : UintKind → String
  | .uint => "uint"
  | .uint8 => "uint8"
  | .uint16 => "uint16"
  | .uint32 => "uint32"
  | .uint64 => "uint64"

/-! ## Go maps -/

/-- The keys of a map, in iteration order (`for k := range d`). -/
def mapKeys (d : Dict) : List Bytes := d.map Prod.fst

/-- The map index expression `d[k]` as an option. -/
def mapLookup : Dict → Bytes → Option Value
  | [], _ => none
  | (k1, v) :: rest, k => if k = k1 then some v else mapLookup rest k

/-- The map index expression `d[k]`: the nil interface when `k` is absent. -/
def mapIndex (d : Dict) (k : Bytes) : Value :=
  (mapLookup d k).getD (.other "<nil>")

/-- The assignment `dict[key] = val`: replaces the value of an existing key,
adds the entry otherwise. -/
def mapAssign : Dict → Bytes → Value → Dict
  | [], k, v => [(k, v)]
  | (k1, v1) :: rest, k, v =>
    if k = k1 then (k1, v) :: rest else (k1, v1) :: mapAssign rest k v

/-! ## Go standard library: `strconv`, `sort` -/

/-- Digits of `n` in base 10, most significant first, in front of `acc`; `fuel`
bounds the number of digits. -/
def formatBits : Nat → Nat → Bytes → Bytes
  | 0, _, acc => acc
  | fuel + 1, n, acc =>
    if n < 10 then (48 + n) :: acc
    else formatBits fuel (n / 10) ((48 + n % 10) :: acc)

/-- Model of `strconv.FormatUint(u, 10)`. -/
def formatUint (u : Nat) : Bytes := formatBits (u + 1) u []

/-- Model of `strconv.FormatInt(i, 10)`: a `-` and the magnitude when negative. -/
def formatInt (i : Int) : Bytes :=
  if i < 0 then 45 :: formatUint i.natAbs else formatUint i.toNat

/-- Model of `strconv.Itoa`, which is `FormatInt(int64(i), 10)`. -/
def itoa (i : Int) : Bytes := formatInt i

/-- The digit loop of `strconv.ParseUint(s, 10, 64)` on 64-bit machine words:
`cutoff = maxUint64/10 + 1`, and a byte that is no decimal digit is a syntax
error (a letter gives a digit value of at least 10, which the base rejects). -/
def parseUintLoop : Bytes → Nat → Except Error Nat
  | [], n => .ok n
  | c :: cs, n =>
    if 48 ≤ c ∧ c ≤ 57 then
      if n ≥ (2 ^ 64 - 1) / 10 + 1 then .error .outOfRange
      else
        let n10 := (n * 10) % 2 ^ 64
        let n1 := (n10 + (c - 48)) % 2 ^ 64
        if n1 < n10 ∨ n1 > 2 ^ 64 - 1 then .error .outOfRange
        else parseUintLoop cs n1
    else .error .invalidNum

/-- Model of `strconv.ParseUint(s, 10, 64)`. -/
def parseUint (s : Bytes) : Except Error Nat :=
  if s = [] then .error .invalidNum else parseUintLoop s 0

/-- The conversion `int64(un)` of a 64-bit unsigned word. -/
def int64OfUint64 (un : Nat) : Int :=
  if un < 2 ^ 63 then (un : Int) else (un : Int) - 2 ^ 64

/-- Negation of an `int64` with wrap-around. -/
def negInt64 (n : Int) : Int :=
  if n = -(2 ^ 63) then n else -n

/-- Model of `strconv.ParseInt(s, 10, 64)`: an optional sign `+` or `-`, then
`ParseUint`, then the range check against `cutoff = 1 << 63`.  A range error of
`ParseUint` leaves `un = maxUint64`, which fails the range check for either
sign. -/
def parseInt (s : Bytes) : Except Error Int :=
  match s with
  | [] => .error .invalidNum
  | c :: cs =>
    let neg := decide (c = 45)
    let s1 := if c = 43 ∨ c = 45 then cs else s
    match parseUint s1 with
    | .error e => .error e
    | .ok un =>
      if neg = false ∧ un ≥ 2 ^ 63 then .error .outOfRange
      else if neg = true ∧ un > 2 ^ 63 then .error .outOfRange
      else
        let n := int64OfUint64 un
        .ok (if neg then negInt64 n else n)

/-- Go string comparison `a < b`: byte-wise lexicographic. -/
def strLess : Bytes → Bytes → Bool
  | [], [] => false
  | [], _ :: _ => true
  | _ :: _, [] => false
  | a :: as, b :: bs =>
    if a < b then true else if b < a then false else strLess as bs

/-- Go string comparison `a <= b`. -/
def strLe (a b : Bytes) : Prop := strLess b a = false

/-- Insertion of a key into an ascending list. -/
def insertKey (k : Bytes) : List Bytes → List Bytes
  | [] => [k]
  | x :: xs => if strLess x k then x :: insertKey k xs else k :: x :: xs

/-- Model of `sort.StringSlice.Sort`: the keys in increasing order.  The result
of sorting is determined by the order alone (`sortStrings_unique`), so the
sorting algorithm does not matter. -/
def sortStrings : List Bytes → List Bytes
  | [] => []
  | k :: ks => insertKey k (sortStrings ks)

/-! ## encoder.go -/

/-- The state of the encoder after a write: the buffer `e.data` and the
returned error (`none` is the nil error). -/
abbrev Written := Bytes × Option Error

/-- Sequencing of two writes: the second runs only when the first returned a nil
error. -/
def Written.andThen (w : Written) (f : Bytes → Written) : Written :=
  match w with
  | (buf, none) => f buf
  | (buf, some e) => (buf, some e)

/-- Embedding of `encoder.writeInt`. -/
def writeInt (i : Int) (buf : Bytes) : Written :=
  (buf ++ [typeInteger] ++ formatInt i ++ [endOfValue], none)

/-- Embedding of `encoder.writeUint`. -/
def writeUint (i : Nat) (buf : Bytes) : Written :=
  (buf ++ [typeInteger] ++ formatUint i ++ [endOfValue], none)

/-- Embedding of `encoder.writeString`. -/
def writeString (s : Bytes) (buf : Bytes) : Written :=
  (buf ++ itoa s.length ++ ascii ":" ++ s, none)

/-- A loop `for _, x := range xs` whose body `f x` writes to the buffer and
returns from the function with its error when that is not nil. -/
def forEach {α : Type} (f : α → Bytes → Written) : List α → Bytes → Written
  | [], buf => (buf, none)
  | x :: xs, buf => (f x buf).andThen (forEach f xs)

mutual
/-- Embedding of `encoder.writeValue`.  The bodies of `writeList` and
`writeDictionary` appear in the `list` and `dict` cases, so that the recursion
is structural; `writeList_eq` and `writeDictionary_eq` relate them to the
functions of those names. -/
def writeValue : Value → Bytes → Written
  | .str s, buf => writeString s buf
  | .bytes b, buf => writeString b buf
  | .int _ v, buf => writeInt v buf
  | .uint .uint v, buf => writeUint v buf
  | .uint .uint16 v, buf => writeUint v buf
  | .uint .uint32 v, buf => writeUint v buf
  | .uint .uint64 v, buf => writeUint v buf
  | .uint .uint8 _, buf => (buf, some (.unsupported "uint8"))
  | .list l, buf =>
    (writeListLoop l (buf ++ [typeList])).andThen fun b => (b ++ [endOfValue], none)
  | .dict d, buf =>
    (forEach (fun k b => (writeString k b).andThen (writeIndexed d k))
      (sortStrings (mapKeys d)) (buf ++ [typeDictionary])).andThen
      fun b => (b ++ [endOfValue], none)
  | .other t, buf => (buf, some (.unsupported t))
/-- The loop `for _, v := range l` of `writeList`. -/
def writeListLoop : List Value → Bytes → Written
  | [], buf => (buf, none)
  | v :: vs, buf => (writeValue v buf).andThen (writeListLoop vs)
/-- The call `e.writeValue(d[k])`: the map lookup and the write in one
recursion over the entries (`writeIndexed_eq`). -/
def writeIndexed : List (Bytes × Value) → Bytes → Bytes → Written
  | [], _, buf => (buf, some (.unsupported "<nil>"))
  | (k1, v) :: rest, k, buf =>
    if k = k1 then writeValue v buf else writeIndexed rest k buf
end

/-- Embedding of `encoder.writeList`. -/
def writeList (l : List Value) (buf : Bytes) : Written :=
  (writeListLoop l (buf ++ [typeList])).andThen fun b => (b ++ [endOfValue], none)

/-- Embedding of `encoder.writeDictionary`: collect the keys, sort them, write
`d`, then every key followed by `d[k]`, then `e`. -/
def writeDictionary (d : Dict) (buf : Bytes) : Written :=
  let keys := sortStrings (mapKeys d)
  (forEach (fun k b => (writeString k b).andThen (writeValue (mapIndex d k)))
    keys (buf ++ [typeDictionary])).andThen
    fun b => (b ++ [endOfValue], none)

/-- Embedding of `Encode`: the returned pair `([]byte, error)`; `none` is nil. -/
def Encode (i : Dict) : Option Bytes × Option Error :=
  match writeDictionary i [] with
  | (_, some err) => (none, some (.wrap "write value" err))
  | (buf, none) => (some buf, none)

/-! ## decoder.go -/

/-- Model of `bufio.Reader.ReadByte` on a finite input; `none` is `io.EOF`. -/
def readByte : Bytes → Option (Nat × Bytes)
  | [] => none
  | c :: rest => some (c, rest)

/-- Model of `bufio.Reader.ReadBytes(delim)`: the bytes up to and including the
first `delim`, and the input after it; `none` is `io.EOF` (no `delim` left). -/
def readBytes (delim : Nat) : Bytes → Option (Bytes × Bytes)
  | [] => none
  | c :: rest =>
    if c = delim then some ([c], rest)
    else match readBytes delim rest with
      | none => none
      | some (line, rest1) => some (c :: line, rest1)

/-- Model of `io.ReadFull` into a buffer of `n` bytes. -/
def readFull (n : Nat) (inp : Bytes) : Except Error (Bytes × Bytes) :=
  if n ≤ inp.length then .ok (inp.take n, inp.drop n)
  else if inp = [] then .error .eof
  else .error .unexpectedEOF

/-- Embedding of `decoder.readLength` (the `0` returned with an error is
dropped, its only caller ignores it). -/
def readLength (inp : Bytes) : Except Error (Int × Bytes) :=
  match readBytes 58 inp with
  | none => .error (.wrap "read bytes" .eof)
  | some (valBytes, rest) =>
    let valStr := valBytes.take (valBytes.length - 1)
    match parseInt valStr with
    | .error e => .error (.wrap "parse int" e)
    | .ok val => .ok (val, rest)

/-- Embedding of `decoder.readString`.  `make([]byte, length)` panics when
`length` is negative.  Memory is not bounded here: a length above what the
platform can allocate, for which `make` panics as well, is read like any other
length (an error when the input is shorter). -/
def readString (inp : Bytes) : Res Bytes :=
  match readLength inp with
  | .error e => .err [] (.wrap "read length" e)
  | .ok (length, rest) =>
    if length < 0 then .panic
    else match readFull length.toNat rest with
      | .error e => .err [] (.wrap "read value" e)
      | .ok (result, rest1) => .ok result rest1

/-- Embedding of `decoder.readInteger`. -/
def readInteger (inp : Bytes) : Res Value :=
  match readBytes endOfValue inp with
  | none => .err (.int .int 0) (.wrap "read bytes" .eof)
  | some (valBytes, rest) =>
    let valStr := valBytes.take (valBytes.length - 1)
    match parseInt valStr with
    | .ok val => .ok (.int .int64 val) rest
    | .error _ =>
      match parseUint valStr with
      | .ok val => .ok (.uint .uint64 val) rest
      | .error e => .err (.int .int 0) e

mutual
/-- Embedding of `decoder.readValue`; the type byte has been read.  In the
default case `UnreadByte` puts the type byte back (it cannot fail right after
`ReadByte`). -/
def readValue : Nat → Nat → Bytes → Res Value
  | 0, _, _ => .fuelOut
  | fuel + 1, valType, inp =>
    if valType = typeDictionary then
      match readDictionaryLoop fuel [] inp with
      | .ok d rest => .ok (.dict d) rest
      | .err d e => .err (.dict d) e
      | .panic => .panic
      | .fuelOut => .fuelOut
    else if valType = typeList then
      match readListLoop fuel [] inp with
      | .ok l rest => .ok (.list l) rest
      | .err l e => .err (.list l) e
      | .panic => .panic
      | .fuelOut => .fuelOut
    else if valType = typeInteger then readInteger inp
    else
      match readString (valType :: inp) with
      | .ok s rest => .ok (.str s) rest
      | .err s e => .err (.str s) e
      | .panic => .panic
      | .fuelOut => .fuelOut
/-- The `for` loop of `decoder.readDictionary` with the local map `dict`. -/
def readDictionaryLoop : Nat → Dict → Bytes → Res Dict
  | 0, _, _ => .fuelOut
  | fuel + 1, dict, inp =>
    match readString inp with
    | .err _ e => .err dict (.wrap "read key" e)
    | .panic => .panic
    | .fuelOut => .fuelOut
    | .ok key inp1 =>
      match readByte inp1 with
      | none => .err dict (.wrap "read value type" .eof)
      | some (valType, inp2) =>
        if valType = endOfValue then .ok dict inp2
        else
          match readValue fuel valType inp2 with
          | .err _ e => .err dict (.wrap "read value" e)
          | .panic => .panic
          | .fuelOut => .fuelOut
          | .ok val inp3 =>
            let dict1 := mapAssign dict key val
            match readByte inp3 with
            | none => .err dict1 (.wrap "read dictionary end" .eof)
            | some (valType1, inp4) =>
              if valType1 = endOfValue then .ok dict1 inp4
              else readDictionaryLoop fuel dict1 (valType1 :: inp4)
/-- The `for` loop of `decoder.readList` with the local slice `list`. -/
def readListLoop : Nat → List Value → Bytes → Res (List Value)
  | 0, _, _ => .fuelOut
  | fuel + 1, list, inp =>
    match readByte inp with
    | none => .err [] (.wrap "read type" .eof)
    | some (valType, inp1) =>
      if valType = endOfValue then .ok list inp1
      else
        match readValue fuel valType inp1 with
        | .err _ e => .err [] (.wrap "read value" e)
        | .panic => .panic
        | .fuelOut => .fuelOut
        | .ok val inp2 => readListLoop fuel (list ++ [val]) inp2
end

/-- Embedding of `decoder.readDictionary`: the loop from the empty map. -/
def readDictionary (fuel : Nat) (inp : Bytes) : Res Dict :=
  readDictionaryLoop fuel [] inp

/-- Embedding of `decoder.readList`: the loop from the empty slice. -/
def readList (fuel : Nat) (inp : Bytes) : Res (List Value) :=
  readListLoop fuel [] inp

/-- Embedding of `Decode` on the bytes `data` that the buffered reader
`bufio.NewReader(data)` delivers.  The returned map is `none` when Go returns a
nil map.  The unread input of the outcome is what the decoder has not taken from
the buffered reader; what is left in the caller's reader is the matter of
`Buffered.Decode`.  The recursion budget is twice the input length, which is
never used up. -/
def Decode (data : Bytes) : Res (Option Dict) :=
  match readByte data with
  | none => .err (some []) (.wrap "read root type" .eof)
  | some (rootType, rest) =>
    if rootType ≠ typeDictionary then .err none .notValidFile
    else
      match readDictionary (2 * rest.length + 1) rest with
      | .ok d rest1 => .ok (some d) rest1
      | .err d e => .err (some d) e
      | .panic => .panic
      | .fuelOut => .fuelOut

/-! ## helpers.go -/

/-- The name that `%T` prints for a value. -/
def Value.typeName : Value → String
  | .str _ => "string"
  | .bytes _ => "[]uint8"
  | .int .int _ => "int"
  | .int .int8 _ => "int8"
  | .int .int16 _ => "int16"
  | .int .int32 _ => "int32"
  | .int .int64 _ => "int64"
  | .uint k _ => k.typeName
  | .list _ => "[]interface \x7b\x7d"
  | .dict _ => "map[string]interface \x7b\x7d"
  | .other t => t

/-- Embedding of `GetUint64`: the returned pair `(uint64, error)`; the
conversion `uint64(v)` of an `int64` is the residue modulo `2^64`. -/
def GetUint64 (i : Value) : Nat × Option Error :=
  match i with
  | .int .int64 v => ((v % 2 ^ 64).toNat, none)
  | .uint .uint64 v => (v, none)
  | _ => (0, some (.wrongType i.typeName))

/-! ## Predicates used in the statements -/

mutual
/-- The `%T` names of the values in the tree that the type switch of
`writeValue` sends to its `default` case, in the order of the tree. -/
def Value.rejected : Value → List String
  | .uint .uint8 _ => ["uint8"]
  | .other t => [t]
  | .list l => rejectedList l
  | .dict d => rejectedEntries d
  | _ => []
/-- The rejected values of the elements of a list. -/
def rejectedList : List Value → List String
  | [] => []
  | v :: vs => v.rejected ++ rejectedList vs
/-- The rejected values of the entries of a map. -/
def rejectedEntries : List (Bytes × Value) → List String
  | [] => []
  | (_, v) :: rest => v.rejected ++ rejectedEntries rest
end

mutual
/-- A tree is a Go value: integers lie in the range of their type, string
lengths fit an `int`, and the keys of every map are distinct. -/
def Value.wellFormed : Value → Bool
  | .str s => decide (s.length < 2 ^ 63)
  | .bytes b => decide (b.length < 2 ^ 63)
  | .int k v => decide (-(2 ^ (k.bits - 1) : Int) ≤ v ∧ v < 2 ^ (k.bits - 1))
  | .uint k v => decide (v < 2 ^ k.bits)
  | .list l => wellFormedList l
  | .dict d => decide ((d.map Prod.fst).Nodup) && wellFormedEntries d
  | .other _ => true
/-- Every element of the list is well formed. -/
def wellFormedList : List Value → Bool
  | [] => true
  | v :: vs => v.wellFormed && wellFormedList vs
/-- Every key and value of the entries is well formed. -/
def wellFormedEntries : List (Bytes × Value) → Bool
  | [] => true
  | (k, v) :: rest => decide (k.length < 2 ^ 63) && v.wellFormed && wellFormedEntries rest
end

mutual
/-- Two trees hold the same data and differ at most in the order in which their
maps (at any depth) enumerate the entries: the key lists of corresponding maps
are permutations of each other and equal keys carry corresponding values. -/
def Value.sameUpToOrder : Value → Value → Prop
  | .str a, w => w = .str a
  | .bytes a, w => w = .bytes a
  | .int k a, w => w = .int k a
  | .uint k a, w => w = .uint k a
  | .other t, w => w = .other t
  | .list l, w => ∃ l2, w = .list l2 ∧ sameList l l2
  | .dict d, w => ∃ d2, w = .dict d2 ∧ (mapKeys d).Perm (mapKeys d2) ∧ sameEntries d d2
/-- Lists of equal length with corresponding elements. -/
def sameList : List Value → List Value → Prop
  | [], l2 => l2 = []
  | v :: vs, l2 => ∃ w ws, l2 = w :: ws ∧ v.sameUpToOrder w ∧ sameList vs ws
/-- Every entry of the first map has its key bound in the second map to a
corresponding value. -/
def sameEntries : List (Bytes × Value) → Dict → Prop
  | [], _ => True
  | (k, v) :: rest, d2 =>
    (∃ w, mapLookup d2 k = some w ∧ v.sameUpToOrder w) ∧ sameEntries rest d2
end

/-- The bytes that `writeValue` appends for a value. -/
def Value.encoding (v : Value) : Bytes := (writeValue v []).1

/-- The error that `writeValue` returns for a value. -/
def Value.encodeErr (v : Value) : Option Error := (writeValue v []).2

/-- The bytes that `writeString` appends: the length, `:`, the contents. -/
def stringBytes (s : Bytes) : Bytes := itoa (s.length : Int) ++ 58 :: s

/-- What the key loop of `writeDictionary` appends for the key `k` of `d`. -/
def entryBytes (d : Dict) (k : Bytes) : Bytes :=
  stringBytes k ++ (mapIndex d k).encoding

/-- The document `d1:ai<decimal of n>ee`: the map with the one key `a` bound to
the integer token of `n`. -/
def intDoc (n : Int) : Bytes := ascii "d1:ai" ++ formatInt n ++ ascii "ee"

/-- A decoder outcome that is a returned non-nil error. -/
def Res.isErr {α : Type} : Res α → Bool
  | .err _ _ => true
  | _ => false

/-- A decoder outcome that is neither a result with a nil error nor a panic. -/
def Res.noResult {α : Type} : Res α → Prop
  | .ok _ _ => False
  | .panic => False
  | _ => True

/-- A decoder outcome that, when it is a result with a nil error, has left
exactly `rest` unread, and that is no panic. -/
def Res.leaves {α : Type} (rest : Bytes) : Res α → Prop
  | .ok _ r => r = rest
  | .panic => False
  | _ => True

/-- The encoding of a value begins with a type byte `t` other than `e`; after
`t`, `readValue` does not read past the end of the encoding, and it fails on
every input that stops before that end. -/
def Value.selfDelimiting (v : Value) : Prop :=
  ∃ t body, v.encoding = t :: body ∧ t ≠ endOfValue ∧
    (∀ fuel rest, (readValue fuel t (body ++ rest)).leaves rest) ∧
    (∀ fuel q s, s ≠ [] → q ++ s = body → (readValue fuel t q).noResult)

/-- The encoding of a value begins with a type byte `t` other than `e`, and with
enough recursion budget `readValue` reads, after `t`, exactly the encoding and
returns the value `w`, which is the value up to the order of its maps. -/
def Value.roundTrips (v : Value) : Prop :=
  ∃ t body w F0, v.encoding = t :: body ∧ t ≠ endOfValue ∧ v.sameUpToOrder w ∧
    ∀ fuel, F0 ≤ fuel → ∀ rest, readValue fuel t (body ++ rest) = .ok w rest

/-- A write that only appends to the buffer: its outcome on `buf` is `buf`
followed by what it writes to the empty buffer, with the same error. -/
def Appends (w : Bytes → Written) : Prop :=
  ∀ buf, w buf = (buf ++ (w []).1, (w []).2)

/-! ## The wire grammar of the specification -/

/-- The production `digit+`: a non-empty string of decimal digits. -/
def Digits (ds : Bytes) : Prop := ds ≠ [] ∧ ∀ c ∈ ds, 48 ≤ c ∧ c ≤ 57

/-- The number that a string of decimal digits denotes. -/
def decimalValue (ds : Bytes) : Nat := ds.foldl (fun n c => 10 * n + (c - 48)) 0

/-- The body of the production `integer := 'i' ['-'] digit+ 'e'`. -/
def IntBody (b : Bytes) : Prop := Digits b ∨ ∃ ds, b = 45 :: ds ∧ Digits ds

/-- An integer body without a `+` sign and without superfluous leading zeros:
an optional `-` and then either the single digit `0` or digits that do not
begin with `0`. -/
def CanonicalIntBody (b : Bytes) : Prop :=
  ∃ ds, Digits ds ∧ (ds = [48] ∨ ds.head? ≠ some 48) ∧ (b = ds ∨ b = 45 :: ds)

/-- The body of an integer token as the decoder accepts it: an optional sign
`+` or `-` and then `digit+`. -/
def SignedDigits (b : Bytes) : Prop :=
  Digits b ∨ ∃ ds, (b = 45 :: ds ∨ b = 43 :: ds) ∧ Digits ds

/-- The production `string := length ':' bytes` with `length = digit+` and
exactly `length` bytes. -/
def GString (s : Bytes) : Prop :=
  ∃ ds content, Digits ds ∧ decimalValue ds = content.length ∧ s = ds ++ 58 :: content

mutual
/-- The production `value := dictionary | list | integer | string` of the wire
grammar; `intBody` is the set of admitted integer bodies. -/
inductive GValue (intBody : Bytes → Prop) : Bytes → Prop where
  | dictionary (es : Bytes) : GEntries intBody es →
      GValue intBody (typeDictionary :: (es ++ [endOfValue]))
  | list (vs : Bytes) : GValues intBody vs → GValue intBody (typeList :: (vs ++ [endOfValue]))
  | integer (b : Bytes) : intBody b → GValue intBody (typeInteger :: (b ++ [endOfValue]))
  | string (s : Bytes) : GString s → GValue intBody s
/-- The repetition `value*`. -/
inductive GValues (intBody : Bytes → Prop) : Bytes → Prop where
  | nil : GValues intBody []
  | cons (v vs : Bytes) : GValue intBody v → GValues intBody vs → GValues intBody (v ++ vs)
/-- The repetition `(string value)*`. -/
inductive GEntries (intBody : Bytes → Prop) : Bytes → Prop where
  | nil : GEntries intBody []
  | cons (k v es : Bytes) : GString k → GValue intBody v → GEntries intBody es →
      GEntries intBody (k ++ (v ++ es))
end

/-- The production `document := dictionary`, for the whole byte sequence. -/
def GDocument (intBody : Bytes → Prop) (x : Bytes) : Prop :=
  ∃ es, GEntries intBody es ∧ x = typeDictionary :: (es ++ [endOfValue])

/-! ## Further predicates used in the statements -/

/-- The document `d1:ai<body>ee`: the map with the one key `a` bound to the
integer token with the given body. -/
def intTokenDoc (body : Bytes) : Bytes := ascii "d1:ai" ++ body ++ ascii "ee"

/-- The key/value pairs that the loop of `readDictionary` reads from the input,
in the order of the input, and the input left after the terminator; `none` when
the loop does not end with a nil error.  A key that is directly followed by the
terminator has no value and is not a pair. -/
def entriesRead : Nat → Bytes → Option (List (Bytes × Value) × Bytes)
  | 0, _ => none
  | fuel + 1, inp =>
    match readString inp with
    | .ok key inp1 =>
      match readByte inp1 with
      | none => none
      | some (valType, inp2) =>
        if valType = endOfValue then some ([], inp2)
        else
          match readValue fuel valType inp2 with
          | .ok val inp3 =>
            match readByte inp3 with
            | none => none
            | some (valType1, inp4) =>
              if valType1 = endOfValue then some ([(key, val)], inp4)
              else
                match entriesRead fuel (valType1 :: inp4) with
                | some (pairs, rest) => some ((key, val) :: pairs, rest)
                | none => none
          | _ => none
    | _ => none

/-- The map after the assignments `dict[k] = v` for the pairs in order. -/
def assignAll (acc : Dict) (pairs : List (Bytes × Value)) : Dict :=
  pairs.foldl (fun d kv => mapAssign d kv.1 kv.2) acc

/-- The value of the last pair with key `k`, if there is one. -/
def lastValue (pairs : List (Bytes × Value)) (k : Bytes) : Option Value :=
  pairs.foldl (fun r kv => if kv.1 = k then some kv.2 else r) none

mutual
/-- A tree as the decoder builds it: strings, `int64` for the integers that fit
the signed range and `uint64` only for those above it, lists, and non-empty maps
with distinct keys, at every depth. -/
def Value.decoderNormal : Value → Bool
  | .str s => decide (s.length < 2 ^ 63)
  | .int .int64 v => decide (-(2 ^ 63 : Int) ≤ v ∧ v < 2 ^ 63)
  | .uint .uint64 v => decide (2 ^ 63 ≤ v ∧ v < 2 ^ 64)
  | .list l => decoderNormalList l
  | .dict d => !d.isEmpty && decide ((d.map Prod.fst).Nodup) && decoderNormalEntries d
  | _ => false
/-- Every element is decoder-normal. -/
def decoderNormalList : List Value → Bool
  | [] => true
  | v :: vs => v.decoderNormal && decoderNormalList vs
/-- Every value is decoder-normal and every key has the length of a string. -/
def decoderNormalEntries : List (Bytes × Value) → Bool
  | [] => true
  | (k, v) :: rest =>
    decide (k.length < 2 ^ 63) && v.decoderNormal && decoderNormalEntries rest
end

mutual
/-- A tree made only of the dynamic types that `readValue` returns: `string`,
`int64`, `uint64`, `[]interface{}` and `map[string]interface{}`. -/
def Value.decoderShaped : Value → Bool
  | .str _ => true
  | .int .int64 _ => true
  | .uint .uint64 _ => true
  | .list l => decoderShapedList l
  | .dict d => decoderShapedEntries d
  | _ => false
/-- Every element is decoder-shaped. -/
def decoderShapedList : List Value → Bool
  | [] => true
  | v :: vs => v.decoderShaped && decoderShapedList vs
/-- Every value of the entries is decoder-shaped. -/
def decoderShapedEntries : List (Bytes × Value) → Bool
  | [] => true
  | (_, v) :: rest => v.decoderShaped && decoderShapedEntries rest
end

/-- The contents of a byte string, whether it is a `string` or a `[]byte`. -/
def Value.stringContent : Value → Option Bytes
  | .str s => some s
  | .bytes b => some b
  | _ => none

/-- The number that an integer of any integer type holds. -/
def Value.intValue : Value → Option Int
  | .int _ v => some v
  | .uint _ v => some (v : Int)
  | _ => none

mutual
/-- Two trees are the same logical value: integers compared by their number,
byte strings by their contents, lists element by element in order, maps as
mappings from keys to values. -/
def Value.sameLogical : Value → Value → Prop
  | .str a, w => w.stringContent = some a
  | .bytes a, w => w.stringContent = some a
  | .int _ a, w => w.intValue = some a
  | .uint _ a, w => w.intValue = some (a : Int)
  | .other t, w => w = .other t
  | .list l, w => ∃ l2, w = .list l2 ∧ sameLogicalList l l2
  | .dict d, w =>
    ∃ d2, w = .dict d2 ∧ (mapKeys d).Perm (mapKeys d2) ∧ sameLogicalEntries d d2
/-- Lists of equal length whose elements are the same logical values. -/
def sameLogicalList : List Value → List Value → Prop
  | [], l2 => l2 = []
  | v :: vs, l2 => ∃ w ws, l2 = w :: ws ∧ v.sameLogical w ∧ sameLogicalList vs ws
/-- Every entry of the first map has its key bound in the second map to the
same logical value. -/
def sameLogicalEntries : List (Bytes × Value) → Dict → Prop
  | [], _ => True
  | (k, v) :: rest, d2 =>
    (∃ w, mapLookup d2 k = some w ∧ v.sameLogical w) ∧ sameLogicalEntries rest d2
end

/-! ## The buffered reader and the caller's reader -/

/-- Size of the buffer of `bufio.NewReader` (`defaultBufSize` of package
`bufio`). -/
abbrev defaultBufSize : Nat := 4096

/-- The `bufio.Reader` that `Decode` puts around the caller's reader.  `buf` is
what has been read from the caller's reader and not yet handed out
(`b.buf[b.r:b.w]`); `src` is what the caller's reader still holds.  The caller's
reader hands out, on each `Read`, as many of its bytes as are asked for (as
`bytes.Reader` and `strings.Reader` do) and is no `bufio.Reader` itself.  The
field `b.err` is no part of the state: it is set only by a read that finds the
caller's reader at its end, and the operation that made the read returns and
clears it. -/
structure Reader where
  buf : Bytes
  src : Bytes

/-- The outcome of a decoder routine on a `Reader`: as `Res`, with the state of
the reader after the call in place of the unread input. -/
inductive Outcome (α : Type) where
  | ok (v : α) (b : Reader)
  | err (v : α) (e : Error)
  | panic
  | fuelOut

/-- Model of `bufio.Reader.fill`: one `Read` of the caller's reader into the free
part of the buffer (it sets `b.err = io.EOF` when nothing is left there). -/
def Reader.fill (b : Reader) : Reader :=
  ⟨b.buf ++ b.src.take (defaultBufSize - b.buf.length),
    b.src.drop (defaultBufSize - b.buf.length)⟩

/-- Model of `bufio.Reader.ReadByte`: an empty buffer is filled first; `none` is
`io.EOF`. -/
def Reader.ReadByte (b : Reader) : Option (Nat × Reader) :=
  match b.buf with
  | c :: cs => some (c, ⟨cs, b.src⟩)
  | [] =>
    match b.fill.buf with
    | c :: cs => some (c, ⟨cs, b.fill.src⟩)
    | [] => none

/-- Model of `bufio.Reader.UnreadByte` right after `ReadByte` has returned `c`
(it cannot fail there). -/
def Reader.UnreadByte (c : Nat) (b : Reader) : Reader := ⟨c :: b.buf, b.src⟩

/-- Model of `bufio.Reader.ReadBytes(delim)`: the passes of `ReadSlice` inside
the loop of `collectFragments`, with `full` the full buffers collected so far.
A pass searches the buffer (`readBytes` on the buffered bytes alone); without a
hit, a full buffer is handed over as a fragment, and otherwise the buffer is
filled, which ends the call with `io.EOF` when the caller's reader is at its
end. -/
def Reader.ReadBytesLoop (delim : Nat) : Nat → Bytes → Reader → Outcome Bytes
  | 0, _, _ => .fuelOut
  | fuel + 1, full, b =>
    match readBytes delim b.buf with
    | some (line, rest) => .ok (full ++ line) ⟨rest, b.src⟩
    | none =>
      if defaultBufSize ≤ b.buf.length then
        Reader.ReadBytesLoop delim fuel (full ++ b.buf) ⟨[], b.src⟩
      else if b.src = [] then .err (full ++ b.buf) .eof
      else Reader.ReadBytesLoop delim fuel full b.fill

/-- Model of `bufio.Reader.ReadBytes(delim)`; the number of passes is at most
twice the number of bytes in the caller's reader plus two. -/
def Reader.ReadBytes (delim : Nat) (b : Reader) : Outcome Bytes :=
  Reader.ReadBytesLoop delim (2 * b.src.length + 3) [] b

/-- Model of `bufio.Reader.Read(p)` with `len(p) = n > 0`: the bytes copied
into `p`.  With an empty buffer, a `p` of at least the buffer's size is read
into directly, and otherwise the buffer is filled by one read; `none` is
`io.EOF`. -/
def Reader.Read (n : Nat) (b : Reader) : Option (Bytes × Reader) :=
  match b.buf with
  | _ :: _ => some (b.buf.take n, ⟨b.buf.drop n, b.src⟩)
  | [] =>
    if b.src = [] then none
    else if defaultBufSize ≤ n then some (b.src.take n, ⟨[], b.src.drop n⟩)
    else some ((b.src.take defaultBufSize).take n,
      ⟨(b.src.take defaultBufSize).drop n, b.src.drop defaultBufSize⟩)

/-- Model of the loop of `io.ReadAtLeast`: `need` bytes are still to be read
into the buffer, `got` holds the bytes read so far.  The error is `io.EOF` when
nothing has been read and `io.ErrUnexpectedEOF` otherwise. -/
def ReadAtLeast : Nat → Nat → Bytes → Reader → Outcome Bytes
  | _, 0, got, b => .ok got b
  | 0, _ + 1, _, _ => .fuelOut
  | fuel + 1, need + 1, got, b =>
    match b.Read (need + 1) with
    | none => .err got (if got = [] then .eof else .unexpectedEOF)
    | some (p, b1) => ReadAtLeast fuel (need + 1 - p.length) (got ++ p) b1

/-- Model of `io.ReadFull` into a buffer of `n` bytes; every pass of the loop
reads at least one byte, so `n` passes are enough. -/
def ReadFull (n : Nat) (b : Reader) : Outcome Bytes := ReadAtLeast n n [] b

namespace Buffered

/-- Embedding of `decoder.readLength` on the buffered reader. -/
def readLength (b : Reader) : Outcome Int :=
  match b.ReadBytes 58 with
  | .err _ e => .err 0 (.wrap "read bytes" e)
  | .panic => .panic
  | .fuelOut => .fuelOut
  | .ok valBytes b1 =>
    let valStr := valBytes.take (valBytes.length - 1)
    match parseInt valStr with
    | .error e => .err 0 (.wrap "parse int" e)
    | .ok val => .ok val b1

/-- Embedding of `decoder.readString` on the buffered reader. -/
def readString (b : Reader) : Outcome Bytes :=
  match readLength b with
  | .err _ e => .err [] (.wrap "read length" e)
  | .panic => .panic
  | .fuelOut => .fuelOut
  | .ok length b1 =>
    if length < 0 then .panic
    else match ReadFull length.toNat b1 with
      | .err _ e => .err [] (.wrap "read value" e)
      | .panic => .panic
      | .fuelOut => .fuelOut
      | .ok result b2 => .ok result b2

/-- Embedding of `decoder.readInteger` on the buffered reader. -/
def readInteger (b : Reader) : Outcome Value :=
  match b.ReadBytes endOfValue with
  | .err _ e => .err (.int .int 0) (.wrap "read bytes" e)
  | .panic => .panic
  | .fuelOut => .fuelOut
  | .ok valBytes b1 =>
    let valStr := valBytes.take (valBytes.length - 1)
    match parseInt valStr with
    | .ok val => .ok (.int .int64 val) b1
    | .error _ =>
      match parseUint valStr with
      | .ok val => .ok (.uint .uint64 val) b1
      | .error e => .err (.int .int 0) e

mutual
/-- Embedding of `decoder.readValue` on the buffered reader. -/
def readValue : Nat → Nat → Reader → Outcome Value
  | 0, _, _ => .fuelOut
  | fuel + 1, valType, b =>
    if valType = typeDictionary then
      match readDictionaryLoop fuel [] b with
      | .ok d b1 => .ok (.dict d) b1
      | .err d e => .err (.dict d) e
      | .panic => .panic
      | .fuelOut => .fuelOut
    else if valType = typeList then
      match readListLoop fuel [] b with
      | .ok l b1 => .ok (.list l) b1
      | .err l e => .err (.list l) e
      | .panic => .panic
      | .fuelOut => .fuelOut
    else if valType = typeInteger then readInteger b
    else
      match readString (b.UnreadByte valType) with
      | .ok s b1 => .ok (.str s) b1
      | .err s e => .err (.str s) e
      | .panic => .panic
      | .fuelOut => .fuelOut
/-- The `for` loop of `decoder.readDictionary` on the buffered reader. -/
def readDictionaryLoop : Nat → Dict → Reader → Outcome Dict
  | 0, _, _ => .fuelOut
  | fuel + 1, dict, b =>
    match readString b with
    | .err _ e => .err dict (.wrap "read key" e)
    | .panic => .panic
    | .fuelOut => .fuelOut
    | .ok key b1 =>
      match b1.ReadByte with
      | none => .err dict (.wrap "read value type" .eof)
      | some (valType, b2) =>
        if valType = endOfValue then .ok dict b2
        else
          match readValue fuel valType b2 with
          | .err _ e => .err dict (.wrap "read value" e)
          | .panic => .panic
          | .fuelOut => .fuelOut
          | .ok val b3 =>
            let dict1 := mapAssign dict key val
            match b3.ReadByte with
            | none => .err dict1 (.wrap "read dictionary end" .eof)
            | some (valType1, b4) =>
              if valType1 = endOfValue then .ok dict1 b4
              else readDictionaryLoop fuel dict1 (b4.UnreadByte valType1)
/-- The `for` loop of `decoder.readList` on the buffered reader. -/
def readListLoop : Nat → List Value → Reader → Outcome (List Value)
  | 0, _, _ => .fuelOut
  | fuel + 1, list, b =>
    match b.ReadByte with
    | none => .err [] (.wrap "read type" .eof)
    | some (valType, b1) =>
      if valType = endOfValue then .ok list b1
      else
        match readValue fuel valType b1 with
        | .err _ e => .err [] (.wrap "read value" e)
        | .panic => .panic
        | .fuelOut => .fuelOut
        | .ok val b2 => readListLoop fuel (list ++ [val]) b2
end

/-- Embedding of `decoder.readDictionary` on the buffered reader. -/
def readDictionary (fuel : Nat) (b : Reader) : Outcome Dict :=
  readDictionaryLoop fuel [] b

/-- Embedding of `Decode` called with a reader that holds the bytes `data`:
`bufio.NewReader(data)` starts with an empty buffer.  The state in the outcome
tells what is left in the buffer and what is left in the caller's reader. -/
def Decode (data : Bytes) : Outcome (Option Dict) :=
  match (Reader.mk [] data).ReadByte with
  | none => .err (some []) (.wrap "read root type" .eof)
  | some (rootType, b) =>
    if rootType ≠ typeDictionary then .err none .notValidFile
    else
      match readDictionary (2 * (b.buf ++ b.src).length + 1) b with
      | .ok d b1 => .ok (some d) b1
      | .err d e => .err (some d) e
      | .panic => .panic
      | .fuelOut => .fuelOut

end Buffered

/-- The outcome of a routine on the reader `b` and the outcome of the same
routine on the bytes that `b` has not handed out agree: they carry the same
value and error, the bytes that the reader has not handed out afterwards are the
unread input, and the caller's reader has only moved forward. -/
def Outcome.agrees {α : Type} (b : Reader) : Outcome α → Res α → Prop
  | .ok v b1, .ok w rest => v = w ∧ b1.buf ++ b1.src = rest ∧ b1.src <:+ b.src
  | .err v e, .err w e1 => v = w ∧ e = e1
  | .panic, .panic => True
  | .fuelOut, .fuelOut => True
  | _, _ => False

/-! ## The integer tokens that the decoder reads -/

mutual
/-- The bodies of the integer tokens `i<body>e` that `readValue` reads in value
position, in the order of the calls of `readInteger`: the token itself when the
type byte is `i`, and the tokens read inside a dictionary or a list.  A token
that the decoder does not reach, because it has failed before, is not read. -/
def valueTokens : Nat → Nat → Bytes → List Bytes
  | 0, _, _ => []
  | fuel + 1, valType, inp =>
    if valType = typeDictionary then dictionaryTokens fuel inp
    else if valType = typeList then listTokens fuel inp
    else if valType = typeInteger then
      match readBytes endOfValue inp with
      | none => []
      | some (valBytes, _) => [valBytes.take (valBytes.length - 1)]
    else []
/-- The bodies of the integer tokens read by the loop of `readDictionary`. -/
def dictionaryTokens : Nat → Bytes → List Bytes
  | 0, _ => []
  | fuel + 1, inp =>
    match readString inp with
    | .ok _ inp1 =>
      match readByte inp1 with
      | none => []
      | some (valType, inp2) =>
        if valType = endOfValue then []
        else
          valueTokens fuel valType inp2 ++
            match readValue fuel valType inp2 with
            | .ok _ inp3 =>
              match readByte inp3 with
              | none => []
              | some (valType1, inp4) =>
                if valType1 = endOfValue then []
                else dictionaryTokens fuel (valType1 :: inp4)
            | _ => []
    | _ => []
/-- The bodies of the integer tokens read by the loop of `readList`. -/
def listTokens : Nat → Bytes → List Bytes
  | 0, _ => []
  | fuel + 1, inp =>
    match readByte inp with
    | none => []
    | some (valType, inp1) =>
      if valType = endOfValue then []
      else
        valueTokens fuel valType inp1 ++
          match readValue fuel valType inp1 with
          | .ok _ inp2 => listTokens fuel inp2
          | _ => []
end

/-- The bodies of the integer tokens that `Decode` reads from `data`, at any
depth, in the order of the input. -/
def integerTokens (data : Bytes) : List Bytes :=
  match readByte data with
  | none => []
  | some (rootType, rest) =>
    if rootType ≠ typeDictionary then []
    else dictionaryTokens (2 * rest.length + 1) rest


end Bencode

/-! # Theorems -/

namespace Bencode

/-! ## Decimal numerals -/

theorem formatBits_acc (fuel n : Nat) (acc : Bytes) :
    formatBits fuel n acc = formatBits fuel n [] ++ acc := by
  induction fuel generalizing n acc with
  | zero => simp [formatBits]
  | succ fuel ih =>
    simp only [formatBits]
    split
    · simp
    · rw [ih (n / 10) ((48 + n % 10) :: acc), ih (n / 10) [48 + n % 10]]
      simp

theorem formatBits_fuel (fuel1 fuel2 n : Nat) (acc : Bytes) (h1 : n < fuel1)
    (h2 : n < fuel2) : formatBits fuel1 n acc = formatBits fuel2 n acc := by
  induction fuel1 generalizing fuel2 n acc with
  | zero => omega
  | succ fuel1 ih =>
    cases fuel2 with
    | zero => omega
    | succ fuel2 =>
      simp only [formatBits]
      split
      · rfl
      · apply ih <;> omega

theorem formatUint_small (n : Nat) (h : n < 10) : formatUint n = [48 + n] := by
  simp [formatUint, formatBits, h]

theorem formatUint_step (n : Nat) (h : ¬ n < 10) :
    formatUint n = formatUint (n / 10) ++ [48 + n % 10] := by
  have e : formatUint n = formatBits n (n / 10) [48 + n % 10] := by
    simp [formatUint, formatBits, h]
  rw [e, formatBits_acc]
  congr 1
  unfold formatUint
  apply formatBits_fuel <;> omega

theorem formatUint_digits (n : Nat) : ∀ c ∈ formatUint n, 48 ≤ c ∧ c ≤ 57 := by
  induction n using Nat.strong_induction_on with
  | _ n ih =>
    by_cases h : n < 10
    · rw [formatUint_small n h]
      intro c hc
      simp at hc
      omega
    · rw [formatUint_step n h]
      intro c hc
      rcases List.mem_append.mp hc with hc | hc
      · exact ih (n / 10) (by omega) c hc
      · simp at hc
        omega

theorem formatUint_head (n : Nat) :
    ∃ c cs, formatUint n = c :: cs ∧ 48 ≤ c ∧ c ≤ 57 := by
  induction n using Nat.strong_induction_on with
  | _ n ih =>
    by_cases h : n < 10
    · exact ⟨48 + n, [], formatUint_small n h, by omega, by omega⟩
    · obtain ⟨c, cs, e, h1, h2⟩ := ih (n / 10) (by omega)
      exact ⟨c, cs ++ [48 + n % 10], by rw [formatUint_step n h, e]; rfl, h1, h2⟩

theorem parseUintLoop_append (xs ys : Bytes) (n : Nat) :
    parseUintLoop (xs ++ ys) n =
      match parseUintLoop xs n with
      | .ok m => parseUintLoop ys m
      | .error e => .error e := by
  induction xs generalizing n with
  | nil => simp [parseUintLoop]
  | cons c cs ih =>
    simp only [List.cons_append, parseUintLoop]
    split
    · split
      · rfl
      · split
        · rfl
        · exact ih _
    · rfl

theorem parseUintLoop_digit (c n : Nat) (cs : Bytes) (hc : c < 10) :
    parseUintLoop ((48 + c) :: cs) n =
      if 10 * n + c < 2 ^ 64 then parseUintLoop cs (10 * n + c)
      else .error .outOfRange := by
  have hd : 48 ≤ 48 + c ∧ 48 + c ≤ 57 := by omega
  have e2 : 48 + c - 48 = c := by omega
  simp only [parseUintLoop, hd, and_self, if_true, e2]
  norm_num
  by_cases h1 : 1844674407370955162 ≤ n
  · have : ¬ 10 * n + c < 18446744073709551616 := by omega
    simp [h1, this]
  · have e1 : n * 10 % 18446744073709551616 = n * 10 := Nat.mod_eq_of_lt (by omega)
    simp only [h1, if_false, e1]
    by_cases hn : 10 * n + c < 18446744073709551616
    · have e4 : (n * 10 + c) % 18446744073709551616 = 10 * n + c := by
        rw [Nat.mod_eq_of_lt (by omega)]
        omega
      have : ¬ (10 * n + c < n * 10 ∨ 18446744073709551615 < 10 * n + c) := by omega
      simp [e4, hn, this]
    · have e4 : (n * 10 + c) % 18446744073709551616
          = n * 10 + c - 18446744073709551616 := by
        rw [Nat.mod_eq_sub_mod (by omega)]
        exact Nat.mod_eq_of_lt (by omega)
      have : n * 10 + c - 18446744073709551616 < n * 10 ∨
          18446744073709551615 < n * 10 + c - 18446744073709551616 := by omega
      simp [e4, hn, this]

theorem parseUintLoop_formatUint (n : Nat) :
    parseUintLoop (formatUint n) 0 =
      if n < 2 ^ 64 then .ok n else .error .outOfRange := by
  induction n using Nat.strong_induction_on with
  | _ n ih =>
    by_cases h : n < 10
    · rw [formatUint_small n h, parseUintLoop_digit n 0 [] h]
      have h3 : n < 2 ^ 64 := by omega
      simp [parseUintLoop, h3]
    · rw [formatUint_step n h, parseUintLoop_append, ih (n / 10) (by omega)]
      by_cases hq : n / 10 < 2 ^ 64
      · simp only [hq, if_true]
        rw [parseUintLoop_digit (n % 10) (n / 10) [] (by omega)]
        have e3 : 10 * (n / 10) + n % 10 = n := by omega
        simp only [e3, parseUintLoop]
      · have : ¬ n < 2 ^ 64 := by omega
        simp only [hq, this, if_false]

theorem formatUint_ne_nil (n : Nat) : formatUint n ≠ [] := by
  obtain ⟨c, cs, e, _⟩ := formatUint_head n
  simp [e]

theorem parseUint_formatUint (n : Nat) :
    parseUint (formatUint n) = if n < 2 ^ 64 then .ok n else .error .outOfRange := by
  simp [parseUint, formatUint_ne_nil, parseUintLoop_formatUint]


theorem parseUint_minus (cs : Bytes) : parseUint (45 :: cs) = .error .invalidNum := by
  simp [parseUint, parseUintLoop]

theorem parseInt_unsigned (c : Nat) (cs : Bytes) (h43 : c ≠ 43) (h45 : c ≠ 45) :
    parseInt (c :: cs) =
      match parseUint (c :: cs) with
      | .error e => .error e
      | .ok un => if un ≥ 2 ^ 63 then .error .outOfRange else .ok (int64OfUint64 un) := by
  simp [parseInt, h43, h45] <;> (cases parseUint (c :: cs) <;> rfl)

theorem parseInt_minus (cs : Bytes) :
    parseInt (45 :: cs) =
      match parseUint cs with
      | .error e => .error e
      | .ok un =>
        if un > 2 ^ 63 then .error .outOfRange else .ok (negInt64 (int64OfUint64 un)) := by
  simp [parseInt] <;> (cases parseUint cs <;> rfl)

theorem parseInt_plus (cs : Bytes) :
    parseInt (43 :: cs) =
      match parseUint cs with
      | .error e => .error e
      | .ok un => if un ≥ 2 ^ 63 then .error .outOfRange else .ok (int64OfUint64 un) := by
  simp [parseInt] <;> (cases parseUint cs <;> rfl)

theorem parseInt_formatUint (n : Nat) :
    parseInt (formatUint n) =
      if n < 2 ^ 63 then .ok (n : Int) else .error .outOfRange := by
  obtain ⟨c, cs, e, h1, h2⟩ := formatUint_head n
  have hp := parseUint_formatUint n
  rw [e] at hp ⊢
  rw [parseInt_unsigned c cs (by omega) (by omega), hp]
  by_cases hn : n < 2 ^ 64
  · rw [if_pos hn]
    by_cases hm : n < 2 ^ 63
    · have h3 : ¬ n ≥ 2 ^ 63 := by omega
      simp only [h3, hm, if_false, if_true, int64OfUint64]
    · have h3 : n ≥ 2 ^ 63 := by omega
      simp only [h3, hm, if_false, if_true]
  · have hm : ¬ n < 2 ^ 63 := by omega
    rw [if_neg hn, if_neg hm]

theorem parseInt_minus_formatUint (n : Nat) :
    parseInt (45 :: formatUint n) =
      if n ≤ 2 ^ 63 then .ok (-(n : Int)) else .error .outOfRange := by
  rw [parseInt_minus, parseUint_formatUint]
  by_cases hn : n < 2 ^ 64
  · rw [if_pos hn]
    by_cases hm : n ≤ 2 ^ 63
    · have h3 : ¬ n > 2 ^ 63 := by omega
      simp only [h3, hm, if_false, if_true]
      congr 1
      unfold negInt64 int64OfUint64
      split_ifs <;> omega
    · have h3 : n > 2 ^ 63 := by omega
      simp only [h3, hm, if_false, if_true]
  · have hm : ¬ n ≤ 2 ^ 63 := by omega
    rw [if_neg hn, if_neg hm]

theorem parseInt_formatInt (i : Int) :
    parseInt (formatInt i) =
      if -(2 ^ 63) ≤ i ∧ i < 2 ^ 63 then .ok i else .error .outOfRange := by
  by_cases hneg : i < 0
  · obtain ⟨n, rfl⟩ := Int.exists_eq_neg_ofNat (le_of_lt hneg)
    have e : formatInt (-(n : Int)) = 45 :: formatUint n := by
      simp [formatInt, hneg]
    rw [e, parseInt_minus_formatUint]
    by_cases hm : n ≤ 2 ^ 63
    · have : -(2 ^ 63) ≤ -(n : Int) ∧ -(n : Int) < 2 ^ 63 := by omega
      simp only [hm, this, and_self, if_true]
    · have : ¬ (-(2 ^ 63) ≤ -(n : Int) ∧ -(n : Int) < 2 ^ 63) := by omega
      simp only [hm, this, if_false]
  · obtain ⟨n, rfl⟩ := Int.eq_ofNat_of_zero_le (not_lt.mp hneg)
    have e : formatInt (n : Int) = formatUint n := by
      simp [formatInt]
    rw [e, parseInt_formatUint]
    by_cases hm : n < 2 ^ 63
    · have : -(2 ^ 63) ≤ (n : Int) ∧ (n : Int) < 2 ^ 63 := by omega
      simp only [hm, this, and_self, if_true]
    · have : ¬ (-(2 ^ 63) ≤ (n : Int) ∧ (n : Int) < 2 ^ 63) := by omega
      simp only [hm, this, if_false]

theorem formatInt_chars (i : Int) : ∀ c ∈ formatInt i, c = 45 ∨ (48 ≤ c ∧ c ≤ 57) := by
  intro c hc
  unfold formatInt at hc
  split at hc
  · rcases List.mem_cons.mp hc with h | h
    · exact Or.inl h
    · exact Or.inr (formatUint_digits _ c h)
  · exact Or.inr (formatUint_digits _ c hc)

/-! ## Reading from the stream -/

theorem readBytes_append (d : Nat) (xs rest : Bytes) (h : ∀ c ∈ xs, c ≠ d) :
    readBytes d (xs ++ d :: rest) = some (xs ++ [d], rest) := by
  induction xs with
  | nil => simp [readBytes]
  | cons c cs ih =>
    have hc : c ≠ d := h c (List.mem_cons_self _ _)
    have ih1 := ih (fun x hx => h x (List.mem_cons_of_mem _ hx))
    simp [readBytes, hc, ih1]

theorem readBytes_none (d : Nat) (xs : Bytes) (h : ∀ c ∈ xs, c ≠ d) :
    readBytes d xs = none := by
  induction xs with
  | nil => simp [readBytes]
  | cons c cs ih =>
    have hc : c ≠ d := h c (List.mem_cons_self _ _)
    have ih1 := ih (fun x hx => h x (List.mem_cons_of_mem _ hx))
    simp [readBytes, hc, ih1]

theorem take_line (d : Nat) (xs : Bytes) :
    (xs ++ [d]).take ((xs ++ [d]).length - 1) = xs := by
  simp

theorem readInteger_formatInt (i : Int) (rest : Bytes) :
    readInteger (formatInt i ++ endOfValue :: rest) =
      if -(2 ^ 63) ≤ i ∧ i < 2 ^ 63 then .ok (.int .int64 i) rest
      else if 2 ^ 63 ≤ i ∧ i < 2 ^ 64 then .ok (.uint .uint64 i.toNat) rest
      else if i < 0 then .err (.int .int 0) .invalidNum
      else .err (.int .int 0) .outOfRange := by
  have hno : ∀ c ∈ formatInt i, c ≠ endOfValue := by
    intro c hc
    have := formatInt_chars i c hc
    simp only [endOfValue]
    omega
  simp only [readInteger, readBytes_append endOfValue _ rest hno, take_line,
    parseInt_formatInt]
  by_cases h1 : -(2 ^ 63) ≤ i ∧ i < 2 ^ 63
  · simp only [h1, and_self, if_true]
  · simp only [h1, if_false]
    by_cases hneg : i < 0
    · obtain ⟨n, rfl⟩ := Int.exists_eq_neg_ofNat (le_of_lt hneg)
      have e : formatInt (-(n : Int)) = 45 :: formatUint n := by
        simp [formatInt, hneg]
      have h2 : ¬ (2 ^ 63 ≤ -(n : Int) ∧ -(n : Int) < 2 ^ 64) := by omega
      simp only [e, parseUint_minus, h2, hneg, if_true, if_false]
    · obtain ⟨n, rfl⟩ := Int.eq_ofNat_of_zero_le (not_lt.mp hneg)
      have e : formatInt (n : Int) = formatUint n := by
        simp [formatInt]
      simp only [e, parseUint_formatUint, hneg, if_false]
      by_cases hn : n < 2 ^ 64
      · have h2 : 2 ^ 63 ≤ (n : Int) ∧ (n : Int) < 2 ^ 64 := by omega
        simp only [hn, h2, and_self, if_true, Int.toNat_ofNat]
      · have h2 : ¬ (2 ^ 63 ≤ (n : Int) ∧ (n : Int) < 2 ^ 64) := by omega
        simp only [hn, h2, if_false]

theorem itoa_natCast (n : Nat) : itoa (n : Int) = formatUint n := by
  simp [itoa, formatInt]

theorem readLength_itoa (n : Nat) (rest : Bytes) :
    readLength (itoa (n : Int) ++ 58 :: rest) =
      if n < 2 ^ 63 then .ok ((n : Int), rest)
      else .error (.wrap "parse int" .outOfRange) := by
  have hno : ∀ c ∈ itoa (n : Int), c ≠ 58 := by
    intro c hc
    rw [itoa_natCast] at hc
    have := formatUint_digits n c hc
    omega
  simp only [readLength, readBytes_append 58 _ rest hno, take_line]
  rw [itoa_natCast, parseInt_formatUint]
  by_cases h : n < 2 ^ 63
  · simp only [h, if_true]
  · simp only [h, if_false]

theorem readFull_append (s rest : Bytes) :
    readFull s.length (s ++ rest) = .ok (s, rest) := by
  simp [readFull]

theorem readFull_short (n : Nat) (q : Bytes) (h : q.length < n) :
    ∃ e, readFull n q = .error e := by
  unfold readFull
  have : ¬ n ≤ q.length := by omega
  simp only [this, if_false]
  split
  · exact ⟨_, rfl⟩
  · exact ⟨_, rfl⟩

theorem readString_writeString (s rest : Bytes) :
    readString (itoa (s.length : Int) ++ 58 :: (s ++ rest)) =
      if s.length < 2 ^ 63 then .ok s rest
      else .err [] (.wrap "read length" (.wrap "parse int" .outOfRange)) := by
  simp only [readString, readLength_itoa]
  by_cases h : s.length < 2 ^ 63
  · have h0 : ¬ ((s.length : Int) < 0) := by omega
    simp only [h, if_true, h0, if_false, Int.toNat_ofNat, readFull_append]
  · simp only [h, if_false]

/-! ## Documents holding one integer -/

theorem readDictionaryLoop_intDoc (fuel : Nat) (n : Int) (rest : Bytes) :
    readDictionaryLoop (fuel + 2) []
        (ascii "1:ai" ++ formatInt n ++ endOfValue :: endOfValue :: rest) =
      if -(2 ^ 63) ≤ n ∧ n < 2 ^ 63 then .ok [(ascii "a", .int .int64 n)] rest
      else if 2 ^ 63 ≤ n ∧ n < 2 ^ 64 then .ok [(ascii "a", .uint .uint64 n.toNat)] rest
      else if n < 0 then .err [] (.wrap "read value" .invalidNum)
      else .err [] (.wrap "read value" .outOfRange) := by
  have e1 : ascii "1:ai" ++ formatInt n ++ endOfValue :: endOfValue :: rest
      = itoa (([97] : Bytes).length : Int) ++ 58 ::
          ([97] ++ (105 :: (formatInt n ++ endOfValue :: endOfValue :: rest))) := by
    have : itoa (([97] : Bytes).length : Int) = [49] := by decide
    rw [this]
    have : ascii "1:ai" = [49, 58, 97, 105] := by decide
    rw [this]
    simp
  rw [e1]
  simp only [readDictionaryLoop, readString_writeString]
  have hl : ([97] : Bytes).length < 2 ^ 63 := by decide
  simp only [hl, if_true, readByte]
  have h105 : ¬ (105 = endOfValue) := by decide
  have hd : ¬ (105 = typeDictionary) := by decide
  have hli : ¬ (105 = typeList) := by decide
  have hi : (105 = typeInteger) = True := by decide
  simp only [h105, if_false, readValue, hd, hli, hi, if_true, readInteger_formatInt]
  have ha : ascii "a" = [97] := by decide
  by_cases h1 : -(2 ^ 63) ≤ n ∧ n < 2 ^ 63
  · simp only [h1, and_self, if_true, readByte, mapAssign, ha]
  · simp only [h1, if_false]
    by_cases h2 : 2 ^ 63 ≤ n ∧ n < 2 ^ 64
    · simp only [h2, and_self, if_true, readByte, mapAssign, ha]
    · simp only [h2, if_false]
      by_cases h3 : n < 0
      · simp only [h3, if_true]
      · simp only [h3, if_false]

/-! ## Claims settled by evaluation -/

/-- C9: an input whose first byte is not `d` makes `Decode` return a nil map and
the error "is not valid bencode file", whatever bytes follow; on the empty input
`Decode` returns an error (next to an empty map). -/
theorem decode_rejects_other_root (c : Nat) (rest : Bytes) (h : c ≠ typeDictionary) :
    Decode (c :: rest) = .err none .notValidFile ∧
      Decode [] = .err (some []) (.wrap "read root type" .eof) := by
  simp [Decode, readByte, h]

theorem decode_rejects_other_root_witness :
    (108 : Nat) ≠ typeDictionary ∧
      (Decode (108 :: ascii "i1ee") = .err none .notValidFile ∧
        Decode [] = .err (some []) (.wrap "read root type" .eof)) :=
  ⟨by decide, decode_rejects_other_root 108 (ascii "i1ee") (by decide)⟩

/-- C3 (evaluation at the failing input): `Decode` of `de` returns an error
(the key reader runs first and meets `e`), and so does `Decode` of a document
that holds `de` as a value of a map or as an element of a list. -/
theorem decode_empty_dictionary_fails :
    Decode (ascii "de") =
        .err (some []) (.wrap "read key" (.wrap "read length" (.wrap "read bytes" .eof))) ∧
      Decode (ascii "d1:adee") =
        .err (some []) (.wrap "read value" (.wrap "read key"
          (.wrap "read length" (.wrap "read bytes" .eof)))) ∧
      Decode (ascii "d1:aldeee") =
        .err (some []) (.wrap "read value" (.wrap "read value" (.wrap "read key"
          (.wrap "read length" (.wrap "read bytes" .eof))))) ∧
      Decode (ascii "d1:ade1:bi1ee") =
        .err (some []) (.wrap "read value" (.wrap "read key"
          (.wrap "read length" (.wrap "parse int" .invalidNum)))) :=
  ⟨rfl, rfl, rfl, rfl⟩

/-- C1 (evaluation at the failing input): the tree `{"a": {}}` is encoded as
`d1:adee`, and `Decode` of these bytes returns an error instead of the tree. -/
theorem roundtrip_fails_on_nested_empty_dictionary :
    Encode [(ascii "a", .dict [])] = (some (ascii "d1:adee"), none) ∧
      Decode (ascii "d1:adee") =
        .err (some []) (.wrap "read value" (.wrap "read key"
          (.wrap "read length" (.wrap "read bytes" .eof)))) :=
  ⟨rfl, rfl⟩

/-- C2 (evaluation at the failing input): the empty dictionary is encoded as
`de`, and `Decode` of `de` yields no tree that could be encoded again. -/
theorem reencode_fails_on_empty_dictionary :
    Encode [] = (some (ascii "de"), none) ∧
      ∀ (t : Option Dict) (rest : Bytes), Decode (ascii "de") ≠ .ok t rest := by
  refine ⟨rfl, ?_⟩
  intro t rest h
  have e : Decode (ascii "de") =
      .err (some []) (.wrap "read key" (.wrap "read length" (.wrap "read bytes" .eof))) := rfl
  rw [e] at h
  cases h

/-- C4 (evaluation at the failing input): `Encode` of `{"a": uint8(1)}` returns
nil bytes and the error "unsupported value type: uint8". -/
theorem encode_rejects_uint8 :
    Encode [(ascii "a", .uint .uint8 1)] =
      (none, some (.wrap "write value" (.unsupported "uint8"))) :=
  rfl

/-- C8: for every integer `n`, `Decode` of `d1:ai<decimal of n>ee` returns the
map `{"a": n}` with `n` an `int64` when `-2^63 <= n < 2^63`, with `n` a `uint64`
when `2^63 <= n < 2^64`, and an error otherwise; `2^64 - 1` and `-2^63` go
through `Encode` and `Decode` unchanged, `2^64` and `-2^63 - 1` are rejected. -/
theorem integer_boundary :
    (∀ n : Int, Decode (intDoc n) =
      if -(2 ^ 63) ≤ n ∧ n < 2 ^ 63 then .ok (some [(ascii "a", .int .int64 n)]) []
      else if 2 ^ 63 ≤ n ∧ n < 2 ^ 64 then
        .ok (some [(ascii "a", .uint .uint64 n.toNat)]) []
      else if n < 0 then .err (some []) (.wrap "read value" .invalidNum)
      else .err (some []) (.wrap "read value" .outOfRange)) ∧
    Encode [(ascii "a", .uint .uint64 18446744073709551615)]
      = (some (intDoc 18446744073709551615), none) ∧
    Decode (intDoc 18446744073709551615)
      = .ok (some [(ascii "a", .uint .uint64 18446744073709551615)]) [] ∧
    Encode [(ascii "a", .int .int64 (-9223372036854775808))]
      = (some (intDoc (-9223372036854775808)), none) ∧
    Decode (intDoc (-9223372036854775808))
      = .ok (some [(ascii "a", .int .int64 (-9223372036854775808))]) [] ∧
    Decode (ascii "d1:ai18446744073709551616ee")
      = .err (some []) (.wrap "read value" .outOfRange) ∧
    Decode (ascii "d1:ai-9223372036854775809ee")
      = .err (some []) (.wrap "read value" .invalidNum) := by
  refine ⟨?_, rfl, rfl, rfl, rfl, rfl, rfl⟩
  intro n
  have e0 : intDoc n = 100 :: (ascii "1:ai" ++ formatInt n ++ endOfValue :: endOfValue :: [])
      := by
    have h1 : ascii "d1:ai" = 100 :: ascii "1:ai" := by decide
    have h2 : ascii "ee" = [endOfValue, endOfValue] := by decide
    simp [intDoc, h1, h2]
  rw [e0]
  simp only [Decode, readByte, readDictionary]
  have hd : ¬ (100 ≠ typeDictionary) := by decide
  simp only [hd, if_false]
  obtain ⟨f, hf⟩ : ∃ f, 2 * (ascii "1:ai" ++ formatInt n ++ [endOfValue, endOfValue]).length + 1
      = f + 2 := ⟨2 * (ascii "1:ai" ++ formatInt n ++ [endOfValue, endOfValue]).length - 1, by
        simp only [List.length_append, List.length_cons, List.length_nil]
        omega⟩
  rw [hf, readDictionaryLoop_intDoc]
  by_cases h1 : -(2 ^ 63) ≤ n ∧ n < 2 ^ 63
  · simp only [h1, and_self, if_true]
  · simp only [h1, if_false]
    by_cases h2 : 2 ^ 63 ≤ n ∧ n < 2 ^ 64
    · simp only [h2, and_self, if_true]
    · simp only [h2, if_false]
      by_cases h3 : n < 0
      · simp only [h3, if_true]
      · simp only [h3, if_false]

/-! ## The order of the keys -/

theorem strLess_irrefl (a : Bytes) : strLess a a = false := by
  induction a with
  | nil => rfl
  | cons x xs ih => simp [strLess, ih]

theorem strLess_asymm (a b : Bytes) (h : strLess a b = true) : strLess b a = false := by
  induction a generalizing b with
  | nil => cases b <;> simp_all [strLess]
  | cons x xs ih =>
    cases b with
    | nil => simp_all [strLess]
    | cons y ys =>
      simp only [strLess] at h ⊢
      split_ifs at h ⊢ <;> first | omega | rfl | exact ih ys h | simp_all

theorem strLe_antisymm (a b : Bytes) (h1 : strLe a b) (h2 : strLe b a) : a = b := by
  unfold strLe at h1 h2
  induction a generalizing b with
  | nil => cases b <;> simp_all [strLess]
  | cons x xs ih =>
    cases b with
    | nil => simp_all [strLess]
    | cons y ys =>
      simp only [strLess] at h1 h2
      split_ifs at h1 h2 <;> first | omega | simp_all
      have e : x = y := by omega
      have e2 : xs = ys := ih ys h1 h2
      subst e
      subst e2
      simp

theorem strLe_trans (a b c : Bytes) (h1 : strLe a b) (h2 : strLe b c) : strLe a c := by
  unfold strLe at h1 h2 ⊢
  induction a generalizing b c with
  | nil => cases c <;> simp_all [strLess]
  | cons x xs ih =>
    cases b with
    | nil => simp_all [strLess]
    | cons y ys =>
      cases c with
      | nil => simp_all [strLess]
      | cons z zs =>
        simp only [strLess] at h1 h2 ⊢
        split_ifs at h1 h2 ⊢ <;> first | omega | rfl | exact ih ys zs h1 h2 | simp_all

theorem strLess_of_le_of_ne (a b : Bytes) (h1 : strLe a b) (h2 : a ≠ b) :
    strLess a b = true := by
  cases h : strLess a b with
  | true => rfl
  | false => exact absurd (strLe_antisymm a b h1 h) h2

theorem insertKey_perm (k : Bytes) (l : List Bytes) : (insertKey k l).Perm (k :: l) := by
  induction l with
  | nil => simp [insertKey]
  | cons x xs ih =>
    simp only [insertKey]
    split
    · exact (List.Perm.cons x ih).trans (List.Perm.swap k x xs)
    · exact List.Perm.refl _

theorem sortStrings_perm (l : List Bytes) : (sortStrings l).Perm l := by
  induction l with
  | nil => simp [sortStrings]
  | cons k ks ih =>
    simp only [sortStrings]
    exact (insertKey_perm k _).trans (List.Perm.cons k ih)

theorem insertKey_sorted (k : Bytes) (l : List Bytes) (h : l.Pairwise strLe) :
    (insertKey k l).Pairwise strLe := by
  induction l with
  | nil => simp [insertKey]
  | cons x xs ih =>
    obtain ⟨hx, hxs⟩ := List.pairwise_cons.mp h
    simp only [insertKey]
    split
    · rename_i hlt
      refine List.pairwise_cons.mpr ⟨?_, ih hxs⟩
      intro y hy
      rcases List.mem_cons.mp ((insertKey_perm k xs).subset hy) with e | e
      · rw [e]
        exact strLess_asymm x k hlt
      · exact hx y e
    · rename_i hlt
      have hkx : strLe k x := by
        unfold strLe
        simpa using hlt
      refine List.pairwise_cons.mpr ⟨?_, h⟩
      intro y hy
      rcases List.mem_cons.mp hy with e | e
      · rw [e]
        exact hkx
      · exact strLe_trans k x y hkx (hx y e)

theorem sortStrings_sorted (l : List Bytes) : (sortStrings l).Pairwise strLe := by
  induction l with
  | nil => simp [sortStrings]
  | cons k ks ih => exact insertKey_sorted k _ ih

/-- The sorted arrangement of a list of keys is unique: any ascending
permutation of the keys is the list that `sortStrings` returns. -/
theorem sortStrings_unique (l ks : List Bytes) (hp : ks.Perm l) (hs : ks.Pairwise strLe) :
    ks = sortStrings l := by
  haveI : IsAntisymm Bytes strLe := ⟨strLe_antisymm⟩
  exact List.eq_of_perm_of_sorted (hp.trans (sortStrings_perm l).symm) hs
    (sortStrings_sorted l)

theorem sortStrings_congr (l1 l2 : List Bytes) (hp : l1.Perm l2) :
    sortStrings l1 = sortStrings l2 :=
  sortStrings_unique l2 (sortStrings l1) ((sortStrings_perm l1).trans hp)
    (sortStrings_sorted l1)

theorem sortStrings_strict (l : List Bytes) (hn : l.Nodup) :
    (sortStrings l).Pairwise (fun a b => strLess a b = true) := by
  have h1 := sortStrings_sorted l
  have h2 : (sortStrings l).Pairwise (fun a b => a ≠ b) :=
    ((sortStrings_perm l).nodup_iff).mpr hn
  exact (h1.and h2).imp (fun h => strLess_of_le_of_ne _ _ h.1 h.2)


/-! ## The encoder only appends to its buffer -/

theorem appends_andThen (w1 w2 : Bytes → Written) (h1 : Appends w1) (h2 : Appends w2) :
    Appends (fun b => (w1 b).andThen w2) := by
  intro buf
  show (w1 buf).andThen w2 = (buf ++ ((w1 []).andThen w2).1, ((w1 []).andThen w2).2)
  rw [h1 buf]
  rcases hw : w1 [] with ⟨e1, r1⟩
  cases r1 with
  | none =>
    simp only [Written.andThen]
    rw [h2 (buf ++ e1), h2 e1]
    simp
  | some e => simp [Written.andThen]

theorem appends_after (w : Bytes → Written) (xs : Bytes) (h : Appends w) :
    Appends (fun b => w (b ++ xs)) := by
  intro buf
  show w (buf ++ xs) = (buf ++ (w ([] ++ xs)).1, (w ([] ++ xs)).2)
  rw [h (buf ++ xs), h ([] ++ xs)]
  simp

theorem appends_push (xs : Bytes) : Appends (fun b => ((b ++ xs, none) : Written)) := by
  intro buf
  simp

theorem appends_writeString (s : Bytes) : Appends (writeString s) := by
  intro buf
  simp [writeString]

theorem appends_writeInt (i : Int) : Appends (writeInt i) := by
  intro buf
  simp [writeInt]

theorem appends_writeUint (i : Nat) : Appends (writeUint i) := by
  intro buf
  simp [writeUint]

theorem appends_fail (e : Error) : Appends (fun b => ((b, some e) : Written)) := by
  intro buf
  simp

theorem appends_forEach {α : Type} (f : α → Bytes → Written) (hf : ∀ k, Appends (f k))
    (ks : List α) : Appends (forEach f ks) := by
  induction ks with
  | nil =>
    intro buf
    simp [forEach]
  | cons k ks ih => exact appends_andThen (f k) (forEach f ks) (hf k) ih

mutual
theorem appends_writeValue : ∀ v : Value, Appends (writeValue v)
  | .str s => by simpa only [writeValue] using appends_writeString s
  | .bytes s => by
    have := appends_writeString s
    intro buf
    simpa only [writeValue] using this buf
  | .int _ v => by
    have := appends_writeInt v
    intro buf
    simpa only [writeValue] using this buf
  | .uint .uint v => by
    have := appends_writeUint v
    intro buf
    simpa only [writeValue] using this buf
  | .uint .uint16 v => by
    have := appends_writeUint v
    intro buf
    simpa only [writeValue] using this buf
  | .uint .uint32 v => by
    have := appends_writeUint v
    intro buf
    simpa only [writeValue] using this buf
  | .uint .uint64 v => by
    have := appends_writeUint v
    intro buf
    simpa only [writeValue] using this buf
  | .uint .uint8 _ => by
    intro buf
    simp [writeValue]
  | .other t => by
    intro buf
    simp [writeValue]
  | .list l => by
    have h := appends_andThen _ _ (appends_after _ [typeList] (appends_writeListLoop l))
      (appends_push [endOfValue])
    intro buf
    simpa only [writeValue] using h buf
  | .dict d => by
    have hk : ∀ k, Appends (fun b => (writeString k b).andThen (writeIndexed d k)) :=
      fun k => appends_andThen _ _ (appends_writeString k) (appends_writeIndexed d k)
    have h := appends_andThen _ _
      (appends_after _ [typeDictionary] (appends_forEach _ hk (sortStrings (mapKeys d))))
      (appends_push [endOfValue])
    intro buf
    simpa only [writeValue] using h buf
theorem appends_writeListLoop : ∀ l : List Value, Appends (writeListLoop l)
  | [] => by
    intro buf
    simp [writeListLoop]
  | v :: vs => by
    have h := appends_andThen _ _ (appends_writeValue v) (appends_writeListLoop vs)
    intro buf
    simpa only [writeListLoop] using h buf
theorem appends_writeIndexed : ∀ (d : List (Bytes × Value)) (k : Bytes),
    Appends (writeIndexed d k)
  | [], k => by
    intro buf
    simp [writeIndexed]
  | (k1, v) :: rest, k => by
    intro buf
    simp only [writeIndexed]
    split
    · exact appends_writeValue v buf
    · exact appends_writeIndexed rest k buf
end


theorem writeValue_eq (v : Value) (buf : Bytes) :
    writeValue v buf = (buf ++ v.encoding, v.encodeErr) :=
  appends_writeValue v buf

theorem writeString_eq (s buf : Bytes) :
    writeString s buf = (buf ++ (itoa (s.length : Int) ++ 58 :: s), none) := by
  have : ascii ":" = [58] := by decide
  simp [writeString, this]

theorem forEach_cons_nil {α : Type} (f : α → Bytes → Written) (hf : ∀ x, Appends (f x))
    (x : α) (xs : List α) :
    forEach f (x :: xs) [] =
      match (f x []).2 with
      | none => ((f x []).1 ++ (forEach f xs []).1, (forEach f xs []).2)
      | some e => ((f x []).1, some e) := by
  simp only [forEach]
  rcases h : f x [] with ⟨e1, r1⟩
  cases r1 with
  | none =>
    simp only [Written.andThen]
    exact appends_forEach f hf xs e1
  | some e => simp [Written.andThen]

theorem forEach_err_none {α : Type} (f : α → Bytes → Written) (hf : ∀ x, Appends (f x))
    (xs : List α) :
    (forEach f xs []).2 = none ↔ ∀ x ∈ xs, (f x []).2 = none := by
  induction xs with
  | nil => simp [forEach]
  | cons x xs ih =>
    rw [forEach_cons_nil f hf]
    cases h : (f x []).2 with
    | none => simp [h, ih]
    | some e => simp [h]

theorem forEach_err_some {α : Type} (f : α → Bytes → Written) (hf : ∀ x, Appends (f x))
    (xs : List α) (e : Error) (h : (forEach f xs []).2 = some e) :
    ∃ x ∈ xs, (f x []).2 = some e := by
  induction xs with
  | nil => simp [forEach] at h
  | cons x xs ih =>
    rw [forEach_cons_nil f hf] at h
    cases hx : (f x []).2 with
    | none =>
      simp only [hx] at h
      obtain ⟨y, hy, hye⟩ := ih h
      exact ⟨y, List.mem_cons_of_mem _ hy, hye⟩
    | some e1 =>
      simp only [hx, Option.some.injEq] at h
      exact ⟨x, List.mem_cons_self _ _, by rw [hx, h]⟩

theorem forEach_out {α : Type} (f : α → Bytes → Written) (hf : ∀ x, Appends (f x))
    (xs : List α) (h : ∀ x ∈ xs, (f x []).2 = none) :
    forEach f xs [] = (xs.flatMap (fun x => (f x []).1), none) := by
  induction xs with
  | nil => simp [forEach]
  | cons x xs ih =>
    rw [forEach_cons_nil f hf]
    have hx := h x (List.mem_cons_self _ _)
    have hxs := ih (fun y hy => h y (List.mem_cons_of_mem _ hy))
    simp [hx, hxs]

theorem writeListLoop_eq_forEach (l : List Value) (buf : Bytes) :
    writeListLoop l buf = forEach writeValue l buf := by
  induction l generalizing buf with
  | nil => simp [writeListLoop, forEach]
  | cons v vs ih =>
    simp only [writeListLoop, forEach]
    rcases writeValue v buf with ⟨b, r⟩
    cases r with
    | none => exact ih b
    | some e => rfl

theorem writeIndexed_eq (d : Dict) (k buf : Bytes) :
    writeIndexed d k buf = writeValue (mapIndex d k) buf := by
  induction d with
  | nil => simp [writeIndexed, mapIndex, mapLookup, writeValue]
  | cons kv rest ih =>
    obtain ⟨k1, v⟩ := kv
    simp only [writeIndexed, mapIndex, mapLookup]
    split
    · simp
    · simpa [mapIndex] using ih

/-- The `list` case of `writeValue` is `writeList`. -/
theorem writeList_eq (l : List Value) (buf : Bytes) :
    writeValue (.list l) buf = writeList l buf := by
  simp [writeValue, writeList]

/-- The `dict` case of `writeValue` is `writeDictionary`. -/
theorem writeDictionary_eq (d : Dict) (buf : Bytes) :
    writeValue (.dict d) buf = writeDictionary d buf := by
  have : (fun k b => (writeString k b).andThen (writeIndexed d k))
      = (fun k b => (writeString k b).andThen (writeValue (mapIndex d k))) := by
    funext k b
    congr 1
    funext b1
    exact writeIndexed_eq d k b1
  simp only [writeValue, writeDictionary, this]

/-- What one pass of the key loop of `writeDictionary` appends: the key as a
string, then the value. -/
theorem entry_eq (d : Dict) (k : Bytes) :
    (writeString k []).andThen (writeValue (mapIndex d k)) =
      (itoa (k.length : Int) ++ 58 :: k ++ (mapIndex d k).encoding,
        (mapIndex d k).encodeErr) := by
  rw [writeString_eq]
  simp only [Written.andThen]
  rw [writeValue_eq]
  simp

theorem appends_entry (d : Dict) (k : Bytes) :
    Appends (fun b => (writeString k b).andThen (writeValue (mapIndex d k))) :=
  appends_andThen _ _ (appends_writeString k) (appends_writeValue _)

theorem writeDictionary_nil_eq (d : Dict) :
    writeDictionary d [] =
      (forEach (fun k b => (writeString k b).andThen (writeValue (mapIndex d k)))
        (sortStrings (mapKeys d)) [typeDictionary]).andThen
        fun b => (b ++ [endOfValue], none) := by
  simp [writeDictionary]

theorem mapIndex_mem (d : Dict) (k : Bytes) (h : k ∈ mapKeys d) :
    (k, mapIndex d k) ∈ d := by
  induction d with
  | nil => simp [mapKeys] at h
  | cons kv rest ih =>
    obtain ⟨k1, v⟩ := kv
    simp only [mapIndex, mapLookup]
    split
    · rename_i e
      simp [e]
    · rename_i e
      have : k ∈ mapKeys rest := by
        simp only [mapKeys, List.map_cons, List.mem_cons] at h
        rcases h with h | h
        · exact absurd h e
        · exact h
      exact List.mem_cons_of_mem _ (by simpa [mapIndex] using ih this)

theorem mapIndex_of_mem (d : Dict) (k : Bytes) (v : Value) (hn : (mapKeys d).Nodup)
    (h : (k, v) ∈ d) : mapIndex d k = v := by
  induction d with
  | nil => simp at h
  | cons kv rest ih =>
    obtain ⟨k1, v1⟩ := kv
    simp only [mapKeys, List.map_cons, List.nodup_cons] at hn
    simp only [mapIndex, mapLookup]
    rcases List.mem_cons.mp h with e | e
    · simp only [Prod.mk.injEq] at e
      simp [e.1, e.2]
    · have hk : k ≠ k1 := by
        intro e1
        apply hn.1
        rw [← e1]
        exact List.mem_map.mpr ⟨(k, v), e, rfl⟩
      simp only [hk, if_false]
      simpa [mapIndex] using ih hn.2 e

/-- The outcome of writing a dictionary when every value is written without
error: `d`, the entries in the order of the sorted keys, `e`. -/
theorem writeDictionary_ok (d : Dict)
    (h : ∀ k ∈ mapKeys d, (mapIndex d k).encodeErr = none) :
    writeDictionary d [] =
      (typeDictionary :: ((sortStrings (mapKeys d)).flatMap
        (fun k => itoa (k.length : Int) ++ 58 :: k ++ (mapIndex d k).encoding)
          ++ [endOfValue]), none) := by
  rw [writeDictionary_nil_eq]
  have hA := appends_forEach _ (appends_entry d) (sortStrings (mapKeys d)) [typeDictionary]
  rw [hA]
  have hok : ∀ k ∈ sortStrings (mapKeys d),
      ((fun k b => (writeString k b).andThen (writeValue (mapIndex d k))) k []).2 = none := by
    intro k hk
    show ((writeString k []).andThen (writeValue (mapIndex d k))).2 = none
    rw [entry_eq]
    exact h k ((sortStrings_perm _).subset hk)
  rw [forEach_out _ (appends_entry d) _ hok]
  have hfun : (fun x => ((fun k b => (writeString k b).andThen
      (writeValue (mapIndex d k))) x []).1)
      = fun k => itoa (k.length : Int) ++ 58 :: k ++ (mapIndex d k).encoding := by
    funext k
    show ((writeString k []).andThen (writeValue (mapIndex d k))).1 = _
    rw [entry_eq]
  rw [hfun]
  simp [Written.andThen]

theorem writeDictionary_err_none (d : Dict) (h : (writeDictionary d []).2 = none) :
    ∀ k ∈ mapKeys d, (mapIndex d k).encodeErr = none := by
  rw [writeDictionary_nil_eq] at h
  have hA := appends_forEach _ (appends_entry d) (sortStrings (mapKeys d)) [typeDictionary]
  rw [hA] at h
  intro k hk
  cases hf : (forEach (fun k b => (writeString k b).andThen (writeValue (mapIndex d k)))
      (sortStrings (mapKeys d)) []).2 with
  | none =>
    have := (forEach_err_none _ (appends_entry d) _).mp hf k
      ((sortStrings_perm _).symm.subset hk)
    simpa [entry_eq] using this
  | some e =>
    rw [hf] at h
    simp [Written.andThen] at h

theorem writeDictionary_err_some (d : Dict) (e : Error)
    (h : (writeDictionary d []).2 = some e) :
    ∃ k ∈ mapKeys d, (mapIndex d k).encodeErr = some e := by
  rw [writeDictionary_nil_eq] at h
  have hA := appends_forEach _ (appends_entry d) (sortStrings (mapKeys d)) [typeDictionary]
  rw [hA] at h
  cases hf : (forEach (fun k b => (writeString k b).andThen (writeValue (mapIndex d k)))
      (sortStrings (mapKeys d)) []).2 with
  | none =>
    rw [hf] at h
    simp [Written.andThen] at h
  | some e1 =>
    rw [hf] at h
    simp only [Written.andThen, Option.some.injEq] at h
    obtain ⟨k, hk, hke⟩ := forEach_err_some _ (appends_entry d) _ e1 hf
    refine ⟨k, (sortStrings_perm _).subset hk, ?_⟩
    rw [← h]
    simpa [entry_eq] using hke


theorem writeList_nil_eq (l : List Value) :
    writeValue (.list l) [] =
      (forEach writeValue l [typeList]).andThen fun b => (b ++ [endOfValue], none) := by
  simp [writeValue, writeListLoop_eq_forEach]

theorem writeList_ok (l : List Value) (h : ∀ v ∈ l, v.encodeErr = none) :
    writeValue (.list l) [] =
      (typeList :: (l.flatMap Value.encoding ++ [endOfValue]), none) := by
  rw [writeList_nil_eq, appends_forEach _ appends_writeValue l [typeList],
    forEach_out _ appends_writeValue l h]
  simp only [Written.andThen]
  have : (fun x => (writeValue x []).1) = Value.encoding := rfl
  rw [this]
  simp

theorem writeList_err_none (l : List Value) (h : (Value.list l).encodeErr = none) :
    ∀ v ∈ l, v.encodeErr = none := by
  unfold Value.encodeErr at h
  rw [writeList_nil_eq, appends_forEach _ appends_writeValue l [typeList]] at h
  cases hf : (forEach writeValue l []).2 with
  | none => exact (forEach_err_none _ appends_writeValue l).mp hf
  | some e =>
    rw [hf] at h
    simp [Written.andThen] at h

theorem writeList_err_some (l : List Value) (e : Error)
    (h : (Value.list l).encodeErr = some e) : ∃ v ∈ l, v.encodeErr = some e := by
  unfold Value.encodeErr at h
  rw [writeList_nil_eq, appends_forEach _ appends_writeValue l [typeList]] at h
  cases hf : (forEach writeValue l []).2 with
  | none =>
    rw [hf] at h
    simp [Written.andThen] at h
  | some e1 =>
    rw [hf] at h
    simp only [Written.andThen, Option.some.injEq] at h
    rw [← h]
    exact forEach_err_some _ appends_writeValue l e1 hf

theorem dict_encodeErr (d : Dict) : (Value.dict d).encodeErr = (writeDictionary d []).2 := by
  unfold Value.encodeErr
  rw [writeDictionary_eq]

theorem dict_encoding (d : Dict) : (Value.dict d).encoding = (writeDictionary d []).1 := by
  unfold Value.encoding
  rw [writeDictionary_eq]

/-! ## Induction over trees -/

mutual
theorem Value.induct_aux (P : Value → Prop)
    (hstr : ∀ s, P (.str s)) (hbytes : ∀ b, P (.bytes b)) (hint : ∀ k v, P (.int k v))
    (huint : ∀ k v, P (.uint k v)) (hother : ∀ t, P (.other t))
    (hlist : ∀ l, (∀ v ∈ l, P v) → P (.list l))
    (hdict : ∀ d : Dict, (∀ k v, (k, v) ∈ d → P v) → P (.dict d)) : ∀ v : Value, P v
  | .str s => hstr s
  | .bytes b => hbytes b
  | .int k v => hint k v
  | .uint k v => huint k v
  | .other t => hother t
  | .list l => hlist l (Value.induct_list P hstr hbytes hint huint hother hlist hdict l)
  | .dict d => hdict d (Value.induct_entries P hstr hbytes hint huint hother hlist hdict d)
theorem Value.induct_list (P : Value → Prop)
    (hstr : ∀ s, P (.str s)) (hbytes : ∀ b, P (.bytes b)) (hint : ∀ k v, P (.int k v))
    (huint : ∀ k v, P (.uint k v)) (hother : ∀ t, P (.other t))
    (hlist : ∀ l, (∀ v ∈ l, P v) → P (.list l))
    (hdict : ∀ d : Dict, (∀ k v, (k, v) ∈ d → P v) → P (.dict d)) :
    ∀ l : List Value, ∀ v ∈ l, P v
  | [], _, h => by simp at h
  | w :: ws, v, h => by
    rcases List.mem_cons.mp h with e | e
    · rw [e]
      exact Value.induct_aux P hstr hbytes hint huint hother hlist hdict w
    · exact Value.induct_list P hstr hbytes hint huint hother hlist hdict ws v e
theorem Value.induct_entries (P : Value → Prop)
    (hstr : ∀ s, P (.str s)) (hbytes : ∀ b, P (.bytes b)) (hint : ∀ k v, P (.int k v))
    (huint : ∀ k v, P (.uint k v)) (hother : ∀ t, P (.other t))
    (hlist : ∀ l, (∀ v ∈ l, P v) → P (.list l))
    (hdict : ∀ d : Dict, (∀ k v, (k, v) ∈ d → P v) → P (.dict d)) :
    ∀ d : List (Bytes × Value), ∀ k v, (k, v) ∈ d → P v
  | [], _, _, h => by simp at h
  | (k1, w) :: rest, k, v, h => by
    rcases List.mem_cons.mp h with e | e
    · simp only [Prod.mk.injEq] at e
      rw [e.2]
      exact Value.induct_aux P hstr hbytes hint huint hother hlist hdict w
    · exact Value.induct_entries P hstr hbytes hint huint hother hlist hdict rest k v e
end

/-! ## Rejected values and well-formed trees -/

theorem mem_rejectedList (l : List Value) (t : String) :
    t ∈ rejectedList l ↔ ∃ v ∈ l, t ∈ v.rejected := by
  induction l with
  | nil => simp [rejectedList]
  | cons v vs ih => simp [rejectedList, ih]

theorem mem_rejectedEntries (d : Dict) (t : String) :
    t ∈ rejectedEntries d ↔ ∃ k v, (k, v) ∈ d ∧ t ∈ v.rejected := by
  induction d with
  | nil => simp [rejectedEntries]
  | cons kv rest ih =>
    obtain ⟨k1, w⟩ := kv
    simp only [rejectedEntries, List.mem_append, ih, List.mem_cons, Prod.mk.injEq]
    constructor
    · rintro (h | ⟨k, v, h1, h2⟩)
      · exact ⟨k1, w, Or.inl ⟨rfl, rfl⟩, h⟩
      · exact ⟨k, v, Or.inr h1, h2⟩
    · rintro ⟨k, v, (⟨_, e⟩ | h1), h2⟩
      · exact Or.inl (e ▸ h2)
      · exact Or.inr ⟨k, v, h1, h2⟩

theorem wellFormedList_iff (l : List Value) :
    wellFormedList l = true ↔ ∀ v ∈ l, v.wellFormed = true := by
  induction l with
  | nil => simp [wellFormedList]
  | cons v vs ih => simp [wellFormedList, ih]

theorem wellFormedEntries_iff (d : Dict) :
    wellFormedEntries d = true ↔
      ∀ k v, (k, v) ∈ d → k.length < 2 ^ 63 ∧ v.wellFormed = true := by
  induction d with
  | nil => simp [wellFormedEntries]
  | cons kv rest ih =>
    obtain ⟨k1, w⟩ := kv
    simp only [wellFormedEntries, Bool.and_eq_true, decide_eq_true_eq, ih, List.mem_cons,
      Prod.mk.injEq]
    constructor
    · rintro ⟨⟨h1, h2⟩, h3⟩ k v (⟨e1, e2⟩ | h)
      · rw [e1, e2]
        exact ⟨h1, h2⟩
      · exact h3 k v h
    · intro h
      exact ⟨h k1 w (Or.inl ⟨rfl, rfl⟩), fun k v hkv => h k v (Or.inr hkv)⟩

theorem wellFormed_dict (d : Dict) (h : (Value.dict d).wellFormed = true) :
    (mapKeys d).Nodup ∧ ∀ k v, (k, v) ∈ d → k.length < 2 ^ 63 ∧ v.wellFormed = true := by
  simp only [Value.wellFormed, Bool.and_eq_true, decide_eq_true_eq] at h
  exact ⟨h.1, (wellFormedEntries_iff d).mp h.2⟩

/-- An error of the encoder is the "unsupported value type" error of a value of
the tree that the type switch rejects. -/
theorem encodeErr_mem (v : Value) :
    v.encodeErr = none ∨ ∃ t ∈ v.rejected, v.encodeErr = some (.unsupported t) := by
  induction v using Value.induct_aux with
  | hstr s => exact Or.inl rfl
  | hbytes b => exact Or.inl rfl
  | hint k v => exact Or.inl rfl
  | huint k v =>
    cases k
    · exact Or.inl rfl
    · exact Or.inr ⟨"uint8", by simp [Value.rejected], rfl⟩
    · exact Or.inl rfl
    · exact Or.inl rfl
    · exact Or.inl rfl
  | hother t => exact Or.inr ⟨t, by simp [Value.rejected], rfl⟩
  | hlist l ih =>
    cases h : (Value.list l).encodeErr with
    | none => exact Or.inl rfl
    | some e =>
      obtain ⟨v, hv, hve⟩ := writeList_err_some l e h
      rcases ih v hv with h1 | ⟨t, ht, hte⟩
      · rw [h1] at hve
        cases hve
      · refine Or.inr ⟨t, ?_, ?_⟩
        · simp only [Value.rejected]
          exact (mem_rejectedList l t).mpr ⟨v, hv, ht⟩
        · rw [← hve, hte]
  | hdict d ih =>
    cases h : (Value.dict d).encodeErr with
    | none => exact Or.inl rfl
    | some e =>
      rw [dict_encodeErr] at h
      obtain ⟨k, hk, hke⟩ := writeDictionary_err_some d e h
      have hm := mapIndex_mem d k hk
      rcases ih k _ hm with h1 | ⟨t, ht, hte⟩
      · rw [h1] at hke
        cases hke
      · refine Or.inr ⟨t, ?_, ?_⟩
        · simp only [Value.rejected]
          exact (mem_rejectedEntries d t).mpr ⟨k, _, hm, ht⟩
        · rw [← hke, hte]

/-- A well-formed tree that is written without error holds no rejected value. -/
theorem rejected_nil_of_encodeErr_none (v : Value) :
    v.wellFormed = true → v.encodeErr = none → v.rejected = [] := by
  induction v using Value.induct_aux with
  | hstr s => intro _ _; rfl
  | hbytes b => intro _ _; rfl
  | hint k v => intro _ _; cases k <;> rfl
  | huint k v =>
    intro _ h
    cases k
    · rfl
    · simp [Value.encodeErr, writeValue] at h
    · rfl
    · rfl
    · rfl
  | hother t =>
    intro _ h
    simp [Value.encodeErr, writeValue] at h
  | hlist l ih =>
    intro hwf h
    simp only [Value.wellFormed] at hwf
    have hw := (wellFormedList_iff l).mp hwf
    have he := writeList_err_none l h
    simp only [Value.rejected]
    apply List.eq_nil_iff_forall_not_mem.mpr
    intro t ht
    obtain ⟨v, hv, hvt⟩ := (mem_rejectedList l t).mp ht
    rw [ih v hv (hw v hv) (he v hv)] at hvt
    simp at hvt
  | hdict d ih =>
    intro hwf h
    obtain ⟨hn, hw⟩ := wellFormed_dict d hwf
    rw [dict_encodeErr] at h
    have he := writeDictionary_err_none d h
    simp only [Value.rejected]
    apply List.eq_nil_iff_forall_not_mem.mpr
    intro t ht
    obtain ⟨k, v, hkv, hvt⟩ := (mem_rejectedEntries d t).mp ht
    have hk : k ∈ mapKeys d := List.mem_map.mpr ⟨(k, v), hkv, rfl⟩
    have hidx := mapIndex_of_mem d k v hn hkv
    have hev := he k hk
    rw [hidx] at hev
    rw [ih k v hkv (hw k v hkv).2 hev] at hvt
    simp at hvt

/-! ## Claims about the encoder -/

/-- A dictionary without a rejected value is encoded without error: the values
that make `Encode` fail are exactly those that reach the `default` case (among
the integer types, `uint8` alone). -/
theorem encode_succeeds_of_no_rejected (d : Dict) (h : (Value.dict d).rejected = []) :
    Encode d = (some (Value.dict d).encoding, none) := by
  have hnone : (Value.dict d).encodeErr = none := by
    rcases encodeErr_mem (.dict d) with h1 | ⟨t, ht, _⟩
    · exact h1
    · rw [h] at ht
      simp at ht
  rw [dict_encodeErr] at hnone
  rw [dict_encoding]
  unfold Encode
  rcases hw : writeDictionary d [] with ⟨buf, r⟩
  rw [hw] at hnone
  simp only at hnone
  rw [hnone]

/-- C5: when a dictionary holds, at any depth, a value that the type switch of
`writeValue` rejects, `Encode` returns nil bytes and the error "write value:
unsupported value type: T", where `T` is the type of a rejected value of the
tree, however much was written before that value was reached. -/
theorem encode_unsupported_is_all_or_nothing (d : Dict)
    (hwf : (Value.dict d).wellFormed = true) (hrej : (Value.dict d).rejected ≠ []) :
    ∃ t ∈ (Value.dict d).rejected,
      Encode d = (none, some (.wrap "write value" (.unsupported t))) := by
  rcases encodeErr_mem (.dict d) with h | ⟨t, ht, hte⟩
  · exact absurd (rejected_nil_of_encodeErr_none _ hwf h) hrej
  · refine ⟨t, ht, ?_⟩
    rw [dict_encodeErr] at hte
    unfold Encode
    rcases hw : writeDictionary d [] with ⟨buf, r⟩
    rw [hw] at hte
    simp only at hte
    rw [hte]

theorem encode_unsupported_is_all_or_nothing_witness :
    (Value.dict [(ascii "a", .int .int 1),
        (ascii "b", .list [.str (ascii "x"), .dict [(ascii "c", .other "float64")]])]).wellFormed
      = true ∧
    (Value.dict [(ascii "a", .int .int 1),
        (ascii "b", .list [.str (ascii "x"), .dict [(ascii "c", .other "float64")]])]).rejected
      ≠ [] ∧
    ∃ t ∈ (Value.dict [(ascii "a", .int .int 1),
        (ascii "b", .list [.str (ascii "x"), .dict [(ascii "c", .other "float64")]])]).rejected,
      Encode [(ascii "a", .int .int 1),
        (ascii "b", .list [.str (ascii "x"), .dict [(ascii "c", .other "float64")]])]
        = (none, some (.wrap "write value" (.unsupported t))) :=
  ⟨by decide, by decide, encode_unsupported_is_all_or_nothing _ (by decide) (by decide)⟩

/-- C7: the bytes written for a supported dictionary are `d`, then, for the keys
in strictly ascending byte-wise order and each once, the key as a string
followed by the encoding of its value, then `e`. -/
theorem dictionary_is_written_in_key_order (d : Dict) (buf : Bytes)
    (hwf : (Value.dict d).wellFormed = true) (hsup : (Value.dict d).rejected = []) :
    ∃ ks : List Bytes, ks.Perm (mapKeys d) ∧
      ks.Pairwise (fun a b => strLess a b = true) ∧
      (∀ k ∈ ks, (writeValue (mapIndex d k) []).2 = none) ∧
      writeDictionary d buf =
        (buf ++ [typeDictionary] ++
          ks.flatMap (fun k => (writeString k []).1 ++ (writeValue (mapIndex d k) []).1)
          ++ [endOfValue], none) := by
  obtain ⟨hn, _⟩ := wellFormed_dict d hwf
  have hnone : (Value.dict d).encodeErr = none := by
    rcases encodeErr_mem (.dict d) with h | ⟨t, ht, _⟩
    · exact h
    · rw [hsup] at ht
      simp at ht
  rw [dict_encodeErr] at hnone
  have hall := writeDictionary_err_none d hnone
  refine ⟨sortStrings (mapKeys d), sortStrings_perm _, sortStrings_strict _ hn, ?_, ?_⟩
  · intro k hk
    exact hall k ((sortStrings_perm _).subset hk)
  · rw [← writeDictionary_eq, writeValue_eq, dict_encoding, writeDictionary_ok d hall]
    have : (fun k => (writeString k []).1 ++ (writeValue (mapIndex d k) []).1)
        = fun k => itoa (k.length : Int) ++ 58 :: k ++ (mapIndex d k).encoding := by
      funext k
      rw [writeString_eq]
      simp [Value.encoding]
    rw [this, dict_encodeErr, hnone]
    simp

theorem dictionary_is_written_in_key_order_witness :
    (Value.dict [(ascii "foo", .int .int 42), (ascii "bar", .str (ascii "spam"))]).wellFormed
      = true ∧
    (Value.dict [(ascii "foo", .int .int 42), (ascii "bar", .str (ascii "spam"))]).rejected
      = [] ∧
    ∃ ks : List Bytes,
      ks.Perm (mapKeys [(ascii "foo", .int .int 42), (ascii "bar", .str (ascii "spam"))]) ∧
      ks.Pairwise (fun a b => strLess a b = true) ∧
      (∀ k ∈ ks, (writeValue (mapIndex
        [(ascii "foo", .int .int 42), (ascii "bar", .str (ascii "spam"))] k) []).2 = none) ∧
      writeDictionary [(ascii "foo", .int .int 42), (ascii "bar", .str (ascii "spam"))] [] =
        ([] ++ [typeDictionary] ++
          ks.flatMap (fun k => (writeString k []).1 ++ (writeValue (mapIndex
            [(ascii "foo", .int .int 42), (ascii "bar", .str (ascii "spam"))] k) []).1)
          ++ [endOfValue], none) :=
  ⟨by decide, by decide, dictionary_is_written_in_key_order _ [] (by decide) (by decide)⟩


/-! ## Independence of the iteration order -/

theorem forEach_congr {α : Type} (f g : α → Bytes → Written) (xs : List α)
    (h : ∀ x ∈ xs, f x = g x) (buf : Bytes) : forEach f xs buf = forEach g xs buf := by
  induction xs generalizing buf with
  | nil => rfl
  | cons x xs ih =>
    simp only [forEach]
    rw [h x (List.mem_cons_self _ _)]
    rcases g x buf with ⟨b, r⟩
    cases r with
    | none => exact ih (fun y hy => h y (List.mem_cons_of_mem _ hy)) b
    | some e => rfl

theorem writeValue_congr (v w : Value) (h : writeValue v [] = writeValue w []) :
    writeValue v = writeValue w := by
  funext buf
  rw [appends_writeValue v buf, appends_writeValue w buf, h]

theorem sameEntries_lookup (d d2 : Dict) (h : sameEntries d d2) :
    ∀ k v, (k, v) ∈ d → ∃ w, mapLookup d2 k = some w ∧ v.sameUpToOrder w := by
  induction d with
  | nil => simp
  | cons kv rest ih =>
    obtain ⟨k1, v1⟩ := kv
    simp only [sameEntries] at h
    intro k v hkv
    rcases List.mem_cons.mp hkv with e | e
    · simp only [Prod.mk.injEq] at e
      rw [e.1, e.2]
      exact h.1
    · exact ih h.2 k v e

theorem sameEntries_of_lookup (d d2 : Dict)
    (h : ∀ k v, (k, v) ∈ d → ∃ w, mapLookup d2 k = some w ∧ v.sameUpToOrder w) :
    sameEntries d d2 := by
  induction d with
  | nil => simp [sameEntries]
  | cons kv rest ih =>
    obtain ⟨k1, v1⟩ := kv
    simp only [sameEntries]
    exact ⟨h k1 v1 (List.mem_cons_self _ _),
      ih (fun k v hkv => h k v (List.mem_cons_of_mem _ hkv))⟩

theorem sameList_forEach (l l2 : List Value)
    (ih : ∀ v ∈ l, ∀ w, v.sameUpToOrder w → writeValue v [] = writeValue w [])
    (h : sameList l l2) (buf : Bytes) :
    forEach writeValue l buf = forEach writeValue l2 buf := by
  induction l generalizing l2 buf with
  | nil =>
    simp only [sameList] at h
    rw [h]
  | cons v vs ihl =>
    simp only [sameList] at h
    obtain ⟨w, ws, e, hvw, hrest⟩ := h
    rw [e]
    simp only [forEach]
    rw [writeValue_congr v w (ih v (List.mem_cons_self _ _) w hvw)]
    rcases writeValue w buf with ⟨b, r⟩
    cases r with
    | none => exact ihl ws (fun x hx => ih x (List.mem_cons_of_mem _ hx)) hrest b
    | some e => rfl

/-- Trees that differ only in the enumeration order of their maps are written
as the same bytes, with the same error. -/
theorem writeValue_sameUpToOrder (v : Value) :
    ∀ w, v.sameUpToOrder w → writeValue v [] = writeValue w [] := by
  induction v using Value.induct_aux with
  | hstr s => intro w h; simp only [Value.sameUpToOrder] at h; rw [h]
  | hbytes b => intro w h; simp only [Value.sameUpToOrder] at h; rw [h]
  | hint k v => intro w h; simp only [Value.sameUpToOrder] at h; rw [h]
  | huint k v => intro w h; simp only [Value.sameUpToOrder] at h; rw [h]
  | hother t => intro w h; simp only [Value.sameUpToOrder] at h; rw [h]
  | hlist l ih =>
    intro w h
    simp only [Value.sameUpToOrder] at h
    obtain ⟨l2, e, hl⟩ := h
    rw [e, writeList_nil_eq, writeList_nil_eq, sameList_forEach l l2 ih hl]
  | hdict d ih =>
    intro w h
    simp only [Value.sameUpToOrder] at h
    obtain ⟨d2, e, hperm, hent⟩ := h
    rw [e, writeDictionary_eq, writeDictionary_eq, writeDictionary_nil_eq,
      writeDictionary_nil_eq, sortStrings_congr _ _ hperm]
    have hlook := sameEntries_lookup d d2 hent
    have hcongr : ∀ k ∈ sortStrings (mapKeys d2),
        (fun b => (writeString k b).andThen (writeValue (mapIndex d k)))
          = (fun b => (writeString k b).andThen (writeValue (mapIndex d2 k))) := by
      intro k hk
      have hk1 : k ∈ mapKeys d := hperm.symm.subset ((sortStrings_perm _).subset hk)
      have hm := mapIndex_mem d k hk1
      obtain ⟨w1, hw1, hs⟩ := hlook k _ hm
      have e2 : mapIndex d2 k = w1 := by simp [mapIndex, hw1]
      rw [e2, writeValue_congr _ _ (ih k _ hm w1 hs)]
    rw [forEach_congr _ _ _ hcongr]

theorem mapLookup_of_mem (d : Dict) (k : Bytes) (v : Value) (hn : (mapKeys d).Nodup)
    (h : (k, v) ∈ d) : mapLookup d k = some v := by
  induction d with
  | nil => simp at h
  | cons kv rest ih =>
    obtain ⟨k1, v1⟩ := kv
    simp only [mapKeys, List.map_cons, List.nodup_cons] at hn
    simp only [mapLookup]
    rcases List.mem_cons.mp h with e | e
    · simp only [Prod.mk.injEq] at e
      simp [e.1, e.2]
    · have hk : k ≠ k1 := by
        intro e1
        apply hn.1
        rw [← e1]
        exact List.mem_map.mpr ⟨(k, v), e, rfl⟩
      simp only [hk, if_false]
      exact ih hn.2 e

theorem sameList_refl (l : List Value) (h : ∀ v ∈ l, v.sameUpToOrder v) : sameList l l := by
  induction l with
  | nil => simp [sameList]
  | cons v vs ih =>
    simp only [sameList]
    exact ⟨v, vs, rfl, h v (List.mem_cons_self _ _),
      ih (fun x hx => h x (List.mem_cons_of_mem _ hx))⟩

theorem sameUpToOrder_refl (v : Value) : v.wellFormed = true → v.sameUpToOrder v := by
  induction v using Value.induct_aux with
  | hstr s => intro _; simp [Value.sameUpToOrder]
  | hbytes b => intro _; simp [Value.sameUpToOrder]
  | hint k v => intro _; simp [Value.sameUpToOrder]
  | huint k v => intro _; simp [Value.sameUpToOrder]
  | hother t => intro _; simp [Value.sameUpToOrder]
  | hlist l ih =>
    intro hwf
    simp only [Value.wellFormed] at hwf
    have hw := (wellFormedList_iff l).mp hwf
    simp only [Value.sameUpToOrder]
    exact ⟨l, rfl, sameList_refl l (fun v hv => ih v hv (hw v hv))⟩
  | hdict d ih =>
    intro hwf
    obtain ⟨hn, hw⟩ := wellFormed_dict d hwf
    simp only [Value.sameUpToOrder]
    refine ⟨d, rfl, List.Perm.refl _, sameEntries_of_lookup d d ?_⟩
    intro k v hkv
    exact ⟨v, mapLookup_of_mem d k v hn hkv, ih k v hkv (hw k v hkv).2⟩

/-- A map and any rearrangement of its entries are the same up to order. -/
theorem sameUpToOrder_of_perm (d d2 : Dict) (hwf : (Value.dict d).wellFormed = true)
    (hp : d.Perm d2) : (Value.dict d).sameUpToOrder (.dict d2) := by
  obtain ⟨hn, hw⟩ := wellFormed_dict d hwf
  have hn2 : (mapKeys d2).Nodup := ((hp.map Prod.fst).nodup_iff).mp hn
  simp only [Value.sameUpToOrder]
  refine ⟨d2, rfl, hp.map Prod.fst, sameEntries_of_lookup d d2 ?_⟩
  intro k v hkv
  exact ⟨v, mapLookup_of_mem d2 k v hn2 (hp.subset hkv),
    sameUpToOrder_refl v (hw k v hkv).2⟩

/-- C6: two dictionaries that hold the same key/value pairs at every nesting
level and differ only in the order in which their entries are enumerated are
encoded as the same bytes: the result of `Encode` does not depend on the
iteration order of any map of the tree. -/
theorem encode_key_order_independent (d1 d2 : Dict)
    (h : (Value.dict d1).sameUpToOrder (.dict d2)) : Encode d1 = Encode d2 := by
  have e := writeValue_sameUpToOrder _ _ h
  rw [writeDictionary_eq, writeDictionary_eq] at e
  unfold Encode
  rw [e]


theorem encode_key_order_independent_witness :
    (Value.dict [(ascii "b", .dict [(ascii "y", .int .int 2), (ascii "x", .str (ascii "s"))]),
        (ascii "a", .list [.int .int 1])]).sameUpToOrder
      (.dict [(ascii "a", .list [.int .int 1]),
        (ascii "b", .dict [(ascii "x", .str (ascii "s")), (ascii "y", .int .int 2)])]) ∧
    Encode [(ascii "b", .dict [(ascii "y", .int .int 2), (ascii "x", .str (ascii "s"))]),
        (ascii "a", .list [.int .int 1])] =
      Encode [(ascii "a", .list [.int .int 1]),
        (ascii "b", .dict [(ascii "x", .str (ascii "s")), (ascii "y", .int .int 2)])] :=
  have h : (Value.dict [(ascii "b", .dict [(ascii "y", .int .int 2),
        (ascii "x", .str (ascii "s"))]), (ascii "a", .list [.int .int 1])]).sameUpToOrder
      (.dict [(ascii "a", .list [.int .int 1]),
        (ascii "b", .dict [(ascii "x", .str (ascii "s")), (ascii "y", .int .int 2)])]) := by
    simp only [Value.sameUpToOrder]
    refine ⟨_, rfl, by decide, ?_⟩
    simp only [sameEntries]
    refine ⟨⟨_, rfl, ?_⟩, ⟨_, rfl, ?_⟩, trivial⟩
    · simp only [Value.sameUpToOrder]
      refine ⟨_, rfl, by decide, ?_⟩
      simp only [sameEntries, Value.sameUpToOrder]
      exact ⟨⟨_, rfl, rfl⟩, ⟨_, rfl, rfl⟩, trivial⟩
    · simp only [Value.sameUpToOrder, sameList]
      exact ⟨_, rfl, _, _, rfl, rfl, rfl⟩
  ⟨h, encode_key_order_independent _ _ h⟩


/-! ## Truncated input -/

theorem noResult_leaves {α : Type} (r : Res α) (rest : Bytes) (h : r.noResult) :
    r.leaves rest := by
  cases r <;> simp_all [Res.noResult, Res.leaves]

theorem split_truncation (q s a b : Bytes) (_hs : s ≠ []) (h : q ++ s = a ++ b) :
    (∃ s1, s1 ≠ [] ∧ q ++ s1 = a) ∨ (∃ q1, q = a ++ q1 ∧ q1 ++ s = b) := by
  rcases List.append_eq_append_iff.mp h with ⟨a1, e1, e2⟩ | ⟨c1, e1, e2⟩
  · cases a1 with
    | nil =>
      right
      exact ⟨[], by simpa using e1.symm, by simpa using e2⟩
    | cons x xs =>
      left
      exact ⟨x :: xs, by simp, e1.symm⟩
  · right
    exact ⟨c1, e1, e2.symm⟩

theorem stringBytes_head (k : Bytes) :
    ∃ c cs, stringBytes k = c :: cs ∧ 48 ≤ c ∧ c ≤ 57 := by
  obtain ⟨c, cs, e, h1, h2⟩ := formatUint_head k.length
  exact ⟨c, cs ++ 58 :: k, by simp [stringBytes, itoa_natCast, e], h1, h2⟩

theorem readString_stringBytes (k rest : Bytes) :
    readString (stringBytes k ++ rest) = .ok k rest ∨
      ∃ e, readString (stringBytes k ++ rest) = .err [] e := by
  have e : stringBytes k ++ rest = itoa (k.length : Int) ++ 58 :: (k ++ rest) := by
    simp [stringBytes]
  rw [e, readString_writeString]
  by_cases h : k.length < 2 ^ 63
  · left
    simp only [h, if_true]
  · right
    simp only [h, if_false]
    exact ⟨_, rfl⟩

theorem readString_truncated (k q s : Bytes) (hs : s ≠ []) (h : q ++ s = stringBytes k) :
    (readString q).noResult := by
  have hno : ∀ c ∈ itoa (k.length : Int), c ≠ 58 := by
    intro c hc
    rw [itoa_natCast] at hc
    have := formatUint_digits _ c hc
    omega
  unfold stringBytes at h
  rcases split_truncation q s _ _ hs h with ⟨s1, _, e⟩ | ⟨q1, e1, e2⟩
  · have hq : ∀ c ∈ q, c ≠ 58 := by
      intro c hc
      exact hno c (by rw [← e]; exact List.mem_append_left _ hc)
    simp [readString, readLength, readBytes_none 58 q hq, Res.noResult]
  · cases q1 with
    | nil =>
      have hq : ∀ c ∈ q, c ≠ 58 := by
        intro c hc
        rw [e1] at hc
        simp only [List.append_nil] at hc
        exact hno c hc
      simp [readString, readLength, readBytes_none 58 q hq, Res.noResult]
    | cons x xs =>
      simp only [List.cons_append, List.cons.injEq] at e2
      obtain ⟨ex, ek⟩ := e2
      rw [e1, ex]
      simp only [readString, readLength_itoa]
      by_cases hl : k.length < 2 ^ 63
      · have h0 : ¬ ((k.length : Int) < 0) := by omega
        simp only [hl, if_true, h0, if_false, Int.toNat_ofNat]
        have hlen : xs.length < k.length := by
          rw [← ek]
          have : 0 < s.length := List.length_pos.mpr hs
          simp only [List.length_append]
          omega
        obtain ⟨er, her⟩ := readFull_short k.length xs hlen
        rw [her]
        simp [Res.noResult]
      · simp only [hl, if_false, Res.noResult]

theorem readBytes_head (d c : Nat) (xs line rest : Bytes) (hc : c ≠ d)
    (h : readBytes d (c :: xs) = some (line, rest)) :
    ∃ y ys, line = c :: y :: ys := by
  simp only [readBytes, hc, if_false] at h
  cases xs with
  | nil => simp [readBytes] at h
  | cons x xs1 =>
    cases hr : readBytes d (x :: xs1) with
    | none => simp [hr] at h
    | some p =>
      obtain ⟨l1, r1⟩ := p
      simp only [hr, Option.some.injEq, Prod.mk.injEq] at h
      have hl : l1 ≠ [] := by
        intro e
        simp only [readBytes] at hr
        split at hr
        · simp [e] at hr
        · split at hr <;> simp [e] at hr
      obtain ⟨y, ys, e⟩ := List.exists_cons_of_ne_nil hl
      exact ⟨y, ys, by rw [← h.1, e]⟩

/-- The key reader fails on input that begins with the terminator `e`. -/
theorem readString_endOfValue (rest : Bytes) :
    ∃ e, readString (endOfValue :: rest) = .err [] e := by
  simp only [readString, readLength]
  cases hr : readBytes 58 (endOfValue :: rest) with
  | none => exact ⟨_, rfl⟩
  | some p =>
    obtain ⟨line, r1⟩ := p
    obtain ⟨y, ys, e⟩ := readBytes_head 58 endOfValue rest line r1 (by decide) hr
    have ht : line.take (line.length - 1) = endOfValue :: (y :: ys).take ys.length := by
      rw [e]
      simp
    simp only [ht]
    have hu : parseUint (endOfValue :: (y :: ys).take ys.length) = .error .invalidNum := by
      have hd : ¬ (48 ≤ endOfValue ∧ endOfValue ≤ 57) := by decide
      simp only [parseUint, parseUintLoop, hd, if_false]
      simp
    have hp : parseInt (endOfValue :: (y :: ys).take ys.length) = .error .invalidNum := by
      rw [parseInt_unsigned _ _ (by decide) (by decide), hu]
    rw [hp]
    exact ⟨_, rfl⟩

theorem readDictionaryLoop_endOfValue (fuel : Nat) (acc : Dict) (rest : Bytes) :
    (readDictionaryLoop fuel acc (endOfValue :: rest)).noResult := by
  cases fuel with
  | zero => simp [readDictionaryLoop, Res.noResult]
  | succ fuel =>
    obtain ⟨e, he⟩ := readString_endOfValue rest
    simp [readDictionaryLoop, he, Res.noResult]

theorem readDictionaryLoop_nil (fuel : Nat) (acc : Dict) :
    (readDictionaryLoop fuel acc []).noResult := by
  cases fuel with
  | zero => simp [readDictionaryLoop, Res.noResult]
  | succ fuel =>
    simp [readDictionaryLoop, readString, readLength, readBytes, Res.noResult]


/-! ### One pass of the decoder loops -/

theorem readListLoop_step_ok (fuel t : Nat) (acc : List Value) (inp inp2 : Bytes)
    (val : Value) (ht : t ≠ endOfValue) (h : readValue fuel t inp = .ok val inp2) :
    readListLoop (fuel + 1) acc (t :: inp) = readListLoop fuel (acc ++ [val]) inp2 := by
  simp [readListLoop, readByte, ht, h]

theorem readListLoop_step_noResult (fuel t : Nat) (acc : List Value) (inp : Bytes)
    (ht : t ≠ endOfValue) (h : (readValue fuel t inp).noResult) :
    (readListLoop (fuel + 1) acc (t :: inp)).noResult := by
  cases hr : readValue fuel t inp <;> simp_all [readListLoop, readByte, Res.noResult]

theorem readDictionaryLoop_key_noResult (fuel : Nat) (acc : Dict) (inp : Bytes)
    (h : (readString inp).noResult) : (readDictionaryLoop (fuel + 1) acc inp).noResult := by
  cases hr : readString inp <;> simp_all [readDictionaryLoop, Res.noResult]

theorem readDictionaryLoop_key_eof (fuel : Nat) (acc : Dict) (inp key : Bytes)
    (hk : readString inp = .ok key []) : (readDictionaryLoop (fuel + 1) acc inp).noResult := by
  simp [readDictionaryLoop, hk, readByte, Res.noResult]

theorem readDictionaryLoop_value_noResult (fuel t : Nat) (acc : Dict) (inp key inp2 : Bytes)
    (hk : readString inp = .ok key (t :: inp2)) (ht : t ≠ endOfValue)
    (h : (readValue fuel t inp2).noResult) :
    (readDictionaryLoop (fuel + 1) acc inp).noResult := by
  cases hr : readValue fuel t inp2 <;>
    simp_all [readDictionaryLoop, readByte, Res.noResult]

theorem readDictionaryLoop_value_eof (fuel t : Nat) (acc : Dict) (inp key inp2 : Bytes)
    (val : Value) (hk : readString inp = .ok key (t :: inp2)) (ht : t ≠ endOfValue)
    (h : readValue fuel t inp2 = .ok val []) :
    (readDictionaryLoop (fuel + 1) acc inp).noResult := by
  simp [readDictionaryLoop, hk, readByte, ht, h, Res.noResult]

theorem readDictionaryLoop_value_end (fuel t : Nat) (acc : Dict) (inp key inp2 rest : Bytes)
    (val : Value) (hk : readString inp = .ok key (t :: inp2)) (ht : t ≠ endOfValue)
    (h : readValue fuel t inp2 = .ok val (endOfValue :: rest)) :
    readDictionaryLoop (fuel + 1) acc inp = .ok (mapAssign acc key val) rest := by
  simp [readDictionaryLoop, hk, readByte, ht, h]

theorem readDictionaryLoop_value_more (fuel t c : Nat) (acc : Dict)
    (inp key inp2 inp4 : Bytes) (val : Value)
    (hk : readString inp = .ok key (t :: inp2)) (ht : t ≠ endOfValue)
    (h : readValue fuel t inp2 = .ok val (c :: inp4)) (hc : c ≠ endOfValue) :
    readDictionaryLoop (fuel + 1) acc inp =
      readDictionaryLoop fuel (mapAssign acc key val) (c :: inp4) := by
  simp [readDictionaryLoop, hk, readByte, ht, h, hc]

theorem readValue_digit (fuel c : Nat) (inp : Bytes) (h1 : 48 ≤ c) (h2 : c ≤ 57) :
    readValue (fuel + 1) c inp =
      match readString (c :: inp) with
      | .ok s rest => .ok (.str s) rest
      | .err s e => .err (.str s) e
      | .panic => .panic
      | .fuelOut => .fuelOut := by
  have hd : c ≠ typeDictionary := by simp only [typeDictionary]; omega
  have hl : c ≠ typeList := by simp only [typeList]; omega
  have hi : c ≠ typeInteger := by simp only [typeInteger]; omega
  simp only [readValue, hd, hl, hi, if_false] <;> (cases readString (c :: inp) <;> rfl)

theorem readValue_integer (fuel : Nat) (inp : Bytes) :
    readValue (fuel + 1) typeInteger inp = readInteger inp := by
  simp [readValue]

/-! ### The encodings of the leaves are self-delimiting -/

theorem string_selfDelimiting (v : Value) (s : Bytes) (h : v.encoding = stringBytes s) :
    v.selfDelimiting := by
  obtain ⟨c, cs, e, h1, h2⟩ := stringBytes_head s
  refine ⟨c, cs, by rw [h, e], by simp only [endOfValue]; omega, ?_, ?_⟩
  · intro fuel rest
    cases fuel with
    | zero => simp [readValue, Res.leaves]
    | succ fuel =>
      rw [readValue_digit fuel c _ h1 h2]
      have e2 : c :: (cs ++ rest) = stringBytes s ++ rest := by rw [e]; rfl
      rw [e2]
      rcases readString_stringBytes s rest with h3 | ⟨er, h3⟩ <;> rw [h3] <;>
        simp [Res.leaves]
  · intro fuel q s1 hs hq
    cases fuel with
    | zero => simp [readValue, Res.noResult]
    | succ fuel =>
      rw [readValue_digit fuel c _ h1 h2]
      have e2 : (c :: q) ++ s1 = stringBytes s := by rw [e, ← hq]; rfl
      have := readString_truncated s (c :: q) s1 hs e2
      cases hr : readString (c :: q) <;> simp_all [Res.noResult]

theorem integer_selfDelimiting (v : Value) (i : Int)
    (h : v.encoding = typeInteger :: (formatInt i ++ [endOfValue])) : v.selfDelimiting := by
  have hno : ∀ c ∈ formatInt i, c ≠ endOfValue := by
    intro c hc
    have := formatInt_chars i c hc
    simp only [endOfValue]
    omega
  refine ⟨typeInteger, formatInt i ++ [endOfValue], h, by decide, ?_, ?_⟩
  · intro fuel rest
    cases fuel with
    | zero => simp [readValue, Res.leaves]
    | succ fuel =>
      rw [readValue_integer]
      have e2 : formatInt i ++ [endOfValue] ++ rest = formatInt i ++ endOfValue :: rest := by
        simp
      rw [e2, readInteger_formatInt]
      split_ifs <;> simp [Res.leaves]
  · intro fuel q s1 hs hq
    cases fuel with
    | zero => simp [readValue, Res.noResult]
    | succ fuel =>
      rw [readValue_integer]
      have hq1 : ∀ c ∈ q, c ≠ endOfValue := by
        rcases split_truncation q s1 _ _ hs hq with ⟨s2, _, e⟩ | ⟨q1, e1, e2⟩
        · intro c hc
          exact hno c (by rw [← e]; exact List.mem_append_left _ hc)
        · cases q1 with
          | nil =>
            intro c hc
            rw [e1] at hc
            simp only [List.append_nil] at hc
            exact hno c hc
          | cons x xs =>
            have := congrArg List.length e2
            have : 0 < s1.length := List.length_pos.mpr hs
            simp only [List.cons_append, List.length_cons, List.length_append,
              List.length_nil] at *
            omega
      simp [readInteger, readBytes_none endOfValue q hq1, Res.noResult]


/-! ### The loops on the encodings of self-delimiting values -/

theorem readListLoop_spec (l : List Value) (hl : ∀ v ∈ l, v.selfDelimiting) :
    ∀ (fuel : Nat) (acc : List Value),
      (∀ rest, (readListLoop fuel acc
        (l.flatMap Value.encoding ++ endOfValue :: rest)).leaves rest) ∧
      (∀ q s, s ≠ [] → q ++ s = l.flatMap Value.encoding ++ [endOfValue] →
        (readListLoop fuel acc q).noResult) := by
  induction l with
  | nil =>
    intro fuel acc
    cases fuel with
    | zero => simp [readListLoop, Res.leaves, Res.noResult]
    | succ fuel =>
      constructor
      · intro rest
        simp [readListLoop, readByte, Res.leaves]
      · intro q s hs hq
        cases q with
        | nil => simp [readListLoop, readByte, Res.noResult]
        | cons x xs =>
          have := congrArg List.length hq
          have : 0 < s.length := List.length_pos.mpr hs
          simp only [List.flatMap_nil, List.nil_append, List.cons_append, List.length_cons,
            List.length_append, List.length_nil] at *
          omega
  | cons v vs ih =>
    intro fuel acc
    obtain ⟨t, body, he, ht, ha, hb⟩ := hl v (List.mem_cons_self _ _)
    have ihv := ih (fun x hx => hl x (List.mem_cons_of_mem _ hx))
    cases fuel with
    | zero => simp [readListLoop, Res.leaves, Res.noResult]
    | succ fuel =>
      constructor
      · intro rest
        have e : (v :: vs).flatMap Value.encoding ++ endOfValue :: rest
            = t :: (body ++ (vs.flatMap Value.encoding ++ endOfValue :: rest)) := by
          simp [List.flatMap_cons, he]
        rw [e]
        have hlv := ha fuel (vs.flatMap Value.encoding ++ endOfValue :: rest)
        cases hr : readValue fuel t (body ++ (vs.flatMap Value.encoding ++ endOfValue :: rest))
          with
        | ok val inp2 =>
          rw [hr] at hlv
          simp only [Res.leaves] at hlv
          rw [readListLoop_step_ok fuel t acc _ inp2 val ht hr, hlv]
          exact (ihv fuel (acc ++ [val])).1 rest
        | err w er =>
          exact noResult_leaves _ _ (readListLoop_step_noResult fuel t acc _ ht
            (by rw [hr]; simp [Res.noResult]))
        | panic =>
          rw [hr] at hlv
          simp [Res.leaves] at hlv
        | fuelOut =>
          exact noResult_leaves _ _ (readListLoop_step_noResult fuel t acc _ ht
            (by rw [hr]; simp [Res.noResult]))
      · intro q s hs hq
        have e : (v :: vs).flatMap Value.encoding ++ [endOfValue]
            = t :: (body ++ (vs.flatMap Value.encoding ++ [endOfValue])) := by
          simp [List.flatMap_cons, he]
        rw [e] at hq
        cases q with
        | nil => simp [readListLoop, readByte, Res.noResult]
        | cons x q2 =>
          simp only [List.cons_append, List.cons.injEq] at hq
          obtain ⟨ex, hq2⟩ := hq
          rw [ex]
          rcases split_truncation q2 s _ _ hs hq2 with ⟨s1, hs1, e1⟩ | ⟨q3, e1, e3⟩
          · exact readListLoop_step_noResult fuel t acc q2 ht (hb fuel q2 s1 hs1 e1)
          · rw [e1]
            have hlv := ha fuel q3
            cases hr : readValue fuel t (body ++ q3) with
            | ok val inp2 =>
              rw [hr] at hlv
              simp only [Res.leaves] at hlv
              rw [readListLoop_step_ok fuel t acc _ inp2 val ht hr, hlv]
              exact (ihv fuel (acc ++ [val])).2 q3 s hs e3
            | err w er =>
              exact readListLoop_step_noResult fuel t acc _ ht
                (by rw [hr]; simp [Res.noResult])
            | panic =>
              rw [hr] at hlv
              simp [Res.leaves] at hlv
            | fuelOut =>
              exact readListLoop_step_noResult fuel t acc _ ht
                (by rw [hr]; simp [Res.noResult])

theorem entryBytes_head (d : Dict) (k : Bytes) :
    ∃ c cs, entryBytes d k = c :: cs ∧ c ≠ endOfValue := by
  obtain ⟨c, cs, e, h1, h2⟩ := stringBytes_head k
  exact ⟨c, cs ++ (mapIndex d k).encoding, by simp [entryBytes, e],
    by simp only [endOfValue]; omega⟩

theorem readDictionaryLoop_spec (d : Dict) (ks : List Bytes) :
    ∀ (k : Bytes), (∀ x ∈ k :: ks, (mapIndex d x).selfDelimiting) →
    ∀ (fuel : Nat) (acc : Dict),
      (∀ rest, (readDictionaryLoop fuel acc
        ((k :: ks).flatMap (entryBytes d) ++ endOfValue :: rest)).leaves rest) ∧
      (∀ q s, s ≠ [] → q ++ s = (k :: ks).flatMap (entryBytes d) ++ [endOfValue] →
        (readDictionaryLoop fuel acc q).noResult) := by
  induction ks with
  | nil =>
    intro k hk fuel acc
    obtain ⟨t, body, he, ht, ha, hb⟩ := hk k (List.mem_cons_self _ _)
    cases fuel with
    | zero => simp [readDictionaryLoop, Res.leaves, Res.noResult]
    | succ fuel =>
      constructor
      · intro rest
        have e : [k].flatMap (entryBytes d) ++ endOfValue :: rest
            = stringBytes k ++ (t :: (body ++ endOfValue :: rest)) := by
          simp [List.flatMap_cons, entryBytes, he]
        rw [e]
        rcases readString_stringBytes k (t :: (body ++ endOfValue :: rest)) with hs | ⟨er, hs⟩
        · have hlv := ha fuel (endOfValue :: rest)
          cases hr : readValue fuel t (body ++ endOfValue :: rest) with
          | ok val inp3 =>
            rw [hr] at hlv
            simp only [Res.leaves] at hlv
            rw [hlv] at hr
            rw [readDictionaryLoop_value_end fuel t acc _ k _ rest val hs ht hr]
            simp [Res.leaves]
          | err w er =>
            exact noResult_leaves _ _ (readDictionaryLoop_value_noResult fuel t acc _ k _ hs ht
              (by rw [hr]; simp [Res.noResult]))
          | panic =>
            rw [hr] at hlv
            simp [Res.leaves] at hlv
          | fuelOut =>
            exact noResult_leaves _ _ (readDictionaryLoop_value_noResult fuel t acc _ k _ hs ht
              (by rw [hr]; simp [Res.noResult]))
        · exact noResult_leaves _ _ (readDictionaryLoop_key_noResult fuel acc _
            (by rw [hs]; simp [Res.noResult]))
      · intro q s hs hq
        have e : [k].flatMap (entryBytes d) ++ [endOfValue]
            = stringBytes k ++ (t :: (body ++ [endOfValue])) := by
          simp [List.flatMap_cons, entryBytes, he]
        rw [e] at hq
        rcases split_truncation q s _ _ hs hq with ⟨s1, hs1, e1⟩ | ⟨q1, e1, e2⟩
        · exact readDictionaryLoop_key_noResult fuel acc q (readString_truncated k q s1 hs1 e1)
        · rw [e1]
          rcases readString_stringBytes k q1 with hk1 | ⟨er, hk1⟩
          · cases q1 with
            | nil => exact readDictionaryLoop_key_eof fuel acc _ k hk1
            | cons x q2 =>
              simp only [List.cons_append, List.cons.injEq] at e2
              obtain ⟨ex, hq2⟩ := e2
              subst ex
              rcases split_truncation q2 s _ _ hs hq2 with ⟨s2, hs2, e3⟩ | ⟨q3, e3, e4⟩
              · exact readDictionaryLoop_value_noResult fuel x acc _ k q2 hk1 ht
                  (hb fuel q2 s2 hs2 e3)
              · have hq3 : q3 = [] := by
                  cases q3 with
                  | nil => rfl
                  | cons y ys =>
                    have := congrArg List.length e4
                    have : 0 < s.length := List.length_pos.mpr hs
                    simp only [List.cons_append, List.length_cons, List.length_append,
                      List.length_nil] at *
                    omega
                subst e3
                subst hq3
                have hlv := ha fuel []
                cases hr : readValue fuel x (body ++ []) with
                | ok val inp3 =>
                  rw [hr] at hlv
                  simp only [Res.leaves] at hlv
                  rw [hlv] at hr
                  exact readDictionaryLoop_value_eof fuel x acc _ k _ val hk1 ht hr
                | err w er =>
                  exact readDictionaryLoop_value_noResult fuel x acc _ k _ hk1 ht
                    (by rw [hr]; simp [Res.noResult])
                | panic =>
                  rw [hr] at hlv
                  simp [Res.leaves] at hlv
                | fuelOut =>
                  exact readDictionaryLoop_value_noResult fuel x acc _ k _ hk1 ht
                    (by rw [hr]; simp [Res.noResult])
          · exact readDictionaryLoop_key_noResult fuel acc _
              (by rw [hk1]; simp [Res.noResult])
  | cons k1 ks ih =>
    intro k hk fuel acc
    obtain ⟨t, body, he, ht, ha, hb⟩ := hk k (List.mem_cons_self _ _)
    have ihk := ih k1 (fun x hx => hk x (List.mem_cons_of_mem _ hx))
    obtain ⟨c, cs, hc, hce⟩ := entryBytes_head d k1
    cases fuel with
    | zero => simp [readDictionaryLoop, Res.leaves, Res.noResult]
    | succ fuel =>
      constructor
      · intro rest
        have e : (k :: k1 :: ks).flatMap (entryBytes d) ++ endOfValue :: rest
            = stringBytes k ++ (t :: (body ++
                ((k1 :: ks).flatMap (entryBytes d) ++ endOfValue :: rest))) := by
          simp [List.flatMap_cons, entryBytes, he]
        have etail : (k1 :: ks).flatMap (entryBytes d) ++ endOfValue :: rest
            = c :: (cs ++ (ks.flatMap (entryBytes d) ++ endOfValue :: rest)) := by
          simp [List.flatMap_cons, hc]
        rw [e, etail]
        rcases readString_stringBytes k (t :: (body ++
            (c :: (cs ++ (ks.flatMap (entryBytes d) ++ endOfValue :: rest))))) with hs | ⟨er, hs⟩
        · have hlv := ha fuel (c :: (cs ++ (ks.flatMap (entryBytes d) ++ endOfValue :: rest)))
          cases hr : readValue fuel t
              (body ++ (c :: (cs ++ (ks.flatMap (entryBytes d) ++ endOfValue :: rest)))) with
          | ok val inp3 =>
            rw [hr] at hlv
            simp only [Res.leaves] at hlv
            rw [hlv] at hr
            rw [readDictionaryLoop_value_more fuel t c acc _ k _ _ val hs ht hr hce, ← etail]
            exact (ihk fuel (mapAssign acc k val)).1 rest
          | err w er =>
            exact noResult_leaves _ _ (readDictionaryLoop_value_noResult fuel t acc _ k _ hs ht
              (by rw [hr]; simp [Res.noResult]))
          | panic =>
            rw [hr] at hlv
            simp [Res.leaves] at hlv
          | fuelOut =>
            exact noResult_leaves _ _ (readDictionaryLoop_value_noResult fuel t acc _ k _ hs ht
              (by rw [hr]; simp [Res.noResult]))
        · exact noResult_leaves _ _ (readDictionaryLoop_key_noResult fuel acc _
            (by rw [hs]; simp [Res.noResult]))
      · intro q s hs hq
        have e : (k :: k1 :: ks).flatMap (entryBytes d) ++ [endOfValue]
            = stringBytes k ++ (t :: (body ++
                ((k1 :: ks).flatMap (entryBytes d) ++ [endOfValue]))) := by
          simp [List.flatMap_cons, entryBytes, he]
        rw [e] at hq
        have etail : (k1 :: ks).flatMap (entryBytes d) ++ [endOfValue]
            = c :: (cs ++ (ks.flatMap (entryBytes d) ++ [endOfValue])) := by
          simp [List.flatMap_cons, hc]
        rcases split_truncation q s _ _ hs hq with ⟨s1, hs1, e1⟩ | ⟨q1, e1, e2⟩
        · exact readDictionaryLoop_key_noResult fuel acc q (readString_truncated k q s1 hs1 e1)
        · rw [e1]
          rcases readString_stringBytes k q1 with hk1 | ⟨er, hk1⟩
          · cases q1 with
            | nil => exact readDictionaryLoop_key_eof fuel acc _ k hk1
            | cons x q2 =>
              simp only [List.cons_append, List.cons.injEq] at e2
              obtain ⟨ex, hq2⟩ := e2
              subst ex
              rcases split_truncation q2 s _ _ hs hq2 with ⟨s2, hs2, e3⟩ | ⟨q3, e3, e4⟩
              · exact readDictionaryLoop_value_noResult fuel x acc _ k q2 hk1 ht
                  (hb fuel q2 s2 hs2 e3)
              · subst e3
                have hlv := ha fuel q3
                cases hr : readValue fuel x (body ++ q3) with
                | ok val inp3 =>
                  rw [hr] at hlv
                  simp only [Res.leaves] at hlv
                  rw [hlv] at hr
                  cases q3 with
                  | nil => exact readDictionaryLoop_value_eof fuel x acc _ k _ val hk1 ht hr
                  | cons y q4 =>
                    have ey : y = c := by
                      rw [etail] at e4
                      simp only [List.cons_append, List.cons.injEq] at e4
                      exact e4.1
                    subst ey
                    rw [readDictionaryLoop_value_more fuel x y acc _ k _ _ val hk1 ht hr hce]
                    exact (ihk fuel (mapAssign acc k val)).2 (y :: q4) s hs e4
                | err w er =>
                  exact readDictionaryLoop_value_noResult fuel x acc _ k _ hk1 ht
                    (by rw [hr]; simp [Res.noResult])
                | panic =>
                  rw [hr] at hlv
                  simp [Res.leaves] at hlv
                | fuelOut =>
                  exact readDictionaryLoop_value_noResult fuel x acc _ k _ hk1 ht
                    (by rw [hr]; simp [Res.noResult])
          · exact readDictionaryLoop_key_noResult fuel acc _
              (by rw [hk1]; simp [Res.noResult])


theorem readValue_dict_leaves (fuel : Nat) (inp rest : Bytes)
    (h : (readDictionaryLoop fuel [] inp).leaves rest) :
    (readValue (fuel + 1) typeDictionary inp).leaves rest := by
  cases hr : readDictionaryLoop fuel [] inp <;> simp_all [readValue, Res.leaves]

theorem readValue_dict_noResult (fuel : Nat) (inp : Bytes)
    (h : (readDictionaryLoop fuel [] inp).noResult) :
    (readValue (fuel + 1) typeDictionary inp).noResult := by
  cases hr : readDictionaryLoop fuel [] inp <;> simp_all [readValue, Res.noResult]

theorem readValue_list_leaves (fuel : Nat) (inp rest : Bytes)
    (h : (readListLoop fuel [] inp).leaves rest) :
    (readValue (fuel + 1) typeList inp).leaves rest := by
  cases hr : readListLoop fuel [] inp <;> simp_all [readValue, Res.leaves]

theorem readValue_list_noResult (fuel : Nat) (inp : Bytes)
    (h : (readListLoop fuel [] inp).noResult) :
    (readValue (fuel + 1) typeList inp).noResult := by
  cases hr : readListLoop fuel [] inp <;> simp_all [readValue, Res.noResult]

theorem list_encoding (l : List Value) (h : ∀ v ∈ l, v.encodeErr = none) :
    (Value.list l).encoding = typeList :: (l.flatMap Value.encoding ++ [endOfValue]) := by
  show (writeValue (.list l) []).1 = _
  rw [writeList_ok l h]

theorem dict_encoding_ok (d : Dict) (h : ∀ k ∈ mapKeys d, (mapIndex d k).encodeErr = none) :
    (Value.dict d).encoding =
      typeDictionary :: ((sortStrings (mapKeys d)).flatMap (entryBytes d) ++ [endOfValue]) := by
  rw [dict_encoding, writeDictionary_ok d h]
  have : (fun k => itoa (k.length : Int) ++ 58 :: k ++ (mapIndex d k).encoding)
      = entryBytes d := by
    funext k
    simp [entryBytes, stringBytes]
  rw [this]

/-- Every value that the encoder writes without error has a self-delimiting
encoding. -/
theorem selfDelimiting_of_encodeErr_none (v : Value) :
    v.encodeErr = none → v.selfDelimiting := by
  induction v using Value.induct_aux with
  | hstr s =>
    intro _
    exact string_selfDelimiting _ s (by
      simp [Value.encoding, writeValue, writeString_eq, stringBytes])
  | hbytes b =>
    intro _
    exact string_selfDelimiting _ b (by
      simp [Value.encoding, writeValue, writeString_eq, stringBytes])
  | hint k v =>
    intro _
    exact integer_selfDelimiting _ v (by simp [Value.encoding, writeValue, writeInt])
  | huint k v =>
    intro h
    have hf : formatInt (v : Int) = formatUint v := by simp [formatInt]
    cases k
    · exact integer_selfDelimiting _ (v : Int) (by
        simp [Value.encoding, writeValue, writeUint, hf])
    · simp [Value.encodeErr, writeValue] at h
    · exact integer_selfDelimiting _ (v : Int) (by
        simp [Value.encoding, writeValue, writeUint, hf])
    · exact integer_selfDelimiting _ (v : Int) (by
        simp [Value.encoding, writeValue, writeUint, hf])
    · exact integer_selfDelimiting _ (v : Int) (by
        simp [Value.encoding, writeValue, writeUint, hf])
  | hother t =>
    intro h
    simp [Value.encodeErr, writeValue] at h
  | hlist l ih =>
    intro h
    have hall := writeList_err_none l h
    have hsd : ∀ v ∈ l, v.selfDelimiting := fun v hv => ih v hv (hall v hv)
    have hspec := readListLoop_spec l hsd
    refine ⟨typeList, l.flatMap Value.encoding ++ [endOfValue], list_encoding l hall,
      by decide, ?_, ?_⟩
    · intro fuel rest
      cases fuel with
      | zero => simp [readValue, Res.leaves]
      | succ fuel =>
        apply readValue_list_leaves
        have := (hspec fuel []).1 rest
        simpa using this
    · intro fuel q s hs hq
      cases fuel with
      | zero => simp [readValue, Res.noResult]
      | succ fuel =>
        apply readValue_list_noResult
        exact (hspec fuel []).2 q s hs hq
  | hdict d ih =>
    intro h
    rw [dict_encodeErr] at h
    have hall := writeDictionary_err_none d h
    have hsd : ∀ k ∈ sortStrings (mapKeys d), (mapIndex d k).selfDelimiting := by
      intro k hk
      have hk1 : k ∈ mapKeys d := (sortStrings_perm _).subset hk
      exact ih k _ (mapIndex_mem d k hk1) (hall k hk1)
    refine ⟨typeDictionary, (sortStrings (mapKeys d)).flatMap (entryBytes d) ++ [endOfValue],
      dict_encoding_ok d hall, by decide, ?_, ?_⟩
    · intro fuel rest
      cases fuel with
      | zero => simp [readValue, Res.leaves]
      | succ fuel =>
        apply readValue_dict_leaves
        cases hks : sortStrings (mapKeys d) with
        | nil =>
          apply noResult_leaves
          simpa using readDictionaryLoop_endOfValue fuel [] rest
        | cons k ks =>
          rw [hks] at hsd
          have := (readDictionaryLoop_spec d ks k hsd fuel []).1 rest
          simpa using this
    · intro fuel q s hs hq
      cases fuel with
      | zero => simp [readValue, Res.noResult]
      | succ fuel =>
        apply readValue_dict_noResult
        cases hks : sortStrings (mapKeys d) with
        | nil =>
          rw [hks] at hq
          cases q with
          | nil => exact readDictionaryLoop_nil fuel []
          | cons x xs =>
            have := congrArg List.length hq
            have : 0 < s.length := List.length_pos.mpr hs
            simp only [List.flatMap_nil, List.nil_append, List.cons_append, List.length_cons,
              List.length_append, List.length_nil] at *
            omega
        | cons k ks =>
          rw [hks] at hsd hq
          exact (readDictionaryLoop_spec d ks k hsd fuel []).2 q s hs hq


/-! ## The recursion budget of `Decode` is never used up -/

theorem readBytes_split (d : Nat) (inp line rest : Bytes)
    (h : readBytes d inp = some (line, rest)) : inp = line ++ rest ∧ line ≠ [] := by
  induction inp generalizing line rest with
  | nil => simp [readBytes] at h
  | cons c cs ih =>
    simp only [readBytes] at h
    split at h
    · simp only [Option.some.injEq, Prod.mk.injEq] at h
      rw [← h.1, ← h.2]
      simp
    · cases hr : readBytes d cs with
      | none => simp [hr] at h
      | some p =>
        obtain ⟨l1, r1⟩ := p
        simp only [hr, Option.some.injEq, Prod.mk.injEq] at h
        obtain ⟨e1, _⟩ := ih l1 r1 hr
        rw [← h.1, ← h.2, e1]
        simp

theorem readFull_length (n : Nat) (inp a b : Bytes) (h : readFull n inp = .ok (a, b)) :
    b.length ≤ inp.length := by
  unfold readFull at h
  split at h
  · simp only [Except.ok.injEq, Prod.mk.injEq] at h
    rw [← h.2]
    simp
  · split at h <;> cases h

theorem readString_length (inp s rest : Bytes) (h : readString inp = .ok s rest) :
    rest.length < inp.length := by
  simp only [readString, readLength] at h
  cases hr : readBytes 58 inp with
  | none => simp [hr] at h
  | some p =>
    obtain ⟨line, r1⟩ := p
    obtain ⟨e1, hne⟩ := readBytes_split 58 inp line r1 hr
    have hpos : 0 < line.length := List.length_pos.mpr hne
    simp only [hr] at h
    cases hp : parseInt (line.take (line.length - 1)) with
    | error e => simp [hp] at h
    | ok n =>
      simp only [hp] at h
      split at h
      · cases h
      · cases hf : readFull n.toNat r1 with
        | error e => simp [hf] at h
        | ok pr =>
          obtain ⟨a, b⟩ := pr
          have hl := readFull_length _ _ a b hf
          simp only [hf, Res.ok.injEq] at h
          rw [← h.2, e1]
          simp only [List.length_append]
          omega

theorem readString_ne_fuelOut (inp : Bytes) : readString inp ≠ .fuelOut := by
  intro h
  simp only [readString] at h
  split at h
  · cases h
  · split at h
    · cases h
    · split at h <;> cases h

theorem readInteger_length (inp : Bytes) (v : Value) (rest : Bytes)
    (h : readInteger inp = .ok v rest) : rest.length < inp.length := by
  simp only [readInteger] at h
  cases hr : readBytes endOfValue inp with
  | none => simp [hr] at h
  | some p =>
    obtain ⟨line, r1⟩ := p
    obtain ⟨e1, hne⟩ := readBytes_split endOfValue inp line r1 hr
    have hpos : 0 < line.length := List.length_pos.mpr hne
    simp only [hr] at h
    have hrest : rest = r1 := by
      split at h
      · simp only [Res.ok.injEq] at h
        exact h.2.symm
      · split at h
        · simp only [Res.ok.injEq] at h
          exact h.2.symm
        · cases h
    rw [hrest, e1]
    simp only [List.length_append]
    omega

theorem readInteger_ne_fuelOut (inp : Bytes) : readInteger inp ≠ .fuelOut := by
  intro h
  simp only [readInteger] at h
  split at h
  · cases h
  · split at h
    · cases h
    · split at h <;> cases h

/-- A result of the decoder leaves no more input than it was given; the loops
read at least one byte. -/
theorem decoder_consumes (fuel : Nat) :
    (∀ t inp v rest, readValue fuel t inp = .ok v rest → rest.length ≤ inp.length) ∧
    (∀ acc inp d rest, readDictionaryLoop fuel acc inp = .ok d rest →
      rest.length < inp.length) ∧
    (∀ acc inp l rest, readListLoop fuel acc inp = .ok l rest →
      rest.length < inp.length) := by
  induction fuel with
  | zero => simp [readValue, readDictionaryLoop, readListLoop]
  | succ fuel ih =>
    obtain ⟨ihv, ihd, ihl⟩ := ih
    refine ⟨?_, ?_, ?_⟩
    · intro t inp v rest h
      simp only [readValue] at h
      split at h
      · cases hr : readDictionaryLoop fuel [] inp with
        | ok d r =>
          simp only [hr, Res.ok.injEq] at h
          have := ihd [] inp d r hr
          rw [← h.2]
          omega
        | err d e => simp [hr] at h
        | panic => simp [hr] at h
        | fuelOut => simp [hr] at h
      · split at h
        · cases hr : readListLoop fuel [] inp with
          | ok l r =>
            simp only [hr, Res.ok.injEq] at h
            have := ihl [] inp l r hr
            rw [← h.2]
            omega
          | err d e => simp [hr] at h
          | panic => simp [hr] at h
          | fuelOut => simp [hr] at h
        · split at h
          · exact le_of_lt (readInteger_length inp v rest h)
          · cases hr : readString (t :: inp) with
            | ok s r =>
              simp only [hr, Res.ok.injEq] at h
              have := readString_length _ s r hr
              rw [← h.2]
              simp only [List.length_cons] at this
              omega
            | err d e => simp [hr] at h
            | panic => simp [hr] at h
            | fuelOut => simp [hr] at h
    · intro acc inp d rest h
      cases hk : readString inp with
      | err w e => simp [readDictionaryLoop, hk] at h
      | panic => simp [readDictionaryLoop, hk] at h
      | fuelOut => simp [readDictionaryLoop, hk] at h
      | ok key inp1 =>
        have l1 := readString_length inp key inp1 hk
        cases inp1 with
        | nil => simp [readDictionaryLoop, hk, readByte] at h
        | cons c inp2 =>
          simp only [List.length_cons] at l1
          by_cases hc : c = endOfValue
          · simp only [readDictionaryLoop, hk, readByte, hc, if_true, Res.ok.injEq] at h
            rw [← h.2]
            omega
          · cases hv : readValue fuel c inp2 with
            | err w e => simp [readDictionaryLoop, hk, readByte, hc, hv] at h
            | panic => simp [readDictionaryLoop, hk, readByte, hc, hv] at h
            | fuelOut => simp [readDictionaryLoop, hk, readByte, hc, hv] at h
            | ok val inp3 =>
              have l3 := ihv c inp2 val inp3 hv
              cases inp3 with
              | nil => simp [readDictionaryLoop, hk, readByte, hc, hv] at h
              | cons c2 inp4 =>
                simp only [List.length_cons] at l3
                by_cases hc2 : c2 = endOfValue
                · simp only [readDictionaryLoop, hk, readByte, hc, hv, hc2, if_true,
                    if_false, Res.ok.injEq] at h
                  rw [← h.2]
                  omega
                · simp only [readDictionaryLoop, hk, readByte, hc, hv, hc2, if_false] at h
                  have := ihd _ _ d rest h
                  simp only [List.length_cons] at this
                  omega
    · intro acc inp l rest h
      cases inp with
      | nil => simp [readListLoop, readByte] at h
      | cons c inp1 =>
        by_cases hc : c = endOfValue
        · simp only [readListLoop, readByte, hc, if_true, Res.ok.injEq] at h
          rw [← h.2]
          simp
        · cases hv : readValue fuel c inp1 with
          | err w e => simp [readListLoop, readByte, hc, hv] at h
          | panic => simp [readListLoop, readByte, hc, hv] at h
          | fuelOut => simp [readListLoop, readByte, hc, hv] at h
          | ok val inp2 =>
            have l2 := ihv c inp1 val inp2 hv
            simp only [readListLoop, readByte, hc, hv, if_false] at h
            have := ihl _ _ l rest h
            simp only [List.length_cons]
            omega

/-- With a budget of twice the input length the decoder never runs out. -/
theorem decoder_fuel (fuel : Nat) :
    (∀ t inp, 2 * inp.length + 2 ≤ fuel → readValue fuel t inp ≠ .fuelOut) ∧
    (∀ acc inp, 2 * inp.length + 1 ≤ fuel → readDictionaryLoop fuel acc inp ≠ .fuelOut) ∧
    (∀ acc inp, 2 * inp.length + 1 ≤ fuel → readListLoop fuel acc inp ≠ .fuelOut) := by
  induction fuel with
  | zero =>
    refine ⟨?_, ?_, ?_⟩ <;> intros <;> omega
  | succ fuel ih =>
    obtain ⟨ihv, ihd, ihl⟩ := ih
    refine ⟨?_, ?_, ?_⟩
    · intro t inp hf h
      simp only [readValue] at h
      split at h
      · cases hr : readDictionaryLoop fuel [] inp with
        | fuelOut => exact ihd [] inp (by omega) hr
        | ok d r => simp [hr] at h
        | err d e => simp [hr] at h
        | panic => simp [hr] at h
      · split at h
        · cases hr : readListLoop fuel [] inp with
          | fuelOut => exact ihl [] inp (by omega) hr
          | ok d r => simp [hr] at h
          | err d e => simp [hr] at h
          | panic => simp [hr] at h
        · split at h
          · exact readInteger_ne_fuelOut inp h
          · cases hr : readString (t :: inp) with
            | fuelOut => exact readString_ne_fuelOut _ hr
            | ok d r => simp [hr] at h
            | err d e => simp [hr] at h
            | panic => simp [hr] at h
    · intro acc inp hf h
      cases hk : readString inp with
      | err w e => simp [readDictionaryLoop, hk] at h
      | panic => simp [readDictionaryLoop, hk] at h
      | fuelOut => exact readString_ne_fuelOut _ hk
      | ok key inp1 =>
        have l1 := readString_length inp key inp1 hk
        cases inp1 with
        | nil => simp [readDictionaryLoop, hk, readByte] at h
        | cons c inp2 =>
          simp only [List.length_cons] at l1
          by_cases hc : c = endOfValue
          · simp [readDictionaryLoop, hk, readByte, hc] at h
          · cases hv : readValue fuel c inp2 with
            | err w e => simp [readDictionaryLoop, hk, readByte, hc, hv] at h
            | panic => simp [readDictionaryLoop, hk, readByte, hc, hv] at h
            | fuelOut => exact ihv c inp2 (by omega) hv
            | ok val inp3 =>
              have l3 := (decoder_consumes fuel).1 c inp2 val inp3 hv
              cases inp3 with
              | nil => simp [readDictionaryLoop, hk, readByte, hc, hv] at h
              | cons c2 inp4 =>
                simp only [List.length_cons] at l3
                by_cases hc2 : c2 = endOfValue
                · simp [readDictionaryLoop, hk, readByte, hc, hv, hc2] at h
                · simp only [readDictionaryLoop, hk, readByte, hc, hv, hc2, if_false] at h
                  exact ihd _ _ (by simp only [List.length_cons]; omega) h
    · intro acc inp hf h
      cases inp with
      | nil => simp [readListLoop, readByte] at h
      | cons c inp1 =>
        simp only [List.length_cons] at hf
        by_cases hc : c = endOfValue
        · simp [readListLoop, readByte, hc] at h
        · cases hv : readValue fuel c inp1 with
          | err w e => simp [readListLoop, readByte, hc, hv] at h
          | panic => simp [readListLoop, readByte, hc, hv] at h
          | fuelOut => exact ihv c inp1 (by omega) hv
          | ok val inp2 =>
            have l2 := (decoder_consumes fuel).1 c inp1 val inp2 hv
            simp only [readListLoop, readByte, hc, hv, if_false] at h
            exact ihl _ _ (by omega) h

/-- The recursion budget that `Decode` passes on is never used up: the outcome
of `Decode` is a result, an error or a panic of the Go program. -/
theorem Decode_ne_fuelOut (data : Bytes) : Decode data ≠ .fuelOut := by
  intro h
  unfold Decode at h
  cases data with
  | nil => simp [readByte] at h
  | cons c rest =>
    simp only [readByte] at h
    split at h
    · cases h
    · cases hr : readDictionary (2 * rest.length + 1) rest with
      | fuelOut => exact (decoder_fuel _).2.1 [] rest (le_refl _) hr
      | ok d r => simp [hr] at h
      | err d e => simp [hr] at h
      | panic => simp [hr] at h

/-! ## Truncated documents -/

/-- C10: `Decode` of a strict prefix `p` of the bytes that `Encode` returns for a
dictionary returns a non-nil error; it never returns a decoded dictionary with a
nil error for a truncated document. -/
theorem decode_truncated_is_error (d : Dict) (p s : Bytes) (hs : s ≠ [])
    (h : Encode d = (some (p ++ s), none)) :
    ∃ (r : Option Dict) (e : Error), Decode p = .err r e := by
  have hw : writeDictionary d [] = (p ++ s, none) := by
    unfold Encode at h
    rcases hwd : writeDictionary d [] with ⟨buf, r⟩
    rw [hwd] at h
    cases r with
    | none =>
      simp only [Prod.mk.injEq, Option.some.injEq, and_true] at h
      rw [h]
    | some e => simp at h
  have hnone : (Value.dict d).encodeErr = none := by
    rw [dict_encodeErr, hw]
  obtain ⟨t, body, he, _, _, hb⟩ := selfDelimiting_of_encodeErr_none _ hnone
  have hall := writeDictionary_err_none d (by rw [hw])
  rw [dict_encoding_ok d hall] at he
  simp only [List.cons.injEq] at he
  obtain ⟨et, ebody⟩ := he
  have hps : p ++ s = typeDictionary :: body := by
    have := dict_encoding d
    rw [hw, dict_encoding_ok d hall, ebody] at this
    exact this.symm
  cases p with
  | nil => exact ⟨_, _, rfl⟩
  | cons c q =>
    simp only [List.cons_append, List.cons.injEq] at hps
    obtain ⟨ec, hq⟩ := hps
    have hres := hb (2 * q.length + 2) q s hs hq
    rw [← et] at hres
    have hfuel := Decode_ne_fuelOut (c :: q)
    rw [ec] at hfuel ⊢
    have hnr : (readDictionaryLoop (2 * q.length + 1) [] q).noResult := by
      cases hr : readDictionaryLoop (2 * q.length + 1) [] q <;>
        simp_all [readValue, Res.noResult]
    cases hr : readDictionaryLoop (2 * q.length + 1) [] q with
    | ok d1 r => simp [hr, Res.noResult] at hnr
    | panic => simp [hr, Res.noResult] at hnr
    | fuelOut =>
      exfalso
      apply hfuel
      simp [Decode, readByte, readDictionary, hr]
    | err d1 e =>
      exact ⟨some d1, e, by simp [Decode, readByte, readDictionary, hr]⟩

theorem decode_truncated_is_error_witness :
    ascii "i1ee" ≠ [] ∧
      Encode [(ascii "foo", .int .int 1)] = (some (ascii "d3:foo" ++ ascii "i1ee"), none) ∧
      ∃ (r : Option Dict) (e : Error), Decode (ascii "d3:foo") = .err r e :=
  ⟨by decide, by decide,
    decode_truncated_is_error [(ascii "foo", .int .int 1)] (ascii "d3:foo") (ascii "i1ee")
      (by decide) (by decide)⟩



/-! ## Negative string lengths -/

theorem readString_negative_length (n : Nat) (rest : Bytes) (h1 : 1 ≤ n) (h2 : n ≤ 2 ^ 63) :
    readString (45 :: (formatUint n ++ 58 :: rest)) = .panic := by
  have hno : ∀ c ∈ 45 :: formatUint n, c ≠ 58 := by
    intro c hc
    rcases List.mem_cons.mp hc with e | e
    · omega
    · have := formatUint_digits n c e
      omega
  have e : 45 :: (formatUint n ++ 58 :: rest) = (45 :: formatUint n) ++ 58 :: rest := rfl
  have hneg : -(n : Int) < 0 := by omega
  simp only [readString, readLength, e, readBytes_append 58 _ rest hno, take_line,
    parseInt_minus_formatUint, h2, if_true, hneg]

/-- C11 (evaluation at the failing input): on `d-1:` the length `-1` reaches
`make([]byte, length)` in `readString` and `Decode` panics; the same happens for
a negative length of a string value and inside nested containers. -/
theorem decode_negative_length_panics :
    Decode (ascii "d-1:") = .panic ∧
      Decode (ascii "d1:a-5:xe") = .panic ∧
      Decode (ascii "d1:al-1:ee") = .panic ∧
      Decode (ascii "d1:ad-9223372036854775808:abce") = .panic :=
  ⟨rfl, rfl, rfl, rfl⟩

/-! ## The helper `GetUint64` -/

/-- C14 (counterexample): for the `int64` value `-1`, `GetUint64` returns
`18446744073709551615` with a nil error, which is not the number `-1`. -/
theorem getUint64_negative_wraps :
    GetUint64 (.int .int64 (-1)) = (18446744073709551615, none) ∧
      ((18446744073709551615 : Nat) : Int) ≠ -1 := by
  constructor
  · rfl
  · decide

/-- C14 (amended): `GetUint64` succeeds exactly on `int64` and `uint64` values
and returns the error "wrong type: T" with result 0 on every other value; for a
`uint64` the result is the value, for an `int64` value `i` it is `i` when
`0 <= i` and `i + 2^64` when `i < 0`. -/
theorem getUint64_conversion (v : Value) (i : Int) (u : Nat)
    (hlo : -(2 ^ 63) ≤ i) (hhi : i < 2 ^ 63) :
    ((GetUint64 v).2 = none ↔ (∃ j, v = .int .int64 j) ∨ (∃ w, v = .uint .uint64 w)) ∧
      ((GetUint64 v).2 ≠ none → GetUint64 v = (0, some (.wrongType v.typeName))) ∧
      GetUint64 (.uint .uint64 u) = (u, none) ∧
      (GetUint64 (.int .int64 i)).2 = none ∧
      ((GetUint64 (.int .int64 i)).1 : Int) = if 0 ≤ i then i else i + 2 ^ 64 := by
  refine ⟨?_, ?_, rfl, rfl, ?_⟩
  · cases v with
    | int k j => cases k <;> simp [GetUint64]
    | uint k w => cases k <;> simp [GetUint64]
    | str s => simp [GetUint64]
    | bytes s => simp [GetUint64]
    | list l => simp [GetUint64]
    | dict d => simp [GetUint64]
    | other t => simp [GetUint64]
  · cases v with
    | int k j => cases k <;> simp [GetUint64]
    | uint k w => cases k <;> simp [GetUint64]
    | str s => simp [GetUint64]
    | bytes s => simp [GetUint64]
    | list l => simp [GetUint64]
    | dict d => simp [GetUint64]
    | other t => simp [GetUint64]
  · simp only [GetUint64]
    split_ifs <;> omega

theorem getUint64_conversion_witness :
    -(2 ^ 63) ≤ (-1 : Int) ∧ (-1 : Int) < 2 ^ 63 ∧
      (((GetUint64 (.str (ascii "x"))).2 = none ↔
          (∃ j, Value.str (ascii "x") = .int .int64 j) ∨
            (∃ w, Value.str (ascii "x") = .uint .uint64 w)) ∧
        ((GetUint64 (.str (ascii "x"))).2 ≠ none →
          GetUint64 (.str (ascii "x")) = (0, some (.wrongType (Value.str (ascii "x")).typeName))) ∧
        GetUint64 (.uint .uint64 7) = (7, none) ∧
        (GetUint64 (.int .int64 (-1))).2 = none ∧
        ((GetUint64 (.int .int64 (-1))).1 : Int) = if 0 ≤ (-1 : Int) then -1 else -1 + 2 ^ 64) :=
  ⟨by decide, by decide, getUint64_conversion (.str (ascii "x")) (-1) 7 (by decide) (by decide)⟩

/-! ## A key that is followed by the terminator -/

theorem readDictionaryLoop_dangling_key (fuel : Nat) (acc : Dict) (k rest : Bytes)
    (h : k.length < 2 ^ 63) :
    readDictionaryLoop (fuel + 1) acc (stringBytes k ++ endOfValue :: rest) = .ok acc rest := by
  have e : stringBytes k ++ endOfValue :: rest
      = itoa (k.length : Int) ++ 58 :: (k ++ endOfValue :: rest) := by
    simp [stringBytes]
  rw [e]
  simp only [readDictionaryLoop, readString_writeString, h, if_true, readByte]

/-- C16 (counterexample): `Decode` of `d3:fooe` returns the empty dictionary and
a nil error, not an error. -/
theorem decode_dangling_key_succeeds :
    Decode (ascii "d3:fooe") = .ok (some []) [] :=
  rfl

/-- C16 (amended): a key that is directly followed by the terminator `e` ends
the dictionary without error and is dropped: the loop of `readDictionary`
returns the entries read before it, and `Decode` of `d<len>:<k>e` returns the
empty dictionary. -/
theorem dangling_key_ends_dictionary (k : Bytes) (fuel : Nat) (acc : Dict) (rest : Bytes)
    (h : k.length < 2 ^ 63) :
    readDictionaryLoop (fuel + 1) acc (stringBytes k ++ endOfValue :: rest) = .ok acc rest ∧
      Decode (typeDictionary :: (stringBytes k ++ [endOfValue])) = .ok (some []) [] := by
  refine ⟨readDictionaryLoop_dangling_key fuel acc k rest h, ?_⟩
  simp only [Decode, readByte, readDictionary]
  have hd : ¬ (typeDictionary ≠ typeDictionary) := by simp
  simp only [hd, if_false]
  have ef : 2 * (stringBytes k ++ [endOfValue]).length + 1
      = (2 * (stringBytes k ++ [endOfValue]).length) + 1 := rfl
  rw [ef, readDictionaryLoop_dangling_key _ [] k [] h]

theorem dangling_key_ends_dictionary_witness :
    (ascii "foo").length < 2 ^ 63 ∧
      (readDictionaryLoop (0 + 1) [(ascii "a", .int .int64 1)]
          (stringBytes (ascii "foo") ++ endOfValue :: ascii "xyz")
          = .ok [(ascii "a", .int .int64 1)] (ascii "xyz") ∧
        Decode (typeDictionary :: (stringBytes (ascii "foo") ++ [endOfValue]))
          = .ok (some []) []) :=
  ⟨by decide, dangling_key_ends_dictionary (ascii "foo") 0 [(ascii "a", .int .int64 1)]
    (ascii "xyz") (by decide)⟩


/-! ## Integer tokens accepted by the decoder -/

theorem parseUintLoop_ok_digits (s : Bytes) (n m : Nat) (h : parseUintLoop s n = .ok m) :
    ∀ c ∈ s, 48 ≤ c ∧ c ≤ 57 := by
  induction s generalizing n with
  | nil => simp
  | cons c cs ih =>
    simp only [parseUintLoop] at h
    split at h
    · rename_i hc
      split at h
      · cases h
      · split at h
        · cases h
        · intro x hx
          rcases List.mem_cons.mp hx with e | e
          · rw [e]
            exact hc
          · exact ih _ h x e
    · cases h

theorem parseUint_ok_digits (s : Bytes) (m : Nat) (h : parseUint s = .ok m) : Digits s := by
  unfold parseUint at h
  split at h
  · cases h
  · rename_i hne
    exact ⟨hne, parseUintLoop_ok_digits s 0 m h⟩

theorem parseInt_ok_signed (s : Bytes) (i : Int) (h : parseInt s = .ok i) :
    SignedDigits s := by
  cases s with
  | nil => simp [parseInt] at h
  | cons c cs =>
    by_cases h45 : c = 45
    · subst h45
      rw [parseInt_minus] at h
      cases hp : parseUint cs with
      | error e => simp [hp] at h
      | ok un => exact Or.inr ⟨cs, Or.inl rfl, parseUint_ok_digits cs un hp⟩
    · by_cases h43 : c = 43
      · subst h43
        rw [parseInt_plus] at h
        cases hp : parseUint cs with
        | error e => simp [hp] at h
        | ok un => exact Or.inr ⟨cs, Or.inr rfl, parseUint_ok_digits cs un hp⟩
      · rw [parseInt_unsigned c cs h43 h45] at h
        cases hp : parseUint (c :: cs) with
        | error e => simp [hp] at h
        | ok un => exact Or.inl (parseUint_ok_digits _ un hp)

theorem readInteger_token (body rest : Bytes) (hb : ∀ c ∈ body, c ≠ endOfValue) :
    readInteger (body ++ endOfValue :: rest) =
      match parseInt body with
      | .ok val => .ok (.int .int64 val) rest
      | .error _ =>
        match parseUint body with
        | .ok val => .ok (.uint .uint64 val) rest
        | .error e => .err (.int .int 0) e := by
  simp only [readInteger, readBytes_append endOfValue _ rest hb, take_line] <;>
    (cases parseInt body <;> (try rfl) <;> (cases parseUint body <;> rfl))

/-- C15 (counterexample): the body `+5` does not match `['-'] digit+`, and
`Decode` of `d1:ai+5ee` returns `{"a": 5}` with a nil error. -/
theorem decode_accepts_plus_sign :
    Decode (intTokenDoc (ascii "+5")) = .ok (some [(ascii "a", .int .int64 5)]) [] ∧
      ¬ IntBody (ascii "+5") := by
  refine ⟨rfl, ?_⟩
  have e : ascii "+5" = [43, 53] := by decide
  rw [e]
  intro h
  rcases h with ⟨_, h⟩ | ⟨ds, h, _⟩
  · have := h 43 (by simp)
    omega
  · simp at h

/-! ## The decoder returns trees that the encoder accepts -/

theorem decoderShapedList_iff (l : List Value) :
    decoderShapedList l = true ↔ ∀ v ∈ l, v.decoderShaped = true := by
  induction l with
  | nil => simp [decoderShapedList]
  | cons v vs ih => simp [decoderShapedList, ih]

theorem decoderShapedEntries_iff (d : Dict) :
    decoderShapedEntries d = true ↔ ∀ k v, (k, v) ∈ d → v.decoderShaped = true := by
  induction d with
  | nil => simp [decoderShapedEntries]
  | cons kv rest ih =>
    obtain ⟨k1, w⟩ := kv
    simp only [decoderShapedEntries, Bool.and_eq_true, ih, List.mem_cons, Prod.mk.injEq]
    constructor
    · rintro ⟨h1, h2⟩ k v (⟨_, e2⟩ | h)
      · rw [e2]
        exact h1
      · exact h2 k v h
    · intro h
      exact ⟨h k1 w (Or.inl ⟨rfl, rfl⟩), fun k v hkv => h k v (Or.inr hkv)⟩

theorem decoderShapedEntries_mapAssign (d : Dict) (k : Bytes) (v : Value)
    (hd : decoderShapedEntries d = true) (hv : v.decoderShaped = true) :
    decoderShapedEntries (mapAssign d k v) = true := by
  induction d with
  | nil => simp [mapAssign, decoderShapedEntries, hv]
  | cons kv rest ih =>
    obtain ⟨k1, w⟩ := kv
    simp only [decoderShapedEntries, Bool.and_eq_true] at hd
    simp only [mapAssign]
    split
    · simp [decoderShapedEntries, hv, hd.2]
    · simp [decoderShapedEntries, hd.1, ih hd.2]

theorem decoderShapedList_append (l : List Value) (v : Value)
    (hl : decoderShapedList l = true) (hv : v.decoderShaped = true) :
    decoderShapedList (l ++ [v]) = true := by
  rw [decoderShapedList_iff] at hl ⊢
  intro x hx
  rcases List.mem_append.mp hx with h | h
  · exact hl x h
  · simp only [List.mem_singleton] at h
    rw [h]
    exact hv

theorem readInteger_shaped (inp : Bytes) (v : Value) (rest : Bytes)
    (h : readInteger inp = .ok v rest) : v.decoderShaped = true := by
  simp only [readInteger] at h
  split at h
  · cases h
  · split at h
    · simp only [Res.ok.injEq] at h
      rw [← h.1]
      rfl
    · split at h
      · simp only [Res.ok.injEq] at h
        rw [← h.1]
        rfl
      · cases h

/-- Whatever the decoder returns with a nil error is made of strings, `int64`,
`uint64`, lists and maps only. -/
theorem decoder_shaped (fuel : Nat) :
    (∀ t inp v rest, readValue fuel t inp = .ok v rest → v.decoderShaped = true) ∧
    (∀ acc inp d rest, decoderShapedEntries acc = true →
      readDictionaryLoop fuel acc inp = .ok d rest → decoderShapedEntries d = true) ∧
    (∀ acc inp l rest, decoderShapedList acc = true →
      readListLoop fuel acc inp = .ok l rest → decoderShapedList l = true) := by
  induction fuel with
  | zero => simp [readValue, readDictionaryLoop, readListLoop]
  | succ fuel ih =>
    obtain ⟨ihv, ihd, ihl⟩ := ih
    refine ⟨?_, ?_, ?_⟩
    · intro t inp v rest h
      simp only [readValue] at h
      split at h
      · cases hr : readDictionaryLoop fuel [] inp with
        | ok d r =>
          simp only [hr, Res.ok.injEq] at h
          rw [← h.1]
          simp only [Value.decoderShaped]
          exact ihd [] inp d r rfl hr
        | err d e => simp [hr] at h
        | panic => simp [hr] at h
        | fuelOut => simp [hr] at h
      · split at h
        · cases hr : readListLoop fuel [] inp with
          | ok l r =>
            simp only [hr, Res.ok.injEq] at h
            rw [← h.1]
            simp only [Value.decoderShaped]
            exact ihl [] inp l r rfl hr
          | err d e => simp [hr] at h
          | panic => simp [hr] at h
          | fuelOut => simp [hr] at h
        · split at h
          · exact readInteger_shaped inp v rest h
          · cases hr : readString (t :: inp) with
            | ok s r =>
              simp only [hr, Res.ok.injEq] at h
              rw [← h.1]
              rfl
            | err d e => simp [hr] at h
            | panic => simp [hr] at h
            | fuelOut => simp [hr] at h
    · intro acc inp d rest hacc h
      cases hk : readString inp with
      | err w e => simp [readDictionaryLoop, hk] at h
      | panic => simp [readDictionaryLoop, hk] at h
      | fuelOut => simp [readDictionaryLoop, hk] at h
      | ok key inp1 =>
        cases inp1 with
        | nil => simp [readDictionaryLoop, hk, readByte] at h
        | cons c inp2 =>
          by_cases hc : c = endOfValue
          · simp only [readDictionaryLoop, hk, readByte, hc, if_true, Res.ok.injEq] at h
            rw [← h.1]
            exact hacc
          · cases hv : readValue fuel c inp2 with
            | err w e => simp [readDictionaryLoop, hk, readByte, hc, hv] at h
            | panic => simp [readDictionaryLoop, hk, readByte, hc, hv] at h
            | fuelOut => simp [readDictionaryLoop, hk, readByte, hc, hv] at h
            | ok val inp3 =>
              have hval := ihv c inp2 val inp3 hv
              have hacc1 := decoderShapedEntries_mapAssign acc key val hacc hval
              cases inp3 with
              | nil => simp [readDictionaryLoop, hk, readByte, hc, hv] at h
              | cons c2 inp4 =>
                by_cases hc2 : c2 = endOfValue
                · simp only [readDictionaryLoop, hk, readByte, hc, hv, hc2, if_true,
                    if_false, Res.ok.injEq] at h
                  rw [← h.1]
                  exact hacc1
                · simp only [readDictionaryLoop, hk, readByte, hc, hv, hc2, if_false] at h
                  exact ihd _ _ d rest hacc1 h
    · intro acc inp l rest hacc h
      cases inp with
      | nil => simp [readListLoop, readByte] at h
      | cons c inp1 =>
        by_cases hc : c = endOfValue
        · simp only [readListLoop, readByte, hc, if_true, Res.ok.injEq] at h
          rw [← h.1]
          exact hacc
        · cases hv : readValue fuel c inp1 with
          | err w e => simp [readListLoop, readByte, hc, hv] at h
          | panic => simp [readListLoop, readByte, hc, hv] at h
          | fuelOut => simp [readListLoop, readByte, hc, hv] at h
          | ok val inp2 =>
            have hval := ihv c inp1 val inp2 hv
            simp only [readListLoop, readByte, hc, hv, if_false] at h
            exact ihl _ _ l rest (decoderShapedList_append acc val hacc hval) h

theorem rejected_nil_of_decoderShaped (v : Value) :
    v.decoderShaped = true → v.rejected = [] := by
  induction v using Value.induct_aux with
  | hstr s => intro _; rfl
  | hbytes b => intro _; rfl
  | hint k v => intro _; cases k <;> rfl
  | huint k v =>
    intro h
    cases k
    · rfl
    · simp [Value.decoderShaped] at h
    · rfl
    · rfl
    · rfl
  | hother t =>
    intro h
    simp [Value.decoderShaped] at h
  | hlist l ih =>
    intro h
    simp only [Value.decoderShaped] at h
    have hs := (decoderShapedList_iff l).mp h
    simp only [Value.rejected]
    apply List.eq_nil_iff_forall_not_mem.mpr
    intro t ht
    obtain ⟨v, hv, hvt⟩ := (mem_rejectedList l t).mp ht
    rw [ih v hv (hs v hv)] at hvt
    simp at hvt
  | hdict d ih =>
    intro h
    simp only [Value.decoderShaped] at h
    have hs := (decoderShapedEntries_iff d).mp h
    simp only [Value.rejected]
    apply List.eq_nil_iff_forall_not_mem.mpr
    intro t ht
    obtain ⟨k, v, hkv, hvt⟩ := (mem_rejectedEntries d t).mp ht
    rw [ih k v hkv (hs k v hkv)] at hvt
    simp at hvt

theorem Decode_ok_loop (x : Bytes) (D : Option Dict) (rest : Bytes)
    (h : Decode x = .ok D rest) :
    ∃ inp d, x = typeDictionary :: inp ∧ D = some d ∧
      readDictionaryLoop (2 * inp.length + 1) [] inp = .ok d rest := by
  unfold Decode at h
  cases x with
  | nil => simp [readByte] at h
  | cons c inp =>
    simp only [readByte] at h
    split at h
    · cases h
    · rename_i hc
      have hc1 : c = typeDictionary := by
        by_contra hne
        exact hc hne
      cases hr : readDictionary (2 * inp.length + 1) inp with
      | ok d r =>
        simp only [hr, Res.ok.injEq] at h
        exact ⟨inp, d, by rw [hc1], h.1.symm, by rw [← h.2]; exact hr⟩
      | err d e => simp [hr] at h
      | panic => simp [hr] at h
      | fuelOut => simp [hr] at h

/-- C19: a dictionary that `Decode` returns with a nil error holds, at every
depth, only strings, `int64`, `uint64`, lists and dictionaries; no value of it
reaches the unsupported-type case of the encoder, and `Encode` of it returns
bytes and a nil error. -/
theorem decoder_output_is_encodable (x : Bytes) (D : Dict) (rest : Bytes)
    (h : Decode x = .ok (some D) rest) :
    (Value.dict D).decoderShaped = true ∧ (Value.dict D).rejected = [] ∧
      ∃ bytes, Encode D = (some bytes, none) := by
  obtain ⟨inp, d, _, hd, hloop⟩ := Decode_ok_loop x _ rest h
  simp only [Option.some.injEq] at hd
  subst hd
  have hs : (Value.dict D).decoderShaped = true := by
    simp only [Value.decoderShaped]
    exact (decoder_shaped _).2.1 [] inp D rest rfl hloop
  have hr := rejected_nil_of_decoderShaped _ hs
  exact ⟨hs, hr, _, encode_succeeds_of_no_rejected D hr⟩

theorem decoder_output_is_encodable_witness :
    Decode (ascii "d1:ali1e2:xyd1:bi18446744073709551615eeee") =
        .ok (some [(ascii "a", .list [.int .int64 1, .str (ascii "xy"),
          .dict [(ascii "b", .uint .uint64 18446744073709551615)]])]) [] ∧
      ((Value.dict [(ascii "a", .list [.int .int64 1, .str (ascii "xy"),
          .dict [(ascii "b", .uint .uint64 18446744073709551615)]])]).decoderShaped = true ∧
        (Value.dict [(ascii "a", .list [.int .int64 1, .str (ascii "xy"),
          .dict [(ascii "b", .uint .uint64 18446744073709551615)]])]).rejected = [] ∧
        ∃ bytes, Encode [(ascii "a", .list [.int .int64 1, .str (ascii "xy"),
          .dict [(ascii "b", .uint .uint64 18446744073709551615)]])] = (some bytes, none)) :=
  ⟨rfl, decoder_output_is_encodable (ascii "d1:ali1e2:xyd1:bi18446744073709551615eeee") _ []
    rfl⟩


/-! ## More recursion budget and more input do not change a result -/

/-- An outcome other than `fuelOut` stays the same under a larger budget. -/
theorem decoder_fuel_mono (fuel : Nat) :
    (∀ t inp k, readValue fuel t inp ≠ .fuelOut →
      readValue (fuel + k) t inp = readValue fuel t inp) ∧
    (∀ acc inp k, readDictionaryLoop fuel acc inp ≠ .fuelOut →
      readDictionaryLoop (fuel + k) acc inp = readDictionaryLoop fuel acc inp) ∧
    (∀ acc inp k, readListLoop fuel acc inp ≠ .fuelOut →
      readListLoop (fuel + k) acc inp = readListLoop fuel acc inp) := by
  induction fuel with
  | zero => simp [readValue, readDictionaryLoop, readListLoop]
  | succ fuel ih =>
    obtain ⟨ihv, ihd, ihl⟩ := ih
    refine ⟨?_, ?_, ?_⟩
    · intro t inp k h
      have e : fuel + 1 + k = (fuel + k) + 1 := by omega
      rw [e]
      simp only [readValue] at h ⊢
      split
      · have hd : readDictionaryLoop fuel [] inp ≠ .fuelOut := by
          intro hf
          simp [*] at h
        rw [ihd [] inp k hd]
      · split
        · have hl : readListLoop fuel [] inp ≠ .fuelOut := by
            intro hf
            simp [*] at h
          rw [ihl [] inp k hl]
        · rfl
    · intro acc inp k h
      have e : fuel + 1 + k = (fuel + k) + 1 := by omega
      rw [e]
      cases hk : readString inp with
      | err w er => simp [readDictionaryLoop, hk]
      | panic => simp [readDictionaryLoop, hk]
      | fuelOut => simp [readDictionaryLoop, hk]
      | ok key inp1 =>
        cases inp1 with
        | nil => simp [readDictionaryLoop, hk, readByte]
        | cons c inp2 =>
          by_cases hc : c = endOfValue
          · simp [readDictionaryLoop, hk, readByte, hc]
          · have hv0 : readValue fuel c inp2 ≠ .fuelOut := by
              intro hf
              simp [readDictionaryLoop, hk, readByte, hc, hf] at h
            have hv1 := ihv c inp2 k hv0
            cases hv : readValue fuel c inp2 with
            | err w er =>
              rw [hv] at hv1
              simp [readDictionaryLoop, hk, readByte, hc, hv, hv1]
            | panic =>
              rw [hv] at hv1
              simp [readDictionaryLoop, hk, readByte, hc, hv, hv1]
            | fuelOut => exact absurd hv hv0
            | ok val inp3 =>
              rw [hv] at hv1
              cases inp3 with
              | nil => simp [readDictionaryLoop, hk, readByte, hc, hv, hv1]
              | cons c2 inp4 =>
                by_cases hc2 : c2 = endOfValue
                · simp [readDictionaryLoop, hk, readByte, hc, hv, hv1, hc2]
                · simp only [readDictionaryLoop, hk, readByte, hc, hv, hv1, hc2,
                    if_false] at h ⊢
                  exact ihd _ _ k h
    · intro acc inp k h
      have e : fuel + 1 + k = (fuel + k) + 1 := by omega
      rw [e]
      cases inp with
      | nil => simp [readListLoop, readByte]
      | cons c inp1 =>
        by_cases hc : c = endOfValue
        · simp [readListLoop, readByte, hc]
        · have hv0 : readValue fuel c inp1 ≠ .fuelOut := by
            intro hf
            simp [readListLoop, readByte, hc, hf] at h
          have hv1 := ihv c inp1 k hv0
          cases hv : readValue fuel c inp1 with
          | err w er =>
            rw [hv] at hv1
            simp [readListLoop, readByte, hc, hv, hv1]
          | panic =>
            rw [hv] at hv1
            simp [readListLoop, readByte, hc, hv, hv1]
          | fuelOut => exact absurd hv hv0
          | ok val inp2 =>
            rw [hv] at hv1
            simp only [readListLoop, readByte, hc, hv, hv1, if_false] at h ⊢
            exact ihl _ _ k h

theorem readBytes_extend (d : Nat) (inp line rest s : Bytes)
    (h : readBytes d inp = some (line, rest)) :
    readBytes d (inp ++ s) = some (line, rest ++ s) := by
  induction inp generalizing line rest with
  | nil => simp [readBytes] at h
  | cons c cs ih =>
    show readBytes d (c :: (cs ++ s)) = some (line, rest ++ s)
    by_cases hc : c = d
    · simp only [readBytes, hc, if_true, Option.some.injEq, Prod.mk.injEq] at h ⊢
      exact ⟨h.1, by rw [h.2]⟩
    · simp only [readBytes, hc, if_false] at h ⊢
      cases hr : readBytes d cs with
      | none => simp [hr] at h
      | some p =>
        obtain ⟨l1, r1⟩ := p
        simp only [hr, Option.some.injEq, Prod.mk.injEq] at h
        simp only [ih l1 r1 hr, Option.some.injEq, Prod.mk.injEq]
        exact ⟨h.1, by rw [h.2]⟩

theorem readFull_extend (n : Nat) (inp a b s : Bytes) (h : readFull n inp = .ok (a, b)) :
    readFull n (inp ++ s) = .ok (a, b ++ s) := by
  unfold readFull at h ⊢
  split at h
  · rename_i hn
    simp only [Except.ok.injEq, Prod.mk.injEq] at h
    have hn2 : n ≤ (inp ++ s).length := by
      simp only [List.length_append]
      omega
    simp only [hn2, if_true, Except.ok.injEq, Prod.mk.injEq]
    rw [← h.1, ← h.2]
    exact ⟨List.take_append_of_le_length hn, List.drop_append_of_le_length hn⟩
  · split at h <;> cases h

theorem readString_extend (inp key rest s : Bytes) (h : readString inp = .ok key rest) :
    readString (inp ++ s) = .ok key (rest ++ s) := by
  simp only [readString, readLength] at h ⊢
  cases hr : readBytes 58 inp with
  | none => simp [hr] at h
  | some p =>
    obtain ⟨line, r1⟩ := p
    simp only [hr] at h
    rw [readBytes_extend 58 inp line r1 s hr]
    cases hp : parseInt (line.take (line.length - 1)) with
    | error e => simp [hp] at h
    | ok n =>
      simp only [hp] at h ⊢
      split at h
      · cases h
      · rename_i hneg
        simp only [hneg, if_false]
        cases hf : readFull n.toNat r1 with
        | error e => simp [hf] at h
        | ok pr =>
          obtain ⟨a, b⟩ := pr
          simp only [hf, Res.ok.injEq] at h
          rw [readFull_extend _ _ a b s hf]
          simp [h.1, h.2]

theorem readInteger_extend (inp : Bytes) (v : Value) (rest s : Bytes)
    (h : readInteger inp = .ok v rest) : readInteger (inp ++ s) = .ok v (rest ++ s) := by
  simp only [readInteger] at h ⊢
  cases hr : readBytes endOfValue inp with
  | none => simp [hr] at h
  | some p =>
    obtain ⟨line, r1⟩ := p
    simp only [hr] at h
    rw [readBytes_extend endOfValue inp line r1 s hr]
    cases hp : parseInt (line.take (line.length - 1)) with
    | ok n =>
      simp only [hp, Res.ok.injEq] at h ⊢
      exact ⟨h.1, by rw [h.2]⟩
    | error e =>
      simp only [hp] at h ⊢
      cases hu : parseUint (line.take (line.length - 1)) with
      | ok n =>
        simp only [hu, Res.ok.injEq] at h ⊢
        exact ⟨h.1, by rw [h.2]⟩
      | error e2 => simp [hu] at h

/-- A result with a nil error is unchanged when bytes are appended to the
input: the appended bytes are left unread. -/
theorem decoder_extend (fuel : Nat) (s : Bytes) :
    (∀ t inp v rest, readValue fuel t inp = .ok v rest →
      readValue fuel t (inp ++ s) = .ok v (rest ++ s)) ∧
    (∀ acc inp d rest, readDictionaryLoop fuel acc inp = .ok d rest →
      readDictionaryLoop fuel acc (inp ++ s) = .ok d (rest ++ s)) ∧
    (∀ acc inp l rest, readListLoop fuel acc inp = .ok l rest →
      readListLoop fuel acc (inp ++ s) = .ok l (rest ++ s)) := by
  induction fuel with
  | zero => simp [readValue, readDictionaryLoop, readListLoop]
  | succ fuel ih =>
    obtain ⟨ihv, ihd, ihl⟩ := ih
    refine ⟨?_, ?_, ?_⟩
    · intro t inp v rest h
      simp only [readValue] at h ⊢
      split
      · rename_i ht
        simp only [ht, if_true] at h
        cases hr : readDictionaryLoop fuel [] inp with
        | ok d r =>
          simp only [hr, Res.ok.injEq] at h
          rw [ihd [] inp d r hr]
          simp [h.1, h.2]
        | err d e => simp [hr] at h
        | panic => simp [hr] at h
        | fuelOut => simp [hr] at h
      · rename_i ht
        simp only [ht, if_false] at h
        split
        · rename_i ht2
          simp only [ht2, if_true] at h
          cases hr : readListLoop fuel [] inp with
          | ok l r =>
            simp only [hr, Res.ok.injEq] at h
            rw [ihl [] inp l r hr]
            simp [h.1, h.2]
          | err d e => simp [hr] at h
          | panic => simp [hr] at h
          | fuelOut => simp [hr] at h
        · rename_i ht2
          simp only [ht2, if_false] at h
          split
          · rename_i ht3
            simp only [ht3, if_true] at h
            exact readInteger_extend inp v rest s h
          · rename_i ht3
            simp only [ht3, if_false] at h
            cases hr : readString (t :: inp) with
            | ok k r =>
              simp only [hr, Res.ok.injEq] at h
              have := readString_extend (t :: inp) k r s hr
              simp only [List.cons_append] at this
              rw [this]
              simp [h.1, h.2]
            | err d e => simp [hr] at h
            | panic => simp [hr] at h
            | fuelOut => simp [hr] at h
    · intro acc inp d rest h
      cases hk : readString inp with
      | err w e => simp [readDictionaryLoop, hk] at h
      | panic => simp [readDictionaryLoop, hk] at h
      | fuelOut => simp [readDictionaryLoop, hk] at h
      | ok key inp1 =>
        have hk1 := readString_extend inp key inp1 s hk
        cases inp1 with
        | nil => simp [readDictionaryLoop, hk, readByte] at h
        | cons c inp2 =>
          simp only [List.cons_append] at hk1
          by_cases hc : c = endOfValue
          · simp only [readDictionaryLoop, hk, hk1, readByte, hc, if_true,
              Res.ok.injEq] at h ⊢
            exact ⟨h.1, by rw [h.2]⟩
          · cases hv : readValue fuel c inp2 with
            | err w e => simp [readDictionaryLoop, hk, readByte, hc, hv] at h
            | panic => simp [readDictionaryLoop, hk, readByte, hc, hv] at h
            | fuelOut => simp [readDictionaryLoop, hk, readByte, hc, hv] at h
            | ok val inp3 =>
              have hv1 := ihv c inp2 val inp3 hv
              cases inp3 with
              | nil => simp [readDictionaryLoop, hk, readByte, hc, hv] at h
              | cons c2 inp4 =>
                simp only [List.cons_append] at hv1
                by_cases hc2 : c2 = endOfValue
                · simp only [readDictionaryLoop, hk, hk1, readByte, hc, hv, hv1, hc2, if_true,
                    if_false, Res.ok.injEq] at h ⊢
                  exact ⟨h.1, by rw [h.2]⟩
                · simp only [readDictionaryLoop, hk, hk1, readByte, hc, hv, hv1, hc2,
                    if_false] at h ⊢
                  have := ihd _ _ d rest h
                  simpa only [List.cons_append] using this
    · intro acc inp l rest h
      cases inp with
      | nil => simp [readListLoop, readByte] at h
      | cons c inp1 =>
        by_cases hc : c = endOfValue
        · simp only [readListLoop, readByte, hc, if_true, Res.ok.injEq,
            List.cons_append] at h ⊢
          exact ⟨h.1, by rw [h.2]⟩
        · cases hv : readValue fuel c inp1 with
          | err w e => simp [readListLoop, readByte, hc, hv] at h
          | panic => simp [readListLoop, readByte, hc, hv] at h
          | fuelOut => simp [readListLoop, readByte, hc, hv] at h
          | ok val inp2 =>
            have hv1 := ihv c inp1 val inp2 hv
            simp only [readListLoop, readByte, hc, hv, hv1, if_false,
              List.cons_append] at h ⊢
            exact ihl _ _ l rest h

/-- When `Decode` succeeds on `x`, it succeeds on `x` followed by any bytes `s`
with the same dictionary, and the decoder takes none of `s` from its buffered
reader. -/
theorem Decode_append (x s : Bytes) (D : Option Dict) (rest : Bytes)
    (h : Decode x = .ok D rest) : Decode (x ++ s) = .ok D (rest ++ s) := by
  obtain ⟨inp, d, hx, hd, hloop⟩ := Decode_ok_loop x D rest h
  rw [hx, hd]
  have h1 := (decoder_extend (2 * inp.length + 1) s).2.1 [] inp d rest hloop
  have hne : readDictionaryLoop (2 * inp.length + 1) [] (inp ++ s) ≠ .fuelOut := by
    rw [h1]
    simp
  have h2 := (decoder_fuel_mono (2 * inp.length + 1)).2.1 [] (inp ++ s) (2 * s.length) hne
  have ef : 2 * (inp ++ s).length + 1 = 2 * inp.length + 1 + 2 * s.length := by
    simp only [List.length_append]
    omega
  simp only [Decode, readByte, List.cons_append, readDictionary]
  have hdd : ¬ (typeDictionary ≠ typeDictionary) := by simp
  simp only [hdd, if_false, ef, h2, h1]

/-! ## The encoder writes documents of the wire grammar -/

theorem digits_formatUint (n : Nat) : Digits (formatUint n) :=
  ⟨formatUint_ne_nil n, formatUint_digits n⟩

theorem decimalValue_snoc (xs : Bytes) (c : Nat) :
    decimalValue (xs ++ [c]) = 10 * decimalValue xs + (c - 48) := by
  simp [decimalValue, List.foldl_append]

theorem decimalValue_formatUint (n : Nat) : decimalValue (formatUint n) = n := by
  induction n using Nat.strong_induction_on with
  | _ n ih =>
    by_cases h : n < 10
    · rw [formatUint_small n h]
      simp [decimalValue]
    · rw [formatUint_step n h, decimalValue_snoc, ih (n / 10) (by omega)]
      omega

theorem formatUint_no_leading_zero (n : Nat) (hn : n ≠ 0) :
    (formatUint n).head? ≠ some 48 := by
  induction n using Nat.strong_induction_on with
  | _ n ih =>
    by_cases h : n < 10
    · rw [formatUint_small n h]
      simp only [List.head?_cons, ne_eq, Option.some.injEq]
      omega
    · rw [formatUint_step n h]
      obtain ⟨c, cs, e, _, _⟩ := formatUint_head (n / 10)
      have := ih (n / 10) (by omega) (by omega)
      rw [e] at this ⊢
      simpa using this

theorem canonicalIntBody_formatInt (i : Int) : CanonicalIntBody (formatInt i) := by
  unfold formatInt
  split
  · rename_i hneg
    refine ⟨formatUint i.natAbs, digits_formatUint _, Or.inr ?_, Or.inr rfl⟩
    exact formatUint_no_leading_zero _ (by omega)
  · refine ⟨formatUint i.toNat, digits_formatUint _, ?_, Or.inl rfl⟩
    by_cases h0 : i.toNat = 0
    · left
      rw [h0]
      decide
    · right
      exact formatUint_no_leading_zero _ h0

theorem intBody_formatInt (i : Int) : IntBody (formatInt i) := by
  unfold formatInt
  split
  · exact Or.inr ⟨_, rfl, digits_formatUint _⟩
  · exact Or.inl (digits_formatUint _)

theorem gString_stringBytes (s : Bytes) : GString (stringBytes s) :=
  ⟨formatUint s.length, s, digits_formatUint _, decimalValue_formatUint _, by
    simp [stringBytes, itoa_natCast]⟩

theorem gValues_flatMap (P : Bytes → Prop) (l : List Value)
    (h : ∀ v ∈ l, GValue P v.encoding) : GValues P (l.flatMap Value.encoding) := by
  induction l with
  | nil => exact GValues.nil
  | cons v vs ih =>
    rw [List.flatMap_cons]
    exact GValues.cons _ _ (h v (List.mem_cons_self _ _))
      (ih (fun x hx => h x (List.mem_cons_of_mem _ hx)))

theorem gEntries_flatMap (P : Bytes → Prop) (d : Dict) (ks : List Bytes)
    (h : ∀ k ∈ ks, GValue P (mapIndex d k).encoding) :
    GEntries P (ks.flatMap (entryBytes d)) := by
  induction ks with
  | nil => exact GEntries.nil
  | cons k ks ih =>
    rw [List.flatMap_cons]
    have e : entryBytes d k ++ ks.flatMap (entryBytes d)
        = stringBytes k ++ ((mapIndex d k).encoding ++ ks.flatMap (entryBytes d)) := by
      simp [entryBytes]
    rw [e]
    exact GEntries.cons _ _ _ (gString_stringBytes k) (h k (List.mem_cons_self _ _))
      (ih (fun x hx => h x (List.mem_cons_of_mem _ hx)))

/-- The encoding of every value that is written without error is derivable from
`value`, for any set of integer bodies that holds the numerals that
`strconv.FormatInt` writes. -/
theorem gValue_encoding (P : Bytes → Prop) (hP : ∀ i : Int, P (formatInt i)) (v : Value) :
    v.encodeErr = none → GValue P v.encoding := by
  induction v using Value.induct_aux with
  | hstr s =>
    intro _
    have e : (Value.str s).encoding = stringBytes s := by
      simp [Value.encoding, writeValue, writeString_eq, stringBytes]
    rw [e]
    exact GValue.string _ (gString_stringBytes s)
  | hbytes b =>
    intro _
    have e : (Value.bytes b).encoding = stringBytes b := by
      simp [Value.encoding, writeValue, writeString_eq, stringBytes]
    rw [e]
    exact GValue.string _ (gString_stringBytes b)
  | hint k v =>
    intro _
    have e : (Value.int k v).encoding = typeInteger :: (formatInt v ++ [endOfValue]) := by
      simp [Value.encoding, writeValue, writeInt]
    rw [e]
    exact GValue.integer _ (hP v)
  | huint k v =>
    intro h
    have hf : formatInt (v : Int) = formatUint v := by simp [formatInt]
    have key : ∀ w : Value, w.encoding = typeInteger :: (formatUint v ++ [endOfValue]) →
        GValue P w.encoding := by
      intro w e
      rw [e, ← hf]
      exact GValue.integer _ (hP v)
    cases k
    · exact key _ (by simp [Value.encoding, writeValue, writeUint])
    · simp [Value.encodeErr, writeValue] at h
    · exact key _ (by simp [Value.encoding, writeValue, writeUint])
    · exact key _ (by simp [Value.encoding, writeValue, writeUint])
    · exact key _ (by simp [Value.encoding, writeValue, writeUint])
  | hother t =>
    intro h
    simp [Value.encodeErr, writeValue] at h
  | hlist l ih =>
    intro h
    have hall := writeList_err_none l h
    rw [list_encoding l hall]
    exact GValue.list _ (gValues_flatMap P l (fun v hv => ih v hv (hall v hv)))
  | hdict d ih =>
    intro h
    rw [dict_encodeErr] at h
    have hall := writeDictionary_err_none d h
    rw [dict_encoding_ok d hall]
    refine GValue.dictionary _ (gEntries_flatMap P d _ ?_)
    intro k hk
    have hk1 : k ∈ mapKeys d := (sortStrings_perm _).subset hk
    exact ih k _ (mapIndex_mem d k hk1) (hall k hk1)

theorem gDocument_encode (P : Bytes → Prop) (hP : ∀ i : Int, P (formatInt i)) (d : Dict)
    (bytes : Bytes) (h : Encode d = (some bytes, none)) : GDocument P bytes := by
  have hw : writeDictionary d [] = (bytes, none) := by
    unfold Encode at h
    rcases hwd : writeDictionary d [] with ⟨buf, r⟩
    rw [hwd] at h
    cases r with
    | none =>
      simp only [Prod.mk.injEq, Option.some.injEq, and_true] at h
      rw [h]
    | some e => simp at h
  have hall := writeDictionary_err_none d (by rw [hw])
  have hb : bytes = (Value.dict d).encoding := by
    rw [dict_encoding, hw]
  rw [hb, dict_encoding_ok d hall]
  refine ⟨_, gEntries_flatMap P d _ ?_, rfl⟩
  intro k hk
  have hk1 : k ∈ mapKeys d := (sortStrings_perm _).subset hk
  exact gValue_encoding P hP _ (hall k hk1)

/-- C13: the bytes that `Encode` returns are, as a whole, derivable from
`document := dictionary` of the wire grammar, and remain derivable when the
integer production admits only bodies without a `+` sign and without superfluous
leading zeros. -/
theorem encode_conforms_to_grammar (d : Dict) (bytes : Bytes)
    (h : Encode d = (some bytes, none)) :
    GDocument IntBody bytes ∧ GDocument CanonicalIntBody bytes :=
  ⟨gDocument_encode IntBody intBody_formatInt d bytes h,
    gDocument_encode CanonicalIntBody canonicalIntBody_formatInt d bytes h⟩

theorem encode_conforms_to_grammar_witness :
    Encode [(ascii "n", .int .int (-7)), (ascii "l", .list [.str (ascii "x"), .dict []])]
        = (some (ascii "d1:ll1:xdee1:ni-7ee"), none) ∧
      (GDocument IntBody (ascii "d1:ll1:xdee1:ni-7ee") ∧
        GDocument CanonicalIntBody (ascii "d1:ll1:xdee1:ni-7ee")) :=
  ⟨rfl, encode_conforms_to_grammar
    [(ascii "n", .int .int (-7)), (ascii "l", .list [.str (ascii "x"), .dict []])] _
    (by rfl)⟩


/-! ## Duplicate keys -/

theorem mapLookup_mapAssign (d : Dict) (k k1 : Bytes) (v : Value) :
    mapLookup (mapAssign d k v) k1 = if k1 = k then some v else mapLookup d k1 := by
  induction d with
  | nil => simp [mapAssign, mapLookup]
  | cons kv rest ih =>
    obtain ⟨k2, w⟩ := kv
    simp only [mapAssign]
    by_cases h : k = k2
    · subst h
      simp only [if_true, mapLookup]
      split <;> rfl
    · simp only [h, if_false, mapLookup, ih]
      by_cases h1 : k1 = k2
      · have h2 : ¬ k1 = k := by
          intro e
          exact h (e.symm.trans h1)
        have h3 : ¬ k2 = k := fun e => h e.symm
        simp [h1, h3]
      · simp [h1]

theorem mapKeys_mapAssign (d : Dict) (k : Bytes) (v : Value) :
    mapKeys (mapAssign d k v) = if k ∈ mapKeys d then mapKeys d else mapKeys d ++ [k] := by
  induction d with
  | nil => simp [mapAssign, mapKeys]
  | cons kv rest ih =>
    obtain ⟨k2, w⟩ := kv
    simp only [mapAssign]
    by_cases h : k = k2
    · subst h
      simp [mapKeys]
    · have ih1 : List.map Prod.fst (mapAssign rest k v)
          = if k ∈ List.map Prod.fst rest then List.map Prod.fst rest
            else List.map Prod.fst rest ++ [k] := ih
      simp only [h, if_false, mapKeys, List.map_cons, List.mem_cons, false_or, ih1]
      split <;> simp

theorem mapAssign_nodup (d : Dict) (k : Bytes) (v : Value) (h : (mapKeys d).Nodup) :
    (mapKeys (mapAssign d k v)).Nodup := by
  rw [mapKeys_mapAssign]
  split
  · exact h
  · rename_i hk
    exact List.nodup_append.mpr ⟨h, List.nodup_singleton k, by
      intro a ha hb
      simp only [List.mem_singleton] at hb
      exact hk (hb ▸ ha)⟩

theorem assignAll_nodup (pairs : List (Bytes × Value)) (acc : Dict)
    (h : (mapKeys acc).Nodup) : (mapKeys (assignAll acc pairs)).Nodup := by
  induction pairs generalizing acc with
  | nil => exact h
  | cons p ps ih => exact ih _ (mapAssign_nodup acc p.1 p.2 h)

theorem mapLookup_assignAll (pairs : List (Bytes × Value)) (acc : Dict) (k : Bytes)
    (r : Option Value) (h : mapLookup acc k = r) :
    mapLookup (assignAll acc pairs) k =
      pairs.foldl (fun r kv => if kv.1 = k then some kv.2 else r) r := by
  induction pairs generalizing acc r with
  | nil => exact h
  | cons p ps ih =>
    simp only [assignAll, List.foldl_cons]
    apply ih
    rw [mapLookup_mapAssign, h]
    by_cases e : k = p.1
    · simp [e]
    · have e1 : ¬ p.1 = k := fun e2 => e e2.symm
      simp [e, e1]

theorem assignAll_cons (acc : Dict) (p : Bytes × Value) (ps : List (Bytes × Value)) :
    assignAll acc (p :: ps) = assignAll (mapAssign acc p.1 p.2) ps := rfl

/-- The dictionary that the loop of `readDictionary` returns is the outcome of
assigning, in input order, the key/value pairs that the input holds. -/
theorem readDictionaryLoop_entries (fuel : Nat) :
    ∀ acc inp D rest, readDictionaryLoop fuel acc inp = .ok D rest →
      ∃ pairs, entriesRead fuel inp = some (pairs, rest) ∧ D = assignAll acc pairs := by
  induction fuel with
  | zero => simp [readDictionaryLoop]
  | succ fuel ih =>
    intro acc inp D rest h
    cases hk : readString inp with
    | err w e => simp [readDictionaryLoop, hk] at h
    | panic => simp [readDictionaryLoop, hk] at h
    | fuelOut => simp [readDictionaryLoop, hk] at h
    | ok key inp1 =>
      cases inp1 with
      | nil => simp [readDictionaryLoop, hk, readByte] at h
      | cons c inp2 =>
        by_cases hc : c = endOfValue
        · simp only [readDictionaryLoop, hk, readByte, hc, if_true, Res.ok.injEq] at h
          exact ⟨[], by simp [entriesRead, hk, readByte, hc, h.2], by rw [← h.1]; rfl⟩
        · cases hv : readValue fuel c inp2 with
          | err w e => simp [readDictionaryLoop, hk, readByte, hc, hv] at h
          | panic => simp [readDictionaryLoop, hk, readByte, hc, hv] at h
          | fuelOut => simp [readDictionaryLoop, hk, readByte, hc, hv] at h
          | ok val inp3 =>
            cases inp3 with
            | nil => simp [readDictionaryLoop, hk, readByte, hc, hv] at h
            | cons c2 inp4 =>
              by_cases hc2 : c2 = endOfValue
              · simp only [readDictionaryLoop, hk, readByte, hc, hv, hc2, if_true,
                  if_false, Res.ok.injEq] at h
                exact ⟨[(key, val)], by simp [entriesRead, hk, readByte, hc, hv, hc2, h.2],
                  by rw [← h.1]; rfl⟩
              · simp only [readDictionaryLoop, hk, readByte, hc, hv, hc2, if_false] at h
                obtain ⟨pairs, hp, hD⟩ := ih _ _ D rest h
                exact ⟨(key, val) :: pairs,
                  by simp [entriesRead, hk, readByte, hc, hv, hc2, hp],
                  by rw [hD, assignAll_cons]⟩

/-- C17: the dictionary that `Decode` returns (and likewise every dictionary
that the loop of `readDictionary` builds from the empty map, at any depth) is
the outcome of the assignments `dict[key] = val` for the key/value pairs of the
input in order: its keys are distinct, and every key is bound to the value of
its last occurrence in the input. -/
theorem duplicate_keys_last_one_wins (x : Bytes) (D : Dict) (rest : Bytes)
    (fuel : Nat) (inp : Bytes) (d : Dict) (r : Bytes)
    (h : Decode x = .ok (some D) rest)
    (hnested : readDictionaryLoop fuel [] inp = .ok d r) :
    (∃ pairs, entriesRead (2 * x.tail.length + 1) x.tail = some (pairs, rest) ∧
      (mapKeys D).Nodup ∧ ∀ k, mapLookup D k = lastValue pairs k) ∧
    (∃ pairs, entriesRead fuel inp = some (pairs, r) ∧
      (mapKeys d).Nodup ∧ ∀ k, mapLookup d k = lastValue pairs k) := by
  have key : ∀ (f : Nat) (i : Bytes) (d1 : Dict) (r1 : Bytes),
      readDictionaryLoop f [] i = .ok d1 r1 →
      ∃ pairs, entriesRead f i = some (pairs, r1) ∧
        (mapKeys d1).Nodup ∧ ∀ k, mapLookup d1 k = lastValue pairs k := by
    intro f i d1 r1 hl
    obtain ⟨pairs, hp, hD⟩ := readDictionaryLoop_entries f [] i d1 r1 hl
    refine ⟨pairs, hp, ?_, ?_⟩
    · rw [hD]
      exact assignAll_nodup pairs [] (by simp [mapKeys])
    · intro k
      rw [hD]
      exact mapLookup_assignAll pairs [] k none rfl
  obtain ⟨i, d1, hx, hd, hloop⟩ := Decode_ok_loop x _ rest h
  simp only [Option.some.injEq] at hd
  subst hd
  refine ⟨?_, key fuel inp d r hnested⟩
  rw [hx]
  exact key _ i D rest hloop

theorem duplicate_keys_last_one_wins_witness :
    Decode (ascii "d1:ai1e1:ai2ee") = .ok (some [(ascii "a", .int .int64 2)]) [] ∧
      readDictionaryLoop 9 [] (ascii "1:b0:1:bleexyz") = .ok [(ascii "b", .list [])] (ascii "xyz") ∧
      ((∃ pairs, entriesRead (2 * (ascii "d1:ai1e1:ai2ee").tail.length + 1)
            (ascii "d1:ai1e1:ai2ee").tail = some (pairs, []) ∧
          (mapKeys [(ascii "a", .int .int64 2)]).Nodup ∧
          ∀ k, mapLookup [(ascii "a", .int .int64 2)] k = lastValue pairs k) ∧
        (∃ pairs, entriesRead 9 (ascii "1:b0:1:bleexyz") = some (pairs, ascii "xyz") ∧
          (mapKeys [(ascii "b", .list [])]).Nodup ∧
          ∀ k, mapLookup [(ascii "b", .list [])] k = lastValue pairs k)) :=
  ⟨rfl, rfl, duplicate_keys_last_one_wins (ascii "d1:ai1e1:ai2ee") _ [] 9
    (ascii "1:b0:1:bleexyz") _ (ascii "xyz") (by rfl) (by rfl)⟩


/-! ## Round trip on decoder-normal trees -/

theorem decoderNormalList_iff (l : List Value) :
    decoderNormalList l = true ↔ ∀ v ∈ l, v.decoderNormal = true := by
  induction l with
  | nil => simp [decoderNormalList]
  | cons v vs ih => simp [decoderNormalList, ih]

theorem decoderNormalEntries_iff (d : Dict) :
    decoderNormalEntries d = true ↔
      ∀ k v, (k, v) ∈ d → k.length < 2 ^ 63 ∧ v.decoderNormal = true := by
  induction d with
  | nil => simp [decoderNormalEntries]
  | cons kv rest ih =>
    obtain ⟨k1, w⟩ := kv
    simp only [decoderNormalEntries, Bool.and_eq_true, decide_eq_true_eq, ih, List.mem_cons,
      Prod.mk.injEq]
    constructor
    · rintro ⟨⟨h1, h2⟩, h3⟩ k v (⟨e1, e2⟩ | h)
      · rw [e1, e2]
        exact ⟨h1, h2⟩
      · exact h3 k v h
    · intro h
      exact ⟨h k1 w (Or.inl ⟨rfl, rfl⟩), fun k v hkv => h k v (Or.inr hkv)⟩

theorem decoderNormal_dict (d : Dict) (h : (Value.dict d).decoderNormal = true) :
    d ≠ [] ∧ (mapKeys d).Nodup ∧
      ∀ k v, (k, v) ∈ d → k.length < 2 ^ 63 ∧ v.decoderNormal = true := by
  simp only [Value.decoderNormal, Bool.and_eq_true, decide_eq_true_eq, Bool.not_eq_true',
    List.isEmpty_eq_false] at h
  exact ⟨h.1.1, h.1.2, (decoderNormalEntries_iff d).mp h.2⟩

theorem decoderShaped_of_decoderNormal (v : Value) :
    v.decoderNormal = true → v.decoderShaped = true := by
  induction v using Value.induct_aux with
  | hstr s => intro _; rfl
  | hbytes b => intro h; simp [Value.decoderNormal] at h
  | hint k v => intro h; cases k <;> first | rfl | simp [Value.decoderNormal] at h
  | huint k v => intro h; cases k <;> first | rfl | simp [Value.decoderNormal] at h
  | hother t => intro h; simp [Value.decoderNormal] at h
  | hlist l ih =>
    intro h
    simp only [Value.decoderNormal] at h
    simp only [Value.decoderShaped]
    rw [decoderShapedList_iff]
    intro v hv
    exact ih v hv ((decoderNormalList_iff l).mp h v hv)
  | hdict d ih =>
    intro h
    obtain ⟨_, _, hn⟩ := decoderNormal_dict d h
    simp only [Value.decoderShaped]
    rw [decoderShapedEntries_iff]
    intro k v hkv
    exact ih k v hkv (hn k v hkv).2

theorem encodeErr_none_of_decoderNormal (v : Value) (h : v.decoderNormal = true) :
    v.encodeErr = none := by
  have hr := rejected_nil_of_decoderShaped v (decoderShaped_of_decoderNormal v h)
  rcases encodeErr_mem v with h1 | ⟨t, ht, _⟩
  · exact h1
  · rw [hr] at ht
    simp at ht

theorem string_roundTrips (s : Bytes) (h : s.length < 2 ^ 63) :
    (Value.str s).roundTrips := by
  obtain ⟨c, cs, e, h1, h2⟩ := stringBytes_head s
  have henc : (Value.str s).encoding = stringBytes s := by
    simp [Value.encoding, writeValue, writeString_eq, stringBytes]
  refine ⟨c, cs, .str s, 1, by rw [henc, e], by simp only [endOfValue]; omega,
    by simp [Value.sameUpToOrder], ?_⟩
  intro fuel hf rest
  obtain ⟨f, rfl⟩ : ∃ f, fuel = f + 1 := ⟨fuel - 1, by omega⟩
  rw [readValue_digit f c _ h1 h2]
  have e2 : c :: (cs ++ rest) = itoa (s.length : Int) ++ 58 :: (s ++ rest) := by
    have : c :: (cs ++ rest) = stringBytes s ++ rest := by rw [e]; rfl
    rw [this]
    simp [stringBytes]
  rw [e2, readString_writeString]
  simp only [h, if_true]

theorem integer_roundTrips (v : Value) (i : Int)
    (henc : v.encoding = typeInteger :: (formatInt i ++ [endOfValue]))
    (hv : v = (if -(2 ^ 63) ≤ i ∧ i < 2 ^ 63 then Value.int .int64 i
      else Value.uint .uint64 i.toNat))
    (hr : -(2 ^ 63) ≤ i ∧ i < 2 ^ 64) : v.roundTrips := by
  refine ⟨typeInteger, formatInt i ++ [endOfValue], v, 1, henc, by decide, ?_, ?_⟩
  · rw [hv]
    split <;> simp [Value.sameUpToOrder]
  · intro fuel hf rest
    obtain ⟨f, rfl⟩ : ∃ f, fuel = f + 1 := ⟨fuel - 1, by omega⟩
    rw [readValue_integer]
    have e2 : formatInt i ++ [endOfValue] ++ rest = formatInt i ++ endOfValue :: rest := by
      simp
    rw [e2, readInteger_formatInt, hv]
    by_cases h1 : -(2 ^ 63) ≤ i ∧ i < 2 ^ 63
    · simp only [h1, and_self, if_true]
    · have h2 : 2 ^ 63 ≤ i ∧ i < 2 ^ 64 := by omega
      simp only [h1, h2, and_self, if_true, if_false]

theorem readListLoop_roundTrips (l : List Value) (hl : ∀ v ∈ l, v.roundTrips) :
    ∃ ws F0, sameList l ws ∧ ∀ fuel, F0 ≤ fuel → ∀ acc rest,
      readListLoop fuel acc (l.flatMap Value.encoding ++ endOfValue :: rest)
        = .ok (acc ++ ws) rest := by
  induction l with
  | nil =>
    refine ⟨[], 1, by simp [sameList], ?_⟩
    intro fuel hf acc rest
    obtain ⟨f, rfl⟩ : ∃ f, fuel = f + 1 := ⟨fuel - 1, by omega⟩
    simp [readListLoop, readByte]
  | cons v vs ih =>
    obtain ⟨t, body, w, Fv, he, ht, hsame, hread⟩ := hl v (List.mem_cons_self _ _)
    obtain ⟨ws, F, hws, hloop⟩ := ih (fun x hx => hl x (List.mem_cons_of_mem _ hx))
    refine ⟨w :: ws, max Fv F + 1, ?_, ?_⟩
    · simp only [sameList]
      exact ⟨w, ws, rfl, hsame, hws⟩
    · intro fuel hf acc rest
      obtain ⟨f, rfl⟩ : ∃ f, fuel = f + 1 := ⟨fuel - 1, by omega⟩
      have hf1 : Fv ≤ f := by omega
      have hf2 : F ≤ f := by omega
      have e : (v :: vs).flatMap Value.encoding ++ endOfValue :: rest
          = t :: (body ++ (vs.flatMap Value.encoding ++ endOfValue :: rest)) := by
        simp [List.flatMap_cons, he]
      rw [e, readListLoop_step_ok f t acc _ _ w ht (hread f hf1 _), hloop f hf2]
      simp

theorem mapAssign_append (acc : Dict) (k : Bytes) (v : Value) (h : k ∉ mapKeys acc) :
    mapAssign acc k v = acc ++ [(k, v)] := by
  induction acc with
  | nil => rfl
  | cons kv rest ih =>
    obtain ⟨k1, w⟩ := kv
    simp only [mapKeys, List.map_cons, List.mem_cons, not_or] at h
    simp only [mapAssign, h.1, if_false, List.cons_append]
    rw [ih h.2]

theorem assignAll_append (pairs : List (Bytes × Value)) (acc : Dict)
    (h : (mapKeys (acc ++ pairs)).Nodup) : assignAll acc pairs = acc ++ pairs := by
  induction pairs generalizing acc with
  | nil => simp [assignAll]
  | cons p ps ih =>
    have hk : p.1 ∉ mapKeys acc := by
      simp only [mapKeys, List.map_append, List.map_cons] at h
      have := (List.nodup_append.mp h).2.2
      intro hin
      exact this hin (List.mem_cons_self _ _)
    rw [assignAll_cons, mapAssign_append acc p.1 p.2 hk]
    have e : acc ++ [(p.1, p.2)] ++ ps = acc ++ p :: ps := by simp
    rw [ih (acc ++ [(p.1, p.2)]) (by rw [e]; exact h), e]

theorem readDictionaryLoop_roundTrips (d : Dict) (ks : List Bytes) :
    ∀ k, (∀ x ∈ k :: ks, x.length < 2 ^ 63 ∧ (mapIndex d x).roundTrips) →
    ∃ pairs F0, pairs.map Prod.fst = k :: ks ∧
      (∀ p ∈ pairs, (mapIndex d p.1).sameUpToOrder p.2) ∧
      ∀ fuel, F0 ≤ fuel → ∀ acc rest,
        readDictionaryLoop fuel acc ((k :: ks).flatMap (entryBytes d) ++ endOfValue :: rest)
          = .ok (assignAll acc pairs) rest := by
  induction ks with
  | nil =>
    intro k hk
    obtain ⟨hlen, t, body, w, Fv, he, ht, hsame, hread⟩ := hk k (List.mem_cons_self _ _)
    refine ⟨[(k, w)], Fv + 1, rfl, ?_, ?_⟩
    · intro p hp
      simp only [List.mem_singleton] at hp
      rw [hp]
      exact hsame
    · intro fuel hf acc rest
      obtain ⟨f, rfl⟩ : ∃ f, fuel = f + 1 := ⟨fuel - 1, by omega⟩
      have e : [k].flatMap (entryBytes d) ++ endOfValue :: rest
          = itoa (k.length : Int) ++ 58 :: (k ++ (t :: (body ++ endOfValue :: rest))) := by
        simp [List.flatMap_cons, entryBytes, stringBytes, he]
      rw [e]
      have hs : readString (itoa (k.length : Int) ++ 58 :: (k ++ (t :: (body ++
          endOfValue :: rest)))) = .ok k (t :: (body ++ endOfValue :: rest)) := by
        rw [readString_writeString]
        simp only [hlen, if_true]
      rw [readDictionaryLoop_value_end f t acc _ k _ rest w hs ht (hread f (by omega) _)]
      rfl
  | cons k1 ks ih =>
    intro k hk
    obtain ⟨hlen, t, body, w, Fv, he, ht, hsame, hread⟩ := hk k (List.mem_cons_self _ _)
    obtain ⟨pairs, F, hkeys, hvals, hloop⟩ :=
      ih k1 (fun x hx => hk x (List.mem_cons_of_mem _ hx))
    obtain ⟨c, cs, hc, hce⟩ := entryBytes_head d k1
    refine ⟨(k, w) :: pairs, max Fv F + 1, by simp [hkeys], ?_, ?_⟩
    · intro p hp
      rcases List.mem_cons.mp hp with e | e
      · rw [e]
        exact hsame
      · exact hvals p e
    · intro fuel hf acc rest
      obtain ⟨f, rfl⟩ : ∃ f, fuel = f + 1 := ⟨fuel - 1, by omega⟩
      have etail : (k1 :: ks).flatMap (entryBytes d) ++ endOfValue :: rest
          = c :: (cs ++ (ks.flatMap (entryBytes d) ++ endOfValue :: rest)) := by
        simp [List.flatMap_cons, hc]
      have e : (k :: k1 :: ks).flatMap (entryBytes d) ++ endOfValue :: rest
          = itoa (k.length : Int) ++ 58 :: (k ++ (t :: (body ++
              (c :: (cs ++ (ks.flatMap (entryBytes d) ++ endOfValue :: rest)))))) := by
        rw [← etail]
        simp [List.flatMap_cons, entryBytes, stringBytes, he]
      rw [e]
      have hs : readString (itoa (k.length : Int) ++ 58 :: (k ++ (t :: (body ++
          (c :: (cs ++ (ks.flatMap (entryBytes d) ++ endOfValue :: rest)))))))
          = .ok k (t :: (body ++
              (c :: (cs ++ (ks.flatMap (entryBytes d) ++ endOfValue :: rest))))) := by
        rw [readString_writeString]
        simp only [hlen, if_true]
      rw [readDictionaryLoop_value_more f t c acc _ k _ _ w hs ht (hread f (by omega) _) hce,
        ← etail, hloop f (by omega)]
      rfl

/-- Every decoder-normal value is read back from its encoding. -/
theorem roundTrips_of_decoderNormal (v : Value) : v.decoderNormal = true → v.roundTrips := by
  induction v using Value.induct_aux with
  | hstr s =>
    intro h
    simp only [Value.decoderNormal, decide_eq_true_eq] at h
    exact string_roundTrips s h
  | hbytes b => intro h; simp [Value.decoderNormal] at h
  | hint k v =>
    intro h
    cases k <;> first | (simp [Value.decoderNormal] at h; done) | skip
    simp only [Value.decoderNormal, decide_eq_true_eq] at h
    exact integer_roundTrips _ v (by simp [Value.encoding, writeValue, writeInt])
      (by simp only [h, and_self, if_true]) (by omega)
  | huint k v =>
    intro h
    cases k <;> first | (simp [Value.decoderNormal] at h; done) | skip
    simp only [Value.decoderNormal, decide_eq_true_eq] at h
    have hf : formatInt (v : Int) = formatUint v := by simp [formatInt]
    have hn : ¬ (-(2 ^ 63) ≤ (v : Int) ∧ (v : Int) < 2 ^ 63) := by omega
    exact integer_roundTrips _ (v : Int)
      (by simp [Value.encoding, writeValue, writeUint, hf])
      (by simp only [hn, if_false, Int.toNat_ofNat]) (by omega)
  | hother t => intro h; simp [Value.decoderNormal] at h
  | hlist l ih =>
    intro h
    have hall : ∀ v ∈ l, v.encodeErr = none :=
      writeList_err_none l (encodeErr_none_of_decoderNormal _ h)
    simp only [Value.decoderNormal] at h
    have hn := (decoderNormalList_iff l).mp h
    obtain ⟨ws, F, hws, hloop⟩ := readListLoop_roundTrips l (fun v hv => ih v hv (hn v hv))
    refine ⟨typeList, l.flatMap Value.encoding ++ [endOfValue], .list ws, F + 1,
      list_encoding l hall, by decide, ?_, ?_⟩
    · simp only [Value.sameUpToOrder]
      exact ⟨ws, rfl, hws⟩
    · intro fuel hf rest
      obtain ⟨f, rfl⟩ : ∃ f, fuel = f + 1 := ⟨fuel - 1, by omega⟩
      have e : l.flatMap Value.encoding ++ [endOfValue] ++ rest
          = l.flatMap Value.encoding ++ endOfValue :: rest := by simp
      simp only [readValue, e, hloop f (by omega) [] rest]
      simp
  | hdict d ih =>
    intro h
    have hnone := encodeErr_none_of_decoderNormal _ h
    rw [dict_encodeErr] at hnone
    have hall := writeDictionary_err_none d hnone
    obtain ⟨hne, hnd, hn⟩ := decoderNormal_dict d h
    have hperm := sortStrings_perm (mapKeys d)
    cases hks : sortStrings (mapKeys d) with
    | nil =>
      exfalso
      rw [hks] at hperm
      have : mapKeys d = [] := List.Perm.eq_nil hperm.symm
      apply hne
      simpa [mapKeys] using this
    | cons k ks =>
      have hrt : ∀ x ∈ k :: ks, x.length < 2 ^ 63 ∧ (mapIndex d x).roundTrips := by
        intro x hx
        have hx1 : x ∈ mapKeys d := hperm.subset (by rw [hks]; exact hx)
        have hm := mapIndex_mem d x hx1
        exact ⟨(hn x _ hm).1, ih x _ hm (hn x _ hm).2⟩
      obtain ⟨pairs, F, hkeys, hvals, hloop⟩ := readDictionaryLoop_roundTrips d ks k hrt
      have hpn : (mapKeys pairs).Nodup := by
        show (pairs.map Prod.fst).Nodup
        rw [hkeys, ← hks]
        exact (hperm.nodup_iff).mpr hnd
      have hassign : assignAll [] pairs = pairs := by
        have := assignAll_append pairs [] (by simpa using hpn)
        simpa using this
      refine ⟨typeDictionary, (k :: ks).flatMap (entryBytes d) ++ [endOfValue], .dict pairs,
        F + 1, by rw [dict_encoding_ok d hall, hks], by decide, ?_, ?_⟩
      · simp only [Value.sameUpToOrder]
        refine ⟨pairs, rfl, ?_, sameEntries_of_lookup d pairs ?_⟩
        · show (mapKeys d).Perm (pairs.map Prod.fst)
          rw [hkeys, ← hks]
          exact hperm.symm
        · intro x v hxv
          have hx1 : x ∈ mapKeys d := List.mem_map.mpr ⟨(x, v), hxv, rfl⟩
          have hx2 : x ∈ pairs.map Prod.fst := by
            rw [hkeys, ← hks]
            exact hperm.symm.subset hx1
          obtain ⟨p, hp, hpx⟩ := List.mem_map.mp hx2
          have hidx := mapIndex_of_mem d x v hnd hxv
          refine ⟨p.2, ?_, ?_⟩
          · apply mapLookup_of_mem pairs x p.2 hpn
            rw [← hpx]
            exact hp
          · have := hvals p hp
            rw [hpx, hidx] at this
            exact this
      · intro fuel hf rest
        obtain ⟨f, rfl⟩ : ∃ f, fuel = f + 1 := ⟨fuel - 1, by omega⟩
        have e : (k :: ks).flatMap (entryBytes d) ++ [endOfValue] ++ rest
            = (k :: ks).flatMap (entryBytes d) ++ endOfValue :: rest := by simp
        simp only [readValue, e, hloop f (by omega) [] rest, hassign]
        simp

/-- C18: for every decoder-normal dictionary `T` (non-empty maps with distinct
keys at every depth, strings, `int64` within the signed range and `uint64` only
above it, lists), `Encode` returns bytes, and `Decode` of these bytes returns
with a nil error a dictionary that is `T` (up to the order in which the maps
enumerate their entries) and leaves no byte unread. -/
theorem roundtrip_on_decoder_normal (T : Dict) (h : (Value.dict T).decoderNormal = true) :
    ∃ bytes D, Encode T = (some bytes, none) ∧ Decode bytes = .ok (some D) [] ∧
      (Value.dict T).sameUpToOrder (.dict D) := by
  have hs := decoderShaped_of_decoderNormal _ h
  have henc := encode_succeeds_of_no_rejected T (rejected_nil_of_decoderShaped _ hs)
  obtain ⟨t, body, w, F0, he, _, hsame, hread⟩ := roundTrips_of_decoderNormal _ h
  have hnone := encodeErr_none_of_decoderNormal _ h
  rw [dict_encodeErr] at hnone
  have hall := writeDictionary_err_none T hnone
  have he2 := he
  rw [dict_encoding_ok T hall] at he2
  simp only [List.cons.injEq] at he2
  obtain ⟨et, _⟩ := he2
  have hsame2 := hsame
  simp only [Value.sameUpToOrder] at hsame2
  obtain ⟨D, hw, _, _⟩ := hsame2
  refine ⟨_, D, henc, ?_, by rw [← hw]; exact hsame⟩
  rw [he, ← et]
  have h1 := hread (F0 + 1) (by omega) []
  rw [← et, hw] at h1
  simp only [List.append_nil] at h1
  have hloop0 : readDictionaryLoop F0 [] body = .ok D [] := by
    simp only [readValue, if_true] at h1
    cases hr : readDictionaryLoop F0 [] body with
    | ok d r =>
      simp only [hr, Res.ok.injEq, Value.dict.injEq] at h1
      rw [h1.1, h1.2]
    | err d e => simp [hr] at h1
    | panic => simp [hr] at h1
    | fuelOut => simp [hr] at h1
  have hloop : readDictionaryLoop (2 * body.length + 1) [] body = .ok D [] := by
    by_cases hle : F0 ≤ 2 * body.length + 1
    · obtain ⟨k, hk⟩ : ∃ k, 2 * body.length + 1 = F0 + k := ⟨2 * body.length + 1 - F0, by omega⟩
      rw [hk, (decoder_fuel_mono F0).2.1 [] body k (by rw [hloop0]; simp), hloop0]
    · obtain ⟨k, hk⟩ : ∃ k, F0 = 2 * body.length + 1 + k := ⟨F0 - (2 * body.length + 1), by omega⟩
      have hne := (decoder_fuel (2 * body.length + 1)).2.1 [] body (le_refl _)
      have := (decoder_fuel_mono (2 * body.length + 1)).2.1 [] body k hne
      rw [← hk, hloop0] at this
      exact this.symm
  simp only [Decode, readByte, readDictionary]
  have hdd : ¬ (typeDictionary ≠ typeDictionary) := by simp
  simp only [hdd, if_false, hloop]

theorem roundtrip_on_decoder_normal_witness :
    (Value.dict [(ascii "foo", .int .int64 42),
        (ascii "bar", .list [.str (ascii "spam"), .list []])]).decoderNormal = true ∧
      ∃ bytes D, Encode [(ascii "foo", .int .int64 42),
          (ascii "bar", .list [.str (ascii "spam"), .list []])] = (some bytes, none) ∧
        Decode bytes = .ok (some D) [] ∧
        (Value.dict [(ascii "foo", .int .int64 42),
          (ascii "bar", .list [.str (ascii "spam"), .list []])]).sameUpToOrder (.dict D) :=
  ⟨by decide, roundtrip_on_decoder_normal _ (by decide)⟩


/-! ## The encoder is injective on logical values -/

theorem split_at_delim (d : Nat) (xs ys X Y : Bytes) (hx : ∀ c ∈ xs, c ≠ d)
    (hy : ∀ c ∈ ys, c ≠ d) (h : xs ++ d :: X = ys ++ d :: Y) : xs = ys ∧ X = Y := by
  induction xs generalizing ys with
  | nil =>
    cases ys with
    | nil => simpa using h
    | cons y ys1 =>
      simp only [List.nil_append, List.cons_append, List.cons.injEq] at h
      exact absurd h.1.symm (hy y (List.mem_cons_self _ _))
  | cons x xs1 ih =>
    cases ys with
    | nil =>
      simp only [List.nil_append, List.cons_append, List.cons.injEq] at h
      exact absurd h.1 (hx x (List.mem_cons_self _ _))
    | cons y ys1 =>
      simp only [List.cons_append, List.cons.injEq] at h
      obtain ⟨e1, e2⟩ := ih ys1 (fun c hc => hx c (List.mem_cons_of_mem _ hc))
        (fun c hc => hy c (List.mem_cons_of_mem _ hc)) h.2
      exact ⟨by rw [h.1, e1], e2⟩

theorem formatUint_injective (n m : Nat) (h : formatUint n = formatUint m) : n = m := by
  have := congrArg decimalValue h
  rwa [decimalValue_formatUint, decimalValue_formatUint] at this

theorem formatInt_injective (i j : Int) (h : formatInt i = formatInt j) : i = j := by
  unfold formatInt at h
  split at h <;> split at h
  · simp only [List.cons.injEq, true_and] at h
    have := formatUint_injective _ _ h
    omega
  · obtain ⟨c, cs, e, h1, _⟩ := formatUint_head j.toNat
    rw [e] at h
    simp only [List.cons.injEq] at h
    omega
  · obtain ⟨c, cs, e, h1, _⟩ := formatUint_head i.toNat
    rw [e] at h
    simp only [List.cons.injEq] at h
    omega
  · have := formatUint_injective _ _ h
    omega

theorem stringBytes_unique (a b r1 r2 : Bytes)
    (h : stringBytes a ++ r1 = stringBytes b ++ r2) : a = b ∧ r1 = r2 := by
  have hno : ∀ n : Nat, ∀ c ∈ formatUint n, c ≠ 58 := by
    intro n c hc
    have := formatUint_digits n c hc
    omega
  have h1 : formatUint a.length ++ 58 :: (a ++ r1) = formatUint b.length ++ 58 :: (b ++ r2) := by
    simpa [stringBytes, itoa_natCast] using h
  obtain ⟨e1, e2⟩ := split_at_delim 58 _ _ _ _ (hno _) (hno _) h1
  have hl := formatUint_injective _ _ e1
  exact List.append_inj e2 hl

theorem integerToken_unique (i j : Int) (r1 r2 : Bytes)
    (h : formatInt i ++ endOfValue :: r1 = formatInt j ++ endOfValue :: r2) :
    i = j ∧ r1 = r2 := by
  have hno : ∀ n : Int, ∀ c ∈ formatInt n, c ≠ endOfValue := by
    intro n c hc
    have := formatInt_chars n c hc
    simp only [endOfValue]
    omega
  obtain ⟨e1, e2⟩ := split_at_delim endOfValue _ _ _ _ (hno _) (hno _) h
  exact ⟨formatInt_injective _ _ e1, e2⟩

/-- The four shapes of an encoding. -/
theorem encoding_shape (v : Value) (h : v.encodeErr = none) :
    (∃ s, v.stringContent = some s ∧ v.encoding = stringBytes s) ∨
    (∃ i, v.intValue = some i ∧
      v.encoding = typeInteger :: (formatInt i ++ [endOfValue])) ∨
    (∃ l, v = .list l ∧
      v.encoding = typeList :: (l.flatMap Value.encoding ++ [endOfValue]) ∧
      ∀ x ∈ l, x.encodeErr = none) ∨
    (∃ d, v = .dict d ∧
      v.encoding = typeDictionary ::
        ((sortStrings (mapKeys d)).flatMap (entryBytes d) ++ [endOfValue]) ∧
      ∀ k ∈ mapKeys d, (mapIndex d k).encodeErr = none) := by
  cases v with
  | str s =>
    exact Or.inl ⟨s, rfl, by simp [Value.encoding, writeValue, writeString_eq, stringBytes]⟩
  | bytes s =>
    exact Or.inl ⟨s, rfl, by simp [Value.encoding, writeValue, writeString_eq, stringBytes]⟩
  | int k i =>
    exact Or.inr (Or.inl ⟨i, rfl, by simp [Value.encoding, writeValue, writeInt]⟩)
  | uint k n =>
    have hf : formatInt (n : Int) = formatUint n := by simp [formatInt]
    cases k
    · exact Or.inr (Or.inl ⟨n, rfl, by simp [Value.encoding, writeValue, writeUint, hf]⟩)
    · simp [Value.encodeErr, writeValue] at h
    · exact Or.inr (Or.inl ⟨n, rfl, by simp [Value.encoding, writeValue, writeUint, hf]⟩)
    · exact Or.inr (Or.inl ⟨n, rfl, by simp [Value.encoding, writeValue, writeUint, hf]⟩)
    · exact Or.inr (Or.inl ⟨n, rfl, by simp [Value.encoding, writeValue, writeUint, hf]⟩)
  | other t => simp [Value.encodeErr, writeValue] at h
  | list l =>
    have hall := writeList_err_none l h
    exact Or.inr (Or.inr (Or.inl ⟨l, rfl, list_encoding l hall, hall⟩))
  | dict d =>
    rw [dict_encodeErr] at h
    have hall := writeDictionary_err_none d h
    exact Or.inr (Or.inr (Or.inr ⟨d, rfl, dict_encoding_ok d hall, hall⟩))

theorem encoding_head (v : Value) (h : v.encodeErr = none) :
    ∃ t body, v.encoding = t :: body ∧ t ≠ endOfValue := by
  obtain ⟨t, body, he, ht, _⟩ := selfDelimiting_of_encodeErr_none v h
  exact ⟨t, body, he, ht⟩

theorem sameLogicalEntries_of_lookup (d d2 : Dict)
    (h : ∀ k v, (k, v) ∈ d → ∃ w, mapLookup d2 k = some w ∧ v.sameLogical w) :
    sameLogicalEntries d d2 := by
  induction d with
  | nil => simp [sameLogicalEntries]
  | cons kv rest ih =>
    obtain ⟨k1, v1⟩ := kv
    simp only [sameLogicalEntries]
    exact ⟨h k1 v1 (List.mem_cons_self _ _),
      ih (fun k v hkv => h k v (List.mem_cons_of_mem _ hkv))⟩

theorem mapLookup_mapIndex (d : Dict) (k : Bytes) (h : k ∈ mapKeys d) :
    mapLookup d k = some (mapIndex d k) := by
  induction d with
  | nil => simp [mapKeys] at h
  | cons kv rest ih =>
    obtain ⟨k1, v⟩ := kv
    simp only [mapIndex, mapLookup]
    split
    · rfl
    · rename_i e
      have : k ∈ mapKeys rest := by
        simp only [mapKeys, List.map_cons, List.mem_cons] at h
        rcases h with h | h
        · exact absurd h e
        · exact h
      have := ih this
      simpa [mapIndex] using this

/-- The elements of a list are determined by the bytes written for them. -/
theorem list_body_unique (l : List Value)
    (ih : ∀ v ∈ l, ∀ w r1 r2, v.encodeErr = none → w.encodeErr = none →
      v.wellFormed = true → w.wellFormed = true →
      v.encoding ++ r1 = w.encoding ++ r2 → v.sameLogical w ∧ r1 = r2) :
    ∀ l2 r1 r2, (∀ v ∈ l, v.encodeErr = none) → (∀ w ∈ l2, w.encodeErr = none) →
      (∀ v ∈ l, v.wellFormed = true) → (∀ w ∈ l2, w.wellFormed = true) →
      l.flatMap Value.encoding ++ endOfValue :: r1
        = l2.flatMap Value.encoding ++ endOfValue :: r2 →
      sameLogicalList l l2 ∧ r1 = r2 := by
  induction l with
  | nil =>
    intro l2 r1 r2 _ h2 _ _ h
    cases l2 with
    | nil =>
      simp only [List.flatMap_nil, List.nil_append, List.cons.injEq, true_and] at h
      exact ⟨by simp [sameLogicalList], h⟩
    | cons w ws =>
      obtain ⟨t, body, he, ht⟩ := encoding_head w (h2 w (List.mem_cons_self _ _))
      simp only [List.flatMap_nil, List.nil_append, List.flatMap_cons, he, List.cons_append,
        List.cons.injEq] at h
      exact absurd h.1.symm ht
  | cons v vs ihl =>
    intro l2 r1 r2 h1 h2 hw1 hw2 h
    cases l2 with
    | nil =>
      obtain ⟨t, body, he, ht⟩ := encoding_head v (h1 v (List.mem_cons_self _ _))
      simp only [List.flatMap_nil, List.nil_append, List.flatMap_cons, he, List.cons_append,
        List.cons.injEq] at h
      exact absurd h.1 ht
    | cons w ws =>
      simp only [List.flatMap_cons, List.append_assoc] at h
      obtain ⟨hs, htail⟩ := ih v (List.mem_cons_self _ _) w _ _
        (h1 v (List.mem_cons_self _ _)) (h2 w (List.mem_cons_self _ _))
        (hw1 v (List.mem_cons_self _ _)) (hw2 w (List.mem_cons_self _ _)) h
      obtain ⟨hrest, hr⟩ := ihl (fun x hx => ih x (List.mem_cons_of_mem _ hx)) ws r1 r2
        (fun x hx => h1 x (List.mem_cons_of_mem _ hx))
        (fun x hx => h2 x (List.mem_cons_of_mem _ hx))
        (fun x hx => hw1 x (List.mem_cons_of_mem _ hx))
        (fun x hx => hw2 x (List.mem_cons_of_mem _ hx)) htail
      refine ⟨?_, hr⟩
      simp only [sameLogicalList]
      exact ⟨w, ws, rfl, hs, hrest⟩

/-- The keys and the values of a dictionary body are determined by the bytes
written for them. -/
theorem dict_body_unique (d d2 : Dict) (ks : List Bytes)
    (ih : ∀ k ∈ ks, ∀ w r1 r2, (mapIndex d k).encodeErr = none → w.encodeErr = none →
      (mapIndex d k).wellFormed = true → w.wellFormed = true →
      (mapIndex d k).encoding ++ r1 = w.encoding ++ r2 →
      (mapIndex d k).sameLogical w ∧ r1 = r2) :
    ∀ ks2 r1 r2, (∀ k ∈ ks, (mapIndex d k).encodeErr = none) →
      (∀ k ∈ ks2, (mapIndex d2 k).encodeErr = none) →
      (∀ k ∈ ks, (mapIndex d k).wellFormed = true) →
      (∀ k ∈ ks2, (mapIndex d2 k).wellFormed = true) →
      ks.flatMap (entryBytes d) ++ endOfValue :: r1
        = ks2.flatMap (entryBytes d2) ++ endOfValue :: r2 →
      ks = ks2 ∧ (∀ k ∈ ks, (mapIndex d k).sameLogical (mapIndex d2 k)) ∧ r1 = r2 := by
  induction ks with
  | nil =>
    intro ks2 r1 r2 _ _ _ _ h
    cases ks2 with
    | nil =>
      simp only [List.flatMap_nil, List.nil_append, List.cons.injEq, true_and] at h
      exact ⟨rfl, by simp, h⟩
    | cons k2 ks2 =>
      obtain ⟨c, cs, hc, hce⟩ := entryBytes_head d2 k2
      simp only [List.flatMap_nil, List.nil_append, List.flatMap_cons, hc, List.cons_append,
        List.cons.injEq] at h
      exact absurd h.1.symm hce
  | cons k ks ihk =>
    intro ks2 r1 r2 h1 h2 hw1 hw2 h
    cases ks2 with
    | nil =>
      obtain ⟨c, cs, hc, hce⟩ := entryBytes_head d k
      simp only [List.flatMap_nil, List.nil_append, List.flatMap_cons, hc, List.cons_append,
        List.cons.injEq] at h
      exact absurd h.1 hce
    | cons k2 ks2 =>
      simp only [List.flatMap_cons, entryBytes, List.append_assoc] at h
      obtain ⟨ek, hrest⟩ := stringBytes_unique k k2 _ _ h
      subst ek
      obtain ⟨hs, htail⟩ := ih k (List.mem_cons_self _ _) (mapIndex d2 k) _ _
        (h1 k (List.mem_cons_self _ _)) (h2 k (List.mem_cons_self _ _))
        (hw1 k (List.mem_cons_self _ _)) (hw2 k (List.mem_cons_self _ _)) hrest
      have htail2 : ks.flatMap (entryBytes d) ++ endOfValue :: r1
          = ks2.flatMap (entryBytes d2) ++ endOfValue :: r2 := by
        simpa [entryBytes] using htail
      obtain ⟨eks, hvals, hr⟩ := ihk (fun x hx => ih x (List.mem_cons_of_mem _ hx)) ks2 r1 r2
        (fun x hx => h1 x (List.mem_cons_of_mem _ hx))
        (fun x hx => h2 x (List.mem_cons_of_mem _ hx))
        (fun x hx => hw1 x (List.mem_cons_of_mem _ hx))
        (fun x hx => hw2 x (List.mem_cons_of_mem _ hx)) htail2
      refine ⟨by rw [eks], ?_, hr⟩
      intro x hx
      rcases List.mem_cons.mp hx with e | e
      · rw [e]
        exact hs
      · exact hvals x e

/-- Values with the same encoding, possibly followed by other bytes, are the
same logical value, and what follows is the same. -/
theorem encoding_unique (v : Value) :
    ∀ w r1 r2, v.encodeErr = none → w.encodeErr = none →
      v.wellFormed = true → w.wellFormed = true →
      v.encoding ++ r1 = w.encoding ++ r2 → v.sameLogical w ∧ r1 = r2 := by
  have hstring : ∀ (v : Value) (a : Bytes), v.encoding = stringBytes a →
      ∀ (w : Value) (r1 r2 : Bytes), w.encodeErr = none →
        v.encoding ++ r1 = w.encoding ++ r2 → w.stringContent = some a ∧ r1 = r2 := by
    intro v a hv w r1 r2 hw h
    obtain ⟨c, cs, hc, h1, h2⟩ := stringBytes_head a
    rw [hv] at h
    rcases encoding_shape w hw with ⟨s, hs, he⟩ | ⟨i, _, he⟩ | ⟨l, _, he, _⟩ | ⟨d, _, he, _⟩
    · rw [he] at h
      obtain ⟨e1, e2⟩ := stringBytes_unique a s r1 r2 h
      exact ⟨by rw [hs, e1], e2⟩
    · rw [he, hc] at h
      simp only [List.cons_append, List.cons.injEq] at h
      have := h.1
      simp only [typeInteger] at this
      omega
    · rw [he, hc] at h
      simp only [List.cons_append, List.cons.injEq] at h
      have := h.1
      simp only [typeList] at this
      omega
    · rw [he, hc] at h
      simp only [List.cons_append, List.cons.injEq] at h
      have := h.1
      simp only [typeDictionary] at this
      omega
  have hinteger : ∀ (v : Value) (i : Int),
      v.encoding = typeInteger :: (formatInt i ++ [endOfValue]) →
      ∀ (w : Value) (r1 r2 : Bytes), w.encodeErr = none →
        v.encoding ++ r1 = w.encoding ++ r2 → w.intValue = some i ∧ r1 = r2 := by
    intro v i hv w r1 r2 hw h
    rw [hv] at h
    rcases encoding_shape w hw with ⟨s, _, he⟩ | ⟨j, hj, he⟩ | ⟨l, _, he, _⟩ | ⟨d, _, he, _⟩
    · obtain ⟨c, cs, hc, h1, h2⟩ := stringBytes_head s
      rw [he, hc] at h
      simp only [List.cons_append, List.cons.injEq] at h
      have := h.1
      simp only [typeInteger] at this
      omega
    · rw [he] at h
      simp only [List.cons_append, List.cons.injEq, true_and, List.append_assoc,
        List.singleton_append] at h
      obtain ⟨e1, e2⟩ := integerToken_unique i j r1 r2 h
      exact ⟨by rw [hj, e1], e2⟩
    · rw [he] at h
      simp only [List.cons_append, List.cons.injEq] at h
      exact absurd h.1 (by decide)
    · rw [he] at h
      simp only [List.cons_append, List.cons.injEq] at h
      exact absurd h.1 (by decide)
  induction v using Value.induct_aux with
  | hstr s =>
    intro w r1 r2 _ hw _ _ h
    have := hstring (.str s) s
      (by simp [Value.encoding, writeValue, writeString_eq, stringBytes]) w r1 r2 hw h
    exact ⟨by simp only [Value.sameLogical]; exact this.1, this.2⟩
  | hbytes s =>
    intro w r1 r2 _ hw _ _ h
    have := hstring (.bytes s) s
      (by simp [Value.encoding, writeValue, writeString_eq, stringBytes]) w r1 r2 hw h
    exact ⟨by simp only [Value.sameLogical]; exact this.1, this.2⟩
  | hint k i =>
    intro w r1 r2 _ hw _ _ h
    have := hinteger (.int k i) i (by simp [Value.encoding, writeValue, writeInt]) w r1 r2 hw h
    exact ⟨by simp only [Value.sameLogical]; exact this.1, this.2⟩
  | huint k n =>
    intro w r1 r2 hv hw _ _ h
    have hf : formatInt (n : Int) = formatUint n := by simp [formatInt]
    have henc : (Value.uint k n).encoding = typeInteger :: (formatInt (n : Int) ++ [endOfValue])
        := by
      cases k
      · simp [Value.encoding, writeValue, writeUint, hf]
      · simp [Value.encodeErr, writeValue] at hv
      · simp [Value.encoding, writeValue, writeUint, hf]
      · simp [Value.encoding, writeValue, writeUint, hf]
      · simp [Value.encoding, writeValue, writeUint, hf]
    have := hinteger (.uint k n) n henc w r1 r2 hw h
    exact ⟨by simp only [Value.sameLogical]; exact this.1, this.2⟩
  | hother t =>
    intro w r1 r2 hv
    simp [Value.encodeErr, writeValue] at hv
  | hlist l ih =>
    intro w r1 r2 hv hw hwf1 hwf2 h
    have hall := writeList_err_none l hv
    rw [list_encoding l hall] at h
    simp only [Value.wellFormed] at hwf1
    have hwl := (wellFormedList_iff l).mp hwf1
    rcases encoding_shape w hw with ⟨s, _, he⟩ | ⟨j, _, he⟩ | ⟨l2, hl2, he, hall2⟩ |
      ⟨d, _, he, _⟩
    · obtain ⟨c, cs, hc, h1, h2⟩ := stringBytes_head s
      rw [he, hc] at h
      simp only [List.cons_append, List.cons.injEq] at h
      have := h.1
      simp only [typeList] at this
      omega
    · rw [he] at h
      simp only [List.cons_append, List.cons.injEq] at h
      exact absurd h.1 (by decide)
    · rw [he] at h
      simp only [List.cons_append, List.cons.injEq, true_and, List.append_assoc,
        List.singleton_append] at h
      rw [hl2] at hwf2
      simp only [Value.wellFormed] at hwf2
      have hwl2 := (wellFormedList_iff l2).mp hwf2
      obtain ⟨hs, hr⟩ := list_body_unique l ih l2 r1 r2 hall hall2 hwl hwl2 h
      refine ⟨?_, hr⟩
      simp only [Value.sameLogical]
      exact ⟨l2, hl2, hs⟩
    · rw [he] at h
      simp only [List.cons_append, List.cons.injEq] at h
      exact absurd h.1 (by decide)
  | hdict d ih =>
    intro w r1 r2 hv hw hwf1 hwf2 h
    rw [dict_encodeErr] at hv
    have hall := writeDictionary_err_none d hv
    rw [dict_encoding_ok d hall] at h
    obtain ⟨hn, hwd⟩ := wellFormed_dict d hwf1
    have hperm := sortStrings_perm (mapKeys d)
    rcases encoding_shape w hw with ⟨s, _, he⟩ | ⟨j, _, he⟩ | ⟨l2, _, he, _⟩ |
      ⟨d2, hd2, he, hall2⟩
    · obtain ⟨c, cs, hc, h1, h2⟩ := stringBytes_head s
      rw [he, hc] at h
      simp only [List.cons_append, List.cons.injEq] at h
      have := h.1
      simp only [typeDictionary] at this
      omega
    · rw [he] at h
      simp only [List.cons_append, List.cons.injEq] at h
      exact absurd h.1 (by decide)
    · rw [he] at h
      simp only [List.cons_append, List.cons.injEq] at h
      exact absurd h.1 (by decide)
    · rw [he] at h
      simp only [List.cons_append, List.cons.injEq, true_and, List.append_assoc,
        List.singleton_append] at h
      rw [hd2] at hwf2
      obtain ⟨hn2, hwd2⟩ := wellFormed_dict d2 hwf2
      have hperm2 := sortStrings_perm (mapKeys d2)
      have ihk : ∀ k ∈ sortStrings (mapKeys d), ∀ w r1 r2,
          (mapIndex d k).encodeErr = none → w.encodeErr = none →
          (mapIndex d k).wellFormed = true → w.wellFormed = true →
          (mapIndex d k).encoding ++ r1 = w.encoding ++ r2 →
          (mapIndex d k).sameLogical w ∧ r1 = r2 := by
        intro k hk
        exact ih k _ (mapIndex_mem d k (hperm.subset hk))
      obtain ⟨eks, hvals, hr⟩ := dict_body_unique d d2 _ ihk (sortStrings (mapKeys d2)) r1 r2
        (fun k hk => hall k (hperm.subset hk))
        (fun k hk => hall2 k (hperm2.subset hk))
        (fun k hk => (hwd k _ (mapIndex_mem d k (hperm.subset hk))).2)
        (fun k hk => (hwd2 k _ (mapIndex_mem d2 k (hperm2.subset hk))).2) h
      refine ⟨?_, hr⟩
      simp only [Value.sameLogical]
      refine ⟨d2, hd2, ?_, sameLogicalEntries_of_lookup d d2 ?_⟩
      · exact hperm.symm.trans (eks ▸ hperm2)
      · intro k v hkv
        have hk1 : k ∈ mapKeys d := List.mem_map.mpr ⟨(k, v), hkv, rfl⟩
        have hk2 : k ∈ sortStrings (mapKeys d) := hperm.symm.subset hk1
        have hk3 : k ∈ mapKeys d2 := hperm2.subset (eks ▸ hk2)
        have hidx := mapIndex_of_mem d k v hn hkv
        refine ⟨mapIndex d2 k, mapLookup_mapIndex d2 k hk3, ?_⟩
        have := hvals k hk2
        rwa [hidx] at this

/-- C20: two dictionaries for which `Encode` returns the same bytes are the same
logical value (integers compared by their number, byte strings by their
contents, lists in order, dictionaries as mappings), empty dictionaries
included. -/
theorem encode_injective_on_logical_values (T1 T2 : Dict) (bytes : Bytes)
    (hw1 : (Value.dict T1).wellFormed = true) (hw2 : (Value.dict T2).wellFormed = true)
    (h1 : Encode T1 = (some bytes, none)) (h2 : Encode T2 = (some bytes, none)) :
    (Value.dict T1).sameLogical (.dict T2) := by
  have key : ∀ T : Dict, Encode T = (some bytes, none) →
      (Value.dict T).encodeErr = none ∧ (Value.dict T).encoding = bytes := by
    intro T h
    unfold Encode at h
    rcases hwd : writeDictionary T [] with ⟨buf, r⟩
    rw [hwd] at h
    cases r with
    | none =>
      simp only [Prod.mk.injEq, Option.some.injEq, and_true] at h
      exact ⟨by rw [dict_encodeErr, hwd], by rw [dict_encoding, hwd, ← h]⟩
    | some e => simp at h
  obtain ⟨e1, b1⟩ := key T1 h1
  obtain ⟨e2, b2⟩ := key T2 h2
  exact (encoding_unique (.dict T1) (.dict T2) [] [] e1 e2 hw1 hw2 (by rw [b1, b2])).1

theorem encode_injective_on_logical_values_witness :
    (Value.dict [(ascii "a", .dict []), (ascii "n", .int .int8 5),
        (ascii "s", .str (ascii "x"))]).wellFormed = true ∧
      (Value.dict [(ascii "s", .bytes (ascii "x")), (ascii "n", .uint .uint64 5),
        (ascii "a", .dict [])]).wellFormed = true ∧
      Encode [(ascii "a", .dict []), (ascii "n", .int .int8 5), (ascii "s", .str (ascii "x"))]
        = (some (ascii "d1:ade1:ni5e1:s1:xe"), none) ∧
      Encode [(ascii "s", .bytes (ascii "x")), (ascii "n", .uint .uint64 5),
        (ascii "a", .dict [])] = (some (ascii "d1:ade1:ni5e1:s1:xe"), none) ∧
      (Value.dict [(ascii "a", .dict []), (ascii "n", .int .int8 5),
          (ascii "s", .str (ascii "x"))]).sameLogical
        (.dict [(ascii "s", .bytes (ascii "x")), (ascii "n", .uint .uint64 5),
          (ascii "a", .dict [])]) :=
  ⟨by decide, by decide, by rfl, by rfl,
    encode_injective_on_logical_values _ _ (ascii "d1:ade1:ni5e1:s1:xe") (by decide)
      (by decide) (by rfl) (by rfl)⟩


/-! ## Integer tokens at any depth -/

theorem readInteger_bad_body (inp valBytes rest : Bytes)
    (h : readBytes endOfValue inp = some (valBytes, rest))
    (hb : ¬ SignedDigits (valBytes.take (valBytes.length - 1))) :
    ∃ v e, readInteger inp = .err v e := by
  unfold readInteger
  rw [h]
  cases hp : parseInt (valBytes.take (valBytes.length - 1)) with
  | ok val => exact absurd (parseInt_ok_signed _ val hp) hb
  | error e1 =>
    cases hu : parseUint (valBytes.take (valBytes.length - 1)) with
    | ok val => exact absurd (Or.inl (parseUint_ok_digits _ val hu)) hb
    | error e2 =>
      refine ⟨.int .int 0, e2, ?_⟩
      simp only [hp, hu]

/-- A token whose body is not an optional sign and digits makes the routine that
reads it, and every routine around it, return an error. -/
theorem bad_token_is_error (body : Bytes) (hb : ¬ SignedDigits body) (fuel : Nat) :
    (∀ t inp, body ∈ valueTokens fuel t inp → ∃ v e, readValue fuel t inp = .err v e) ∧
    (∀ acc inp, body ∈ dictionaryTokens fuel inp →
      ∃ d e, readDictionaryLoop fuel acc inp = .err d e) ∧
    (∀ acc inp, body ∈ listTokens fuel inp →
      ∃ l e, readListLoop fuel acc inp = .err l e) := by
  induction fuel with
  | zero => simp [valueTokens, dictionaryTokens, listTokens]
  | succ fuel ih =>
    obtain ⟨ihv, ihd, ihl⟩ := ih
    refine ⟨?_, ?_, ?_⟩
    · intro t inp h
      simp only [valueTokens] at h
      simp only [readValue]
      split at h
      · rename_i ht
        obtain ⟨d, e, hd⟩ := ihd [] inp h
        exact ⟨.dict d, e, by simp only [ht, if_true, hd]⟩
      · rename_i ht
        split at h
        · rename_i hl
          obtain ⟨l, e, hd⟩ := ihl [] inp h
          exact ⟨.list l, e, by simp [ht, hl, hd]⟩
        · rename_i hl
          split at h
          · rename_i hi
            simp only [ht, hl, hi, if_true, if_false]
            cases hr : readBytes endOfValue inp with
            | none => simp [hr] at h
            | some p =>
              obtain ⟨valBytes, rest⟩ := p
              simp only [hr, List.mem_singleton] at h
              exact readInteger_bad_body inp valBytes rest hr (h ▸ hb)
          · simp at h
    · intro acc inp h
      simp only [dictionaryTokens] at h
      simp only [readDictionaryLoop]
      cases hk : readString inp with
      | err w er => simp [hk] at h
      | panic => simp [hk] at h
      | fuelOut => simp [hk] at h
      | ok key inp1 =>
        simp only [hk] at h ⊢
        cases hb1 : readByte inp1 with
        | none => simp [hb1] at h
        | some p =>
          obtain ⟨t, inp2⟩ := p
          simp only [hb1] at h ⊢
          by_cases hte : t = endOfValue
          · simp [hte] at h
          · simp only [hte, if_false, List.mem_append] at h ⊢
            rcases h with h | h
            · obtain ⟨v, e, hv⟩ := ihv t inp2 h
              exact ⟨acc, _, by simp only [hv]; rfl⟩
            · cases hv : readValue fuel t inp2 with
              | err w er => simp [hv] at h
              | panic => simp [hv] at h
              | fuelOut => simp [hv] at h
              | ok val inp3 =>
                simp only [hv] at h ⊢
                cases hb3 : readByte inp3 with
                | none => simp [hb3] at h
                | some q =>
                  obtain ⟨t1, inp4⟩ := q
                  simp only [hb3] at h ⊢
                  by_cases hte1 : t1 = endOfValue
                  · simp [hte1] at h
                  · simp only [hte1, if_false] at h ⊢
                    exact ihd _ _ h
    · intro acc inp h
      simp only [listTokens] at h
      simp only [readListLoop]
      cases hb1 : readByte inp with
      | none => simp [hb1] at h
      | some p =>
        obtain ⟨t, inp1⟩ := p
        simp only [hb1] at h ⊢
        by_cases hte : t = endOfValue
        · simp [hte] at h
        · simp only [hte, if_false, List.mem_append] at h ⊢
          rcases h with h | h
          · obtain ⟨v, e, hv⟩ := ihv t inp1 h
            exact ⟨[], _, by simp only [hv]; rfl⟩
          · cases hv : readValue fuel t inp1 with
            | err w er => simp [hv] at h
            | panic => simp [hv] at h
            | fuelOut => simp [hv] at h
            | ok val inp2 =>
              simp only [hv] at h ⊢
              exact ihl _ _ h

/-- In the document `d1:ai<body>ee` the decoder reads the one token with the
given body. -/
theorem integerTokens_intTokenDoc (body : Bytes) (hb : ∀ c ∈ body, c ≠ endOfValue) :
    integerTokens (intTokenDoc body) = [body] := by
  have e0 : intTokenDoc body
      = 100 :: (itoa (([97] : Bytes).length : Int) ++ 58 ::
          ([97] ++ (105 :: (body ++ endOfValue :: [endOfValue])))) := by
    have h1 : ascii "d1:ai" = [100, 49, 58, 97, 105] := by decide
    have h2 : ascii "ee" = [endOfValue, endOfValue] := by decide
    have h3 : itoa 1 = [49] := by decide
    simp [intTokenDoc, h1, h2, h3]
  rw [e0]
  simp only [integerTokens, readByte]
  have hd : ¬ (100 ≠ typeDictionary) := by decide
  rw [if_neg hd]
  obtain ⟨f, hf⟩ : ∃ f, 2 * (itoa (([97] : Bytes).length : Int) ++ 58 ::
      ([97] ++ (105 :: (body ++ endOfValue :: [endOfValue])))).length + 1 = f + 2 :=
    ⟨2 * (itoa (([97] : Bytes).length : Int) ++ 58 ::
      ([97] ++ (105 :: (body ++ endOfValue :: [endOfValue])))).length - 1, by
        simp only [List.length_append, List.length_cons, List.length_nil]
        omega⟩
  rw [hf]
  simp only [dictionaryTokens, readString_writeString]
  have hl : ([97] : Bytes).length < 2 ^ 63 := by decide
  simp only [hl, if_true, readByte]
  have h105 : ¬ (105 = endOfValue) := by decide
  have hdd : ¬ (105 = typeDictionary) := by decide
  have hli : ¬ (105 = typeList) := by decide
  have hi : (105 = typeInteger) = True := by decide
  simp only [h105, if_false, valueTokens, readValue, hdd, hli, hi, if_true,
    readBytes_append endOfValue body [endOfValue] hb, take_line]
  rw [readInteger_token body _ hb]
  cases parseInt body with
  | ok val => simp [readByte]
  | error e1 =>
    cases parseUint body with
    | ok val => simp [readByte]
    | error e2 => simp

/-- C15 (amended): for every input and every integer token `i<body>e` that
`Decode` reads in value position, at any depth (the value of any entry, an
element of a list): `Decode` succeeds only if the body is an optional sign `+`
or `-` followed by one or more decimal digits, and for every other body `Decode`
returns an error. -/
theorem integer_token_is_signed_digits (data body : Bytes)
    (h : body ∈ integerTokens data) :
    ((∃ D rest, Decode data = .ok D rest) → SignedDigits body) ∧
      (¬ SignedDigits body → ∃ D e, Decode data = .err D e) := by
  have key : ¬ SignedDigits body → ∃ D e, Decode data = .err D e := by
    intro hb
    unfold integerTokens at h
    unfold Decode
    cases hr : readByte data with
    | none => simp [hr] at h
    | some p =>
      obtain ⟨rootType, rest⟩ := p
      simp only [hr] at h ⊢
      by_cases ht : rootType ≠ typeDictionary
      · simp [ht] at h
      · simp only [ht, if_false] at h ⊢
        obtain ⟨d, e, hd⟩ := (bad_token_is_error body hb _).2.1 [] rest h
        exact ⟨some d, e, by simp only [readDictionary, hd]⟩
  refine ⟨?_, key⟩
  rintro ⟨D, rest, hok⟩
  by_contra hb
  obtain ⟨D1, e, he⟩ := key hb
  rw [he] at hok
  cases hok

theorem integer_token_is_signed_digits_witness :
    ascii " 7" ∈ integerTokens (ascii "d1:ai1e1:bl3:fooi 7ei9eee") ∧
      (((∃ D rest, Decode (ascii "d1:ai1e1:bl3:fooi 7ei9eee") = .ok D rest) →
          SignedDigits (ascii " 7")) ∧
        (¬ SignedDigits (ascii " 7") →
          ∃ D e, Decode (ascii "d1:ai1e1:bl3:fooi 7ei9eee") = .err D e)) :=
  ⟨by decide, integer_token_is_signed_digits (ascii "d1:ai1e1:bl3:fooi 7ei9eee") (ascii " 7")
    (by decide)⟩


/-! ## The buffered reader hands out the bytes of the caller's reader -/

theorem reader_ReadByte_none (b : Reader) (h : readByte (b.buf ++ b.src) = none) :
    b.ReadByte = none := by
  obtain ⟨buf, src⟩ := b
  cases buf with
  | cons c cs => simp [readByte] at h
  | nil =>
    cases src with
    | cons c cs => simp [readByte] at h
    | nil => simp [Reader.ReadByte, Reader.fill]

theorem reader_ReadByte_some (b : Reader) (c : Nat) (rest : Bytes)
    (h : readByte (b.buf ++ b.src) = some (c, rest)) :
    ∃ b1, b.ReadByte = some (c, b1) ∧ b1.buf ++ b1.src = rest ∧ b1.src <:+ b.src := by
  obtain ⟨buf, src⟩ := b
  cases buf with
  | cons x xs =>
    simp only [List.cons_append, readByte, Option.some.injEq, Prod.mk.injEq] at h
    obtain ⟨rfl, rfl⟩ := h
    exact ⟨⟨xs, src⟩, rfl, rfl, List.suffix_refl _⟩
  | nil =>
    cases src with
    | nil => simp [readByte] at h
    | cons x xs =>
      simp only [List.nil_append, readByte, Option.some.injEq, Prod.mk.injEq] at h
      obtain ⟨rfl, rfl⟩ := h
      have e : defaultBufSize - ([] : Bytes).length = 4095 + 1 := rfl
      refine ⟨⟨xs.take 4095, xs.drop 4095⟩, ?_, List.take_append_drop _ _, ?_⟩
      · simp only [Reader.ReadByte, Reader.fill, e, List.take_succ_cons, List.drop_succ_cons,
          List.nil_append]
      · exact (List.drop_suffix 4095 xs).trans (List.suffix_cons x xs)

theorem readBytes_append_none (d : Nat) (xs ys : Bytes) (h : readBytes d xs = none) :
    readBytes d (xs ++ ys) =
      match readBytes d ys with
      | none => none
      | some (line, rest) => some (xs ++ line, rest) := by
  induction xs with
  | nil =>
    rw [List.nil_append]
    cases hr : readBytes d ys with
    | none => rfl
    | some p => simp
  | cons c cs ih =>
    simp only [readBytes] at h
    split at h
    · cases h
    · rename_i hc
      have hcs : readBytes d cs = none := by
        cases hr : readBytes d cs with
        | none => rfl
        | some p => simp [hr] at h
      have := ih hcs
      show readBytes d (c :: (cs ++ ys)) = _
      simp only [readBytes, hc, if_false, this]
      cases hr : readBytes d ys with
      | none => rfl
      | some p => simp

theorem reader_ReadBytesLoop_agrees (delim : Nat) (fuel : Nat) :
    ∀ (full : Bytes) (b : Reader),
      2 * b.src.length + (if defaultBufSize ≤ b.buf.length then 1 else 0) < fuel →
      (readBytes delim (b.buf ++ b.src) = none →
        ∃ got, Reader.ReadBytesLoop delim fuel full b = .err got .eof) ∧
      (∀ line rest, readBytes delim (b.buf ++ b.src) = some (line, rest) →
        ∃ b1, Reader.ReadBytesLoop delim fuel full b = .ok (full ++ line) b1 ∧
          b1.buf ++ b1.src = rest ∧ b1.src <:+ b.src) := by
  induction fuel with
  | zero =>
    intro full b h
    omega
  | succ fuel ih =>
    intro full b hm
    obtain ⟨buf, src⟩ := b
    simp only at hm ⊢
    cases hs : readBytes delim buf with
    | some p =>
      obtain ⟨line0, rest0⟩ := p
      have e := readBytes_extend delim buf line0 rest0 src hs
      constructor
      · intro hn
        rw [e] at hn
        cases hn
      · intro line rest h
        rw [e] at h
        simp only [Option.some.injEq, Prod.mk.injEq] at h
        obtain ⟨rfl, rfl⟩ := h
        exact ⟨⟨rest0, src⟩, by simp only [Reader.ReadBytesLoop, hs], rfl, List.suffix_refl _⟩
    | none =>
      have e := readBytes_append_none delim buf src hs
      by_cases hfull : defaultBufSize ≤ buf.length
      · have hm1 : 2 * src.length +
            (if defaultBufSize ≤ ([] : Bytes).length then 1 else 0) < fuel := by
          simp only [hfull, if_true] at hm
          simp only [List.length_nil]
          have : ¬ (defaultBufSize ≤ 0) := by decide
          simp only [this, if_false]
          omega
        obtain ⟨ih1, ih2⟩ := ih (full ++ buf) ⟨[], src⟩ hm1
        simp only [List.nil_append] at ih1 ih2
        constructor
        · intro hn
          rw [e] at hn
          cases hsrc : readBytes delim src with
          | some p => simp [hsrc] at hn
          | none =>
            obtain ⟨got, hg⟩ := ih1 hsrc
            exact ⟨got, by simp only [Reader.ReadBytesLoop, hs, hfull, if_true, hg]⟩
        · intro line rest h
          rw [e] at h
          cases hsrc : readBytes delim src with
          | none => simp [hsrc] at h
          | some p =>
            obtain ⟨l2, r2⟩ := p
            simp only [hsrc, Option.some.injEq, Prod.mk.injEq] at h
            obtain ⟨rfl, rfl⟩ := h
            obtain ⟨b1, h1, h2, h3⟩ := ih2 l2 r2 hsrc
            refine ⟨b1, ?_, h2, h3⟩
            simp only [Reader.ReadBytesLoop, hs, hfull, if_true, h1, List.append_assoc]
      · by_cases hsrc : src = []
        · subst hsrc
          simp only [List.append_nil]
          constructor
          · intro _
            exact ⟨full ++ buf, by simp [Reader.ReadBytesLoop, hs, hfull]⟩
          · intro line rest h
            rw [hs] at h
            cases h
        · have hn : 0 < defaultBufSize - buf.length := by omega
          have hlen : 0 < src.length := List.length_pos.mpr hsrc
          have hdrop : (src.drop (defaultBufSize - buf.length)).length
              = src.length - (defaultBufSize - buf.length) := List.length_drop _ _
          have hflag : (if defaultBufSize ≤
              (buf ++ src.take (defaultBufSize - buf.length)).length then 1 else 0) ≤ 1 := by
            split <;> omega
          have hm1 : 2 * (Reader.fill ⟨buf, src⟩).src.length +
              (if defaultBufSize ≤ (Reader.fill ⟨buf, src⟩).buf.length then 1 else 0) < fuel := by
            simp only [Reader.fill]
            omega
          obtain ⟨ih1, ih2⟩ := ih full (Reader.fill ⟨buf, src⟩) hm1
          have eqin : (Reader.fill ⟨buf, src⟩).buf ++ (Reader.fill ⟨buf, src⟩).src = buf ++ src := by
            simp only [Reader.fill, List.append_assoc, List.take_append_drop]
          rw [eqin] at ih1 ih2
          have hsuf : (Reader.fill ⟨buf, src⟩).src <:+ src := by
            simp only [Reader.fill]
            exact List.drop_suffix _ _
          constructor
          · intro hn1
            obtain ⟨got, hg⟩ := ih1 hn1
            exact ⟨got, by simp only [Reader.ReadBytesLoop, hs, hfull, hsrc, if_false, hg]⟩
          · intro line rest h
            obtain ⟨b1, h1, h2, h3⟩ := ih2 line rest h
            exact ⟨b1, by simp only [Reader.ReadBytesLoop, hs, hfull, hsrc, if_false, h1], h2,
              h3.trans hsuf⟩

theorem reader_ReadBytes_none (delim : Nat) (b : Reader)
    (h : readBytes delim (b.buf ++ b.src) = none) :
    ∃ got, b.ReadBytes delim = .err got .eof := by
  have hm : 2 * b.src.length + (if defaultBufSize ≤ b.buf.length then 1 else 0)
      < 2 * b.src.length + 3 := by
    split <;> omega
  exact (reader_ReadBytesLoop_agrees delim _ [] b hm).1 h

theorem reader_ReadBytes_some (delim : Nat) (b : Reader) (line rest : Bytes)
    (h : readBytes delim (b.buf ++ b.src) = some (line, rest)) :
    ∃ b1, b.ReadBytes delim = .ok line b1 ∧ b1.buf ++ b1.src = rest ∧ b1.src <:+ b.src := by
  have hm : 2 * b.src.length + (if defaultBufSize ≤ b.buf.length then 1 else 0)
      < 2 * b.src.length + 3 := by
    split <;> omega
  obtain ⟨b1, h1, h2, h3⟩ := (reader_ReadBytesLoop_agrees delim _ [] b hm).2 line rest h
  exact ⟨b1, by simpa [Reader.ReadBytes] using h1, h2, h3⟩

theorem reader_Read_none (n : Nat) (b : Reader) (h : b.buf ++ b.src = []) :
    b.Read n = none := by
  obtain ⟨buf, src⟩ := b
  simp only [List.append_eq_nil] at h
  obtain ⟨rfl, rfl⟩ := h
  simp [Reader.Read]

theorem reader_Read_some (n : Nat) (b : Reader) (hn : 0 < n) (h : b.buf ++ b.src ≠ []) :
    ∃ p b1, b.Read n = some (p, b1) ∧ p ≠ [] ∧ p.length ≤ n ∧
      p ++ (b1.buf ++ b1.src) = b.buf ++ b.src ∧ b1.src <:+ b.src := by
  obtain ⟨buf, src⟩ := b
  obtain ⟨m, rfl⟩ : ∃ m, n = m + 1 := ⟨n - 1, by omega⟩
  cases buf with
  | cons c cs =>
    refine ⟨(c :: cs).take (m + 1), ⟨(c :: cs).drop (m + 1), src⟩, rfl, ?_, ?_, ?_,
      List.suffix_refl _⟩
    · simp
    · exact List.length_take_le _ _
    · simp only [← List.append_assoc, List.take_append_drop]
  | nil =>
    cases src with
    | nil => simp at h
    | cons c cs =>
      by_cases hbig : defaultBufSize ≤ m + 1
      · refine ⟨(c :: cs).take (m + 1), ⟨[], (c :: cs).drop (m + 1)⟩, ?_, ?_, ?_, ?_,
          List.drop_suffix _ _⟩
        · simp [Reader.Read, hbig]
        · simp
        · exact List.length_take_le _ _
        · simp only [List.nil_append, List.take_append_drop]
      · refine ⟨((c :: cs).take defaultBufSize).take (m + 1),
          ⟨((c :: cs).take defaultBufSize).drop (m + 1), (c :: cs).drop defaultBufSize⟩,
          ?_, ?_, ?_, ?_, List.drop_suffix _ _⟩
        · simp [Reader.Read, hbig]
        · have e : defaultBufSize = 4095 + 1 := rfl
          rw [e]
          simp
        · exact List.length_take_le _ _
        · simp only [← List.append_assoc, List.take_append_drop, List.nil_append]

theorem ReadAtLeast_agrees (fuel : Nat) :
    ∀ (need : Nat) (got : Bytes) (b : Reader), need ≤ fuel →
      (need ≤ (b.buf ++ b.src).length →
        ∃ b1, ReadAtLeast fuel need got b = .ok (got ++ (b.buf ++ b.src).take need) b1 ∧
          b1.buf ++ b1.src = (b.buf ++ b.src).drop need ∧ b1.src <:+ b.src) ∧
      ((b.buf ++ b.src).length < need →
        ∃ g, ReadAtLeast fuel need got b =
          .err g (if got = [] ∧ b.buf ++ b.src = [] then .eof else .unexpectedEOF)) := by
  induction fuel with
  | zero =>
    intro need got b hn
    obtain rfl : need = 0 := by omega
    refine ⟨fun _ => ⟨b, by simp [ReadAtLeast], by simp, List.suffix_refl _⟩, fun h => ?_⟩
    omega
  | succ fuel ih =>
    intro need got b hn
    cases need with
    | zero =>
      refine ⟨fun _ => ⟨b, by simp [ReadAtLeast], by simp, List.suffix_refl _⟩, fun h => ?_⟩
      omega
    | succ need =>
      by_cases hin : b.buf ++ b.src = []
      · have hr := reader_Read_none (need + 1) b hin
        constructor
        · intro hle
          rw [hin] at hle
          simp at hle
        · intro _
          exact ⟨got, by simp [ReadAtLeast, hr, hin]⟩
      · obtain ⟨p, b1, hr, hp, hpl, hsplit, hsuf⟩ :=
          reader_Read_some (need + 1) b (by omega) hin
        have hp1 : 0 < p.length := List.length_pos.mpr hp
        obtain ⟨ih1, ih2⟩ := ih (need + 1 - p.length) (got ++ p) b1 (by omega)
        have hlen : (b.buf ++ b.src).length = p.length + (b1.buf ++ b1.src).length := by
          rw [← hsplit, List.length_append]
        constructor
        · intro hle
          obtain ⟨b2, h1, h2, h3⟩ := ih1 (by omega)
          refine ⟨b2, ?_, ?_, h3.trans hsuf⟩
          · have ht : (p ++ (b1.buf ++ b1.src)).take (need + 1)
                = p ++ (b1.buf ++ b1.src).take (need + 1 - p.length) := by
              rw [@List.take_append_eq_append_take _ p (b1.buf ++ b1.src) (need + 1),
                List.take_of_length_le hpl]
            rw [← hsplit, ht, ← List.append_assoc]
            simp only [ReadAtLeast, hr, h1]
          · have hd : (p ++ (b1.buf ++ b1.src)).drop (need + 1)
                = (b1.buf ++ b1.src).drop (need + 1 - p.length) := by
              rw [@List.drop_append_eq_append_drop _ p (b1.buf ++ b1.src) (need + 1),
                List.drop_of_length_le hpl, List.nil_append]
            rw [h2, ← hsplit, hd]
        · intro hlt
          obtain ⟨g, hg⟩ := ih2 (by omega)
          refine ⟨g, ?_⟩
          have hne : ¬ (got ++ p = [] ∧ b1.buf ++ b1.src = []) := by
            intro hh
            exact hp (List.append_eq_nil.mp hh.1).2
          have hne2 : ¬ (got = [] ∧ b.buf ++ b.src = []) := fun hh => hin hh.2
          simp only [ReadAtLeast, hr, hg, hne, hne2, if_false]

theorem ReadFull_ok (n : Nat) (b : Reader) (h : n ≤ (b.buf ++ b.src).length) :
    ∃ b1, ReadFull n b = .ok ((b.buf ++ b.src).take n) b1 ∧
      b1.buf ++ b1.src = (b.buf ++ b.src).drop n ∧ b1.src <:+ b.src := by
  obtain ⟨b1, h1, h2, h3⟩ := (ReadAtLeast_agrees n n [] b (le_refl _)).1 h
  exact ⟨b1, by simpa [ReadFull] using h1, h2, h3⟩

theorem ReadFull_short (n : Nat) (b : Reader) (h : (b.buf ++ b.src).length < n) :
    ∃ g, ReadFull n b = .err g (if b.buf ++ b.src = [] then .eof else .unexpectedEOF) := by
  obtain ⟨g, hg⟩ := (ReadAtLeast_agrees n n [] b (le_refl _)).2 h
  exact ⟨g, by simpa [ReadFull] using hg⟩


/-! ## The decoder on the buffered reader -/

theorem agrees_ok_inv {α : Type} (b : Reader) (o : Outcome α) (w : α) (rest : Bytes)
    (h : o.agrees b (.ok w rest)) :
    ∃ b1, o = .ok w b1 ∧ b1.buf ++ b1.src = rest ∧ b1.src <:+ b.src := by
  cases o with
  | ok v b1 =>
    simp only [Outcome.agrees] at h
    obtain ⟨rfl, h2, h3⟩ := h
    exact ⟨b1, rfl, h2, h3⟩
  | err v e => simp [Outcome.agrees] at h
  | panic => simp [Outcome.agrees] at h
  | fuelOut => simp [Outcome.agrees] at h

theorem agrees_src {α : Type} (b b1 : Reader) (v : α) (r : Res α)
    (h : (Outcome.ok v b1).agrees b r) : b1.src <:+ b.src := by
  cases r with
  | ok w rest =>
    simp only [Outcome.agrees] at h
    exact h.2.2
  | err w e => simp [Outcome.agrees] at h
  | panic => simp [Outcome.agrees] at h
  | fuelOut => simp [Outcome.agrees] at h

theorem agrees_err_inv {α : Type} (b : Reader) (o : Outcome α) (w : α) (e : Error)
    (h : o.agrees b (.err w e)) : o = .err w e := by
  cases o with
  | ok v b1 => simp [Outcome.agrees] at h
  | err v e1 =>
    simp only [Outcome.agrees] at h
    obtain ⟨rfl, rfl⟩ := h
    rfl
  | panic => simp [Outcome.agrees] at h
  | fuelOut => simp [Outcome.agrees] at h

theorem agrees_panic_inv {α : Type} (b : Reader) (o : Outcome α)
    (h : o.agrees b .panic) : o = .panic := by
  cases o with
  | ok v b1 => simp [Outcome.agrees] at h
  | err v e1 => simp [Outcome.agrees] at h
  | panic => rfl
  | fuelOut => simp [Outcome.agrees] at h

theorem agrees_fuelOut_inv {α : Type} (b : Reader) (o : Outcome α)
    (h : o.agrees b .fuelOut) : o = .fuelOut := by
  cases o with
  | ok v b1 => simp [Outcome.agrees] at h
  | err v e1 => simp [Outcome.agrees] at h
  | panic => simp [Outcome.agrees] at h
  | fuelOut => rfl

theorem agrees_mono {α : Type} (b b0 : Reader) (o : Outcome α) (r : Res α)
    (h : o.agrees b r) (hs : b.src <:+ b0.src) : o.agrees b0 r := by
  cases o with
  | ok v b1 =>
    cases r with
    | ok w rest =>
      simp only [Outcome.agrees] at h ⊢
      exact ⟨h.1, h.2.1, h.2.2.trans hs⟩
    | err w e => simp [Outcome.agrees] at h
    | panic => simp [Outcome.agrees] at h
    | fuelOut => simp [Outcome.agrees] at h
  | err v e =>
    cases r with
    | ok w rest => simp [Outcome.agrees] at h
    | err w e1 => simpa [Outcome.agrees] using h
    | panic => simp [Outcome.agrees] at h
    | fuelOut => simp [Outcome.agrees] at h
  | panic =>
    cases r with
    | ok w rest => simp [Outcome.agrees] at h
    | err w e1 => simp [Outcome.agrees] at h
    | panic => simp [Outcome.agrees]
    | fuelOut => simp [Outcome.agrees] at h
  | fuelOut =>
    cases r with
    | ok w rest => simp [Outcome.agrees] at h
    | err w e1 => simp [Outcome.agrees] at h
    | panic => simp [Outcome.agrees] at h
    | fuelOut => simp [Outcome.agrees]

theorem buffered_readLength_error (b : Reader) (e : Error)
    (h : readLength (b.buf ++ b.src) = .error e) : Buffered.readLength b = .err 0 e := by
  unfold readLength at h
  cases hr : readBytes 58 (b.buf ++ b.src) with
  | none =>
    obtain ⟨got, hg⟩ := reader_ReadBytes_none 58 b hr
    simp only [hr, Except.error.injEq] at h
    simp only [Buffered.readLength, hg, h]
  | some p =>
    obtain ⟨valBytes, rest⟩ := p
    obtain ⟨b1, hB, _, _⟩ := reader_ReadBytes_some 58 b valBytes rest hr
    simp only [hr] at h
    cases hp : parseInt (valBytes.take (valBytes.length - 1)) with
    | error e1 =>
      simp only [hp, Except.error.injEq] at h
      simp only [Buffered.readLength, hB, hp, h]
    | ok val => simp [hp] at h

theorem buffered_readLength_ok (b : Reader) (val : Int) (rest : Bytes)
    (h : readLength (b.buf ++ b.src) = .ok (val, rest)) :
    ∃ b1, Buffered.readLength b = .ok val b1 ∧ b1.buf ++ b1.src = rest ∧
      b1.src <:+ b.src := by
  unfold readLength at h
  cases hr : readBytes 58 (b.buf ++ b.src) with
  | none => simp [hr] at h
  | some p =>
    obtain ⟨valBytes, rest1⟩ := p
    obtain ⟨b1, hB, h2, h3⟩ := reader_ReadBytes_some 58 b valBytes rest1 hr
    simp only [hr] at h
    cases hp : parseInt (valBytes.take (valBytes.length - 1)) with
    | error e1 => simp [hp] at h
    | ok val1 =>
      simp only [hp, Except.ok.injEq, Prod.mk.injEq] at h
      obtain ⟨rfl, rfl⟩ := h
      exact ⟨b1, by simp only [Buffered.readLength, hB, hp], h2, h3⟩

theorem buffered_readString_agrees (b : Reader) :
    (Buffered.readString b).agrees b (readString (b.buf ++ b.src)) := by
  cases hL : readLength (b.buf ++ b.src) with
  | error e =>
    have hB := buffered_readLength_error b e hL
    simp only [Buffered.readString, readString, hB, hL, Outcome.agrees, and_self]
  | ok p =>
    obtain ⟨len, rest⟩ := p
    obtain ⟨b1, hB, h2, h3⟩ := buffered_readLength_ok b len rest hL
    subst h2
    simp only [Buffered.readString, readString, hB, hL]
    by_cases hneg : len < 0
    · simp only [hneg, if_true, Outcome.agrees]
    · simp only [hneg, if_false]
      by_cases hn : len.toNat ≤ (b1.buf ++ b1.src).length
      · obtain ⟨b2, hF, h4, h5⟩ := ReadFull_ok len.toNat b1 hn
        simp only [hF, readFull, hn, if_true, Outcome.agrees, true_and]
        exact ⟨h4, h5.trans h3⟩
      · obtain ⟨g, hF⟩ := ReadFull_short len.toNat b1 (by omega)
        simp only [hF, readFull, hn, if_false]
        by_cases hin : b1.buf ++ b1.src = []
        · simp only [hin, if_true, Outcome.agrees, and_self]
        · simp only [hin, if_false, Outcome.agrees, and_self]

theorem buffered_readInteger_agrees (b : Reader) :
    (Buffered.readInteger b).agrees b (readInteger (b.buf ++ b.src)) := by
  cases hr : readBytes endOfValue (b.buf ++ b.src) with
  | none =>
    obtain ⟨got, hg⟩ := reader_ReadBytes_none endOfValue b hr
    simp only [Buffered.readInteger, readInteger, hg, hr, Outcome.agrees, and_self]
  | some p =>
    obtain ⟨valBytes, rest⟩ := p
    obtain ⟨b1, hB, h2, h3⟩ := reader_ReadBytes_some endOfValue b valBytes rest hr
    simp only [Buffered.readInteger, readInteger, hB, hr]
    cases hp : parseInt (valBytes.take (valBytes.length - 1)) with
    | ok val => simp only [Outcome.agrees, true_and]; exact ⟨h2, h3⟩
    | error e1 =>
      cases hu : parseUint (valBytes.take (valBytes.length - 1)) with
      | ok val => simp only [Outcome.agrees, true_and]; exact ⟨h2, h3⟩
      | error e2 => simp only [Outcome.agrees, and_self]

/-- The decoder on the buffered reader returns what the decoder returns on the
bytes that the reader has not handed out. -/
theorem buffered_decoder_agrees (fuel : Nat) :
    (∀ t b, (Buffered.readValue fuel t b).agrees b (readValue fuel t (b.buf ++ b.src))) ∧
    (∀ acc b, (Buffered.readDictionaryLoop fuel acc b).agrees b
      (readDictionaryLoop fuel acc (b.buf ++ b.src))) ∧
    (∀ acc b, (Buffered.readListLoop fuel acc b).agrees b
      (readListLoop fuel acc (b.buf ++ b.src))) := by
  induction fuel with
  | zero =>
    simp [Buffered.readValue, Buffered.readDictionaryLoop, Buffered.readListLoop, readValue,
      readDictionaryLoop, readListLoop, Outcome.agrees]
  | succ fuel ih =>
    obtain ⟨ihv, ihd, ihl⟩ := ih
    refine ⟨?_, ?_, ?_⟩
    · intro t b
      simp only [Buffered.readValue, readValue]
      split
      · have h := ihd [] b
        cases hL : readDictionaryLoop fuel [] (b.buf ++ b.src) with
        | ok d rest =>
          rw [hL] at h
          obtain ⟨b1, hB, h2, h3⟩ := agrees_ok_inv b _ d rest h
          simp only [hB, Outcome.agrees, true_and]
          exact ⟨h2, h3⟩
        | err d e =>
          rw [hL] at h
          simp only [agrees_err_inv b _ d e h, Outcome.agrees, and_self]
        | panic =>
          rw [hL] at h
          simp only [agrees_panic_inv b _ h, Outcome.agrees]
        | fuelOut =>
          rw [hL] at h
          simp only [agrees_fuelOut_inv b _ h, Outcome.agrees]
      · split
        · have h := ihl [] b
          cases hL : readListLoop fuel [] (b.buf ++ b.src) with
          | ok d rest =>
            rw [hL] at h
            obtain ⟨b1, hB, h2, h3⟩ := agrees_ok_inv b _ d rest h
            simp only [hB, Outcome.agrees, true_and]
            exact ⟨h2, h3⟩
          | err d e =>
            rw [hL] at h
            simp only [agrees_err_inv b _ d e h, Outcome.agrees, and_self]
          | panic =>
            rw [hL] at h
            simp only [agrees_panic_inv b _ h, Outcome.agrees]
          | fuelOut =>
            rw [hL] at h
            simp only [agrees_fuelOut_inv b _ h, Outcome.agrees]
        · split
          · exact buffered_readInteger_agrees b
          · have h := buffered_readString_agrees (b.UnreadByte t)
            have e : (b.UnreadByte t).buf ++ (b.UnreadByte t).src = t :: (b.buf ++ b.src) := rfl
            rw [e] at h
            cases hL : readString (t :: (b.buf ++ b.src)) with
            | ok d rest =>
              rw [hL] at h
              obtain ⟨b1, hB, h2, h3⟩ := agrees_ok_inv _ _ d rest h
              simp only [hB, Outcome.agrees, true_and]
              exact ⟨h2, h3⟩
            | err d e =>
              rw [hL] at h
              simp only [agrees_err_inv _ _ d e h, Outcome.agrees, and_self]
            | panic =>
              rw [hL] at h
              simp only [agrees_panic_inv _ _ h, Outcome.agrees]
            | fuelOut =>
              rw [hL] at h
              simp only [agrees_fuelOut_inv _ _ h, Outcome.agrees]
    · intro acc b
      simp only [Buffered.readDictionaryLoop, readDictionaryLoop]
      have h := buffered_readString_agrees b
      cases hL : readString (b.buf ++ b.src) with
      | err d e =>
        rw [hL] at h
        simp only [agrees_err_inv _ _ d e h, Outcome.agrees, and_self]
      | panic =>
        rw [hL] at h
        simp only [agrees_panic_inv _ _ h, Outcome.agrees]
      | fuelOut =>
        rw [hL] at h
        simp only [agrees_fuelOut_inv _ _ h, Outcome.agrees]
      | ok key inp1 =>
        rw [hL] at h
        obtain ⟨b1, hB, h2, s1⟩ := agrees_ok_inv _ _ key inp1 h
        subst h2
        simp only [hB]
        cases hL2 : readByte (b1.buf ++ b1.src) with
        | none => simp only [reader_ReadByte_none b1 hL2, Outcome.agrees, and_self]
        | some p =>
          obtain ⟨t, inp2⟩ := p
          obtain ⟨b2, hB2, h2, s2⟩ := reader_ReadByte_some b1 t inp2 hL2
          subst h2
          simp only [hB2]
          by_cases hte : t = endOfValue
          · simp only [hte, if_true, Outcome.agrees, true_and]
            exact s2.trans s1
          · simp only [hte, if_false]
            have hv := ihv t b2
            cases hL3 : readValue fuel t (b2.buf ++ b2.src) with
            | err d e =>
              rw [hL3] at hv
              simp only [agrees_err_inv _ _ d e hv, Outcome.agrees, and_self]
            | panic =>
              rw [hL3] at hv
              simp only [agrees_panic_inv _ _ hv, Outcome.agrees]
            | fuelOut =>
              rw [hL3] at hv
              simp only [agrees_fuelOut_inv _ _ hv, Outcome.agrees]
            | ok val inp3 =>
              rw [hL3] at hv
              obtain ⟨b3, hB3, h3, s3⟩ := agrees_ok_inv _ _ val inp3 hv
              subst h3
              simp only [hB3]
              cases hL4 : readByte (b3.buf ++ b3.src) with
              | none => simp only [reader_ReadByte_none b3 hL4, Outcome.agrees, and_self]
              | some q =>
                obtain ⟨t1, inp4⟩ := q
                obtain ⟨b4, hB4, h4, s4⟩ := reader_ReadByte_some b3 t1 inp4 hL4
                subst h4
                simp only [hB4]
                by_cases hte1 : t1 = endOfValue
                · simp only [hte1, if_true, Outcome.agrees, true_and]
                  exact ((s4.trans s3).trans s2).trans s1
                · simp only [hte1, if_false]
                  have hd := ihd (mapAssign acc key val) (b4.UnreadByte t1)
                  have e : (b4.UnreadByte t1).buf ++ (b4.UnreadByte t1).src
                      = t1 :: (b4.buf ++ b4.src) := rfl
                  rw [e] at hd
                  exact agrees_mono _ b _ _ hd (((s4.trans s3).trans s2).trans s1)
    · intro acc b
      simp only [Buffered.readListLoop, readListLoop]
      cases hL : readByte (b.buf ++ b.src) with
      | none => simp only [reader_ReadByte_none b hL, Outcome.agrees, and_self]
      | some p =>
        obtain ⟨t, inp1⟩ := p
        obtain ⟨b1, hB, h1, s1⟩ := reader_ReadByte_some b t inp1 hL
        subst h1
        simp only [hB]
        by_cases hte : t = endOfValue
        · simp only [hte, if_true, Outcome.agrees, true_and]
          exact s1
        · simp only [hte, if_false]
          have hv := ihv t b1
          cases hL3 : readValue fuel t (b1.buf ++ b1.src) with
          | err d e =>
            rw [hL3] at hv
            simp only [agrees_err_inv _ _ d e hv, Outcome.agrees, and_self]
          | panic =>
            rw [hL3] at hv
            simp only [agrees_panic_inv _ _ hv, Outcome.agrees]
          | fuelOut =>
            rw [hL3] at hv
            simp only [agrees_fuelOut_inv _ _ hv, Outcome.agrees]
          | ok val inp2 =>
            rw [hL3] at hv
            obtain ⟨b2, hB2, h2, s2⟩ := agrees_ok_inv _ _ val inp2 hv
            subst h2
            simp only [hB2]
            exact agrees_mono _ b _ _ (ihl (acc ++ [val]) b2) (s2.trans s1)

/-- `Decode` called with a reader that holds `data` returns what the embedding
`Decode` returns on `data`; what the decoder has not taken is split between the
buffer and the caller's reader. -/
theorem buffered_Decode_agrees (data : Bytes) :
    (Buffered.Decode data).agrees ⟨[], data⟩ (Decode data) := by
  unfold Buffered.Decode Decode
  cases hL : readByte data with
  | none =>
    have hB := reader_ReadByte_none ⟨[], data⟩ hL
    simp only [hB, Outcome.agrees, and_self]
  | some p =>
    obtain ⟨t, rest⟩ := p
    obtain ⟨b, hB, h1, s1⟩ := reader_ReadByte_some ⟨[], data⟩ t rest hL
    subst h1
    simp only [hB]
    by_cases ht : t ≠ typeDictionary
    · rw [if_pos ht, if_pos ht]
      simp only [Outcome.agrees, and_self]
    · rw [if_neg ht, if_neg ht]
      simp only [Buffered.readDictionary, readDictionary]
      have h := (buffered_decoder_agrees (2 * (b.buf ++ b.src).length + 1)).2.1 [] b
      cases hL2 : readDictionaryLoop (2 * (b.buf ++ b.src).length + 1) [] (b.buf ++ b.src) with
      | ok d rest =>
        rw [hL2] at h
        obtain ⟨b1, hB1, h2, h3⟩ := agrees_ok_inv b _ d rest h
        simp only [hB1, Outcome.agrees, true_and]
        exact ⟨h2, h3.trans s1⟩
      | err d e =>
        rw [hL2] at h
        simp only [agrees_err_inv b _ d e h, Outcome.agrees, and_self]
      | panic =>
        rw [hL2] at h
        simp only [agrees_panic_inv b _ h, Outcome.agrees]
      | fuelOut =>
        rw [hL2] at h
        simp only [agrees_fuelOut_inv b _ h, Outcome.agrees]

theorem reader_ReadByte_drains (data : Bytes) (t : Nat) (b : Reader)
    (h : (Reader.mk [] data).ReadByte = some (t, b)) (hlen : data.length ≤ defaultBufSize) :
    b.src = [] := by
  cases data with
  | nil => simp [Reader.ReadByte, Reader.fill] at h
  | cons c cs =>
    have e : defaultBufSize - ([] : Bytes).length = 4095 + 1 := rfl
    have hcs : cs.drop 4095 = [] := by
      apply List.drop_of_length_le
      simp only [List.length_cons] at hlen
      have : defaultBufSize = 4096 := rfl
      omega
    simp only [Reader.ReadByte, Reader.fill, e, List.take_succ_cons, List.drop_succ_cons,
      List.nil_append, hcs, Option.some.injEq, Prod.mk.injEq] at h
    rw [← h.2]

/-- A caller's reader that holds no more than one buffer is empty after a
successful `Decode`: the first read takes all of it into the buffer. -/
theorem buffered_Decode_drains (data : Bytes) (D : Option Dict) (b : Reader)
    (h : Buffered.Decode data = .ok D b) (hlen : data.length ≤ defaultBufSize) :
    b.src = [] := by
  unfold Buffered.Decode at h
  cases hR : (Reader.mk [] data).ReadByte with
  | none => simp [hR] at h
  | some p =>
    obtain ⟨t, b0⟩ := p
    have h0 := reader_ReadByte_drains data t b0 hR hlen
    simp only [hR] at h
    by_cases ht : t ≠ typeDictionary
    · rw [if_pos ht] at h
      cases h
    · rw [if_neg ht] at h
      generalize 2 * (b0.buf ++ b0.src).length + 1 = fuel at h
      have ha := (buffered_decoder_agrees fuel).2.1 [] b0
      unfold Buffered.readDictionary at h
      cases hB : Buffered.readDictionaryLoop fuel [] b0 with
      | ok d b1 =>
        rw [hB] at h ha
        simp only [Outcome.ok.injEq] at h
        have hs := agrees_src _ _ _ _ ha
        rw [h0] at hs
        rw [← h.2]
        exact List.eq_nil_of_suffix_nil hs
      | err d e1 =>
        rw [hB] at h
        cases h
      | panic =>
        rw [hB] at h
        cases h
      | fuelOut =>
        rw [hB] at h
        cases h

/-- C12 (counterexample): the caller's reader holds `d1:ai1ee` followed by
`xyz`.  `Decode` returns the dictionary, and the bytes `xyz` past the
terminator are no longer in the caller's reader, which is left empty: they have
been read into the buffer of the `bufio.Reader`. -/
theorem decode_reads_past_terminator :
    Buffered.Decode (ascii "d1:ai1ee") = .ok (some [(ascii "a", .int .int64 1)]) ⟨[], []⟩ ∧
      Buffered.Decode (ascii "d1:ai1ee" ++ ascii "xyz") =
        .ok (some [(ascii "a", .int .int64 1)]) ⟨ascii "xyz", []⟩ :=
  ⟨rfl, rfl⟩

/-- C12 (amended): when `Decode` succeeds with dictionary `D` on a reader that
holds `x`, it succeeds with the same dictionary on a reader that holds `x`
followed by any bytes `s`, and the decoder takes none of `s` from its buffered
reader: what it has not taken is what it had not taken of `x`, followed by `s`.
These bytes are split between the buffer and the caller's reader, and a
caller's reader that holds at most 4096 bytes is left empty. -/
theorem decode_ignores_trailing_bytes (x s : Bytes) (D : Option Dict) (b : Reader)
    (h : Buffered.Decode x = .ok D b) :
    ∃ b1, Buffered.Decode (x ++ s) = .ok D b1 ∧
      b1.buf ++ b1.src = b.buf ++ b.src ++ s ∧
      ((x ++ s).length ≤ defaultBufSize → b1.src = []) := by
  have hx := buffered_Decode_agrees x
  rw [h] at hx
  cases hL : Decode x with
  | err d e => simp [hL, Outcome.agrees] at hx
  | panic => simp [hL, Outcome.agrees] at hx
  | fuelOut => simp [hL, Outcome.agrees] at hx
  | ok D1 rest =>
    simp only [hL, Outcome.agrees] at hx
    obtain ⟨rfl, hrest, _⟩ := hx
    have hxs := buffered_Decode_agrees (x ++ s)
    rw [Decode_append x s D rest hL] at hxs
    obtain ⟨b1, hB, h2, _⟩ := agrees_ok_inv _ _ _ _ hxs
    exact ⟨b1, hB, by rw [h2, hrest], fun hlen => buffered_Decode_drains _ D b1 hB hlen⟩

theorem decode_ignores_trailing_bytes_witness :
    Buffered.Decode (ascii "d3:fooi42ee") =
        .ok (some [(ascii "foo", .int .int64 42)]) ⟨[], []⟩ ∧
      ∃ b1, Buffered.Decode (ascii "d3:fooi42ee" ++ ascii "e:garbage") =
          .ok (some [(ascii "foo", .int .int64 42)]) b1 ∧
        b1.buf ++ b1.src = ascii "e:garbage" ∧
        ((ascii "d3:fooi42ee" ++ ascii "e:garbage").length ≤ defaultBufSize → b1.src = []) :=
  ⟨rfl, decode_ignores_trailing_bytes (ascii "d3:fooi42ee") (ascii "e:garbage") _ ⟨[], []⟩ rfl⟩


end Bencode
